import Mathlib

/-! Peer sampling view (`URView`): embedding and verified properties.

Source files embedded here: `include/node_descriptor.h`, `src/node_descriptor.cc`,
`include/view.h`, `src/view.cc`, `include/view_proto_helper.h`, `include/server.h`,
`src/server.cc`, `include/client.h`, `src/client.cc`, `include/peer_sampling_service.h`,
`src/peer_sampling_service.cc`, `include/gossip.h`, `include/ts_ring_buffer.h`.

Modelling conventions.

* A `std::shared_ptr<NodeDescriptor>` is embedded as the value `(address, age)` of the object
  it points to.  Inside one view an address identifies one object: `_view` and `_node_lut`
  receive the same pointer in `append`, so a write through `_node_lut[a]` is a write to the
  element of `_view` that carries address `a` (or to `_self`).
* `_node_lut` (an `unordered_map` from address to descriptor) is embedded by its key list;
  `find(a) != end()` is list membership and `erase(a)` removes the key.
* `_eng` is the stream of outcomes still to be produced by the generator; a
  `uniform_int_distribution<>(0, k)` draw takes the head of the stream modulo `k + 1`.
* `std::priority_queue::top` returns some element that no other element exceeds; which of
  several equally old descriptors it returns is fixed by the library, and is an explicit
  parameter `tie` here, so that every statement holds for every tie-break.
* `int` members and `int` arithmetic are embedded in `Int` (exact as long as the values stay
  within 32 bits), `uint32_t` ages as `Nat` with an explicit `% 2^32` where the source
  increments.
* The deletion notifications (`notify_delete`) reach only the default empty handlers of
  `View::PeerSelector`, so they do not appear in the state.
* A selector (a `std::shared_ptr<View::PeerSelector>` held by the caller and by
  `_subscribers`) is identified by its position in `_subscribers`; a `std::shared_ptr<TSLog>`
  is embedded as the entries of the log it points to, a null pointer as `none`.
* A call that dereferences a null pointer has no result: it evaluates to `none`.
* The transport (gRPC) is the environment of the client: a call yields a status and a
  response message that the program does not control; the calls issued are recorded.  The
  callback of a call has run when `status_future.get()` returns, so a client operation is
  embedded as one sequential step.
* A thread object is embedded by its flags; what the thread does while it runs is not part
  of the state.
-/

namespace gossip

/-- The record of `class NodeDescriptor`: `_address` and `_age`. -/
structure NodeDescriptor where
  address : String
  age : Nat
deriving DecidableEq, Repr

/-- The values of `enum class SelectorType`. -/
inductive SelectorType where
  | TAIL
  | UNIFORM_RANDOM
  | UNIFORM_RANDOM_NO_REPLACEMENT
  | LOGGED_TAIL
  | LOGGED_UNIFORM_RANDOM
  | LOGGED_UNIFORM_RANDOM_NO_REPLACEMENT
deriving DecidableEq, Repr

/-- The record `VectorLog::LogEntry`: selector id, selected address, time in milliseconds. -/
structure LogEntry where
  id : String
  selected : String
  time : Nat
deriving DecidableEq, Repr

/-- A subscriber of the view.  Only the no-replacement selectors (plain and logged) carry
the `_qos_queue`; only the logged selectors carry `_log` (the pointer to the log sink, `none`
when null) and `_id`.  The other kinds keep the default no-op notification handlers. -/
structure PeerSelector where
  kind : SelectorType
  _qos_queue : List NodeDescriptor := []
  _log : Option (List LogEntry) := none
  _id : String := ""
deriving DecidableEq, Repr

/-- The outcomes the generator `_eng` is still going to produce. -/
abbrev Engine := Nat → Nat

/-- One draw of `std::uniform_int_distribution<>(0, hi)` from the engine. -/
def uniform_int (e : Engine) (hi : Nat) : Nat := e 0 % (hi + 1)

/-- The engine after one draw. -/
def Engine.advance (e : Engine) : Engine := fun i => e (i + 1)

/-- The members of `class URView`. -/
structure URView where
  _self : NodeDescriptor
  _size : Int
  _healing : Int
  _swap : Int
  _view : List NodeDescriptor := []
  _node_lut : List String := []
  _subscribers : List PeerSelector := []
  _eng : Engine := fun _ => 0
  _selector : Option Nat := none

/-- The constructor `URView::URView(address, size, healing, swap)`: self has age 0 and is
entered in the index; the generator is seeded from a random device, hence arbitrary; the
primary selector `_selector` is null. -/
def URView.new (address : String) (size healing swap : Int) (eng : Engine) : URView :=
  { _self := { address := address, age := 0 },
    _size := size, _healing := healing, _swap := swap,
    _view := [], _node_lut := [address], _subscribers := [], _eng := eng,
    _selector := none }

/-- The method `URView::contains`: `_node_lut.find(address) != _node_lut.end()`. -/
def URView.contains (v : URView) (address : String) : Bool :=
  decide (address ∈ v._node_lut)

/-- The addresses of the descriptors held in `_view`, in order. -/
def URView.addresses (v : URView) : List String := v._view.map NodeDescriptor.address

/-- `std::swap(xs[i], xs[j])` on a vector. -/
def swap_at {α : Type} (xs : List α) (i j : Nat) : List α :=
  match xs[i]?, xs[j]? with
  | some a, some b => (xs.set i b).set j a
  | _, _ => xs

/-- One round of the shuffle: position `i` is exchanged with a uniformly drawn position
in `0..i`. -/
def shuffle_step {α : Type} (s : List α × Engine) (i : Nat) : List α × Engine :=
  (swap_at s.1 i (uniform_int s.2 i), s.2.advance)

/-- The library call `std::shuffle(first, last, eng)`, as the Fisher-Yates loop over the
positions `1 .. n-1`. -/
def shuffle {α : Type} (xs : List α) (e : Engine) : List α × Engine :=
  (List.range' 1 (xs.length - 1)).foldl shuffle_step (xs, e)

/-- The method `URView::permute`. -/
def URView.permute (v : URView) : URView :=
  let r := shuffle v._view v._eng
  { v with _view := r.1, _eng := r.2 }

/-- Whether a selector is one of the two no-replacement kinds, which override `notify_add`. -/
def PeerSelector.is_urnr (s : PeerSelector) : Bool :=
  s.kind = SelectorType.UNIFORM_RANDOM_NO_REPLACEMENT ∨
    s.kind = SelectorType.LOGGED_UNIFORM_RANDOM_NO_REPLACEMENT

/-- The handler `notify_add(std::vector&)` of one subscriber: the no-replacement selector
queues the new descriptors and reshuffles its queue with the view's generator; every other
selector ignores the notification. -/
def PeerSelector.notify_add (s : PeerSelector) (new_nodes : List NodeDescriptor) (e : Engine) :
    PeerSelector × Engine :=
  if s.is_urnr then
    let r := shuffle (s._qos_queue ++ new_nodes) e
    ({ s with _qos_queue := r.1 }, r.2)
  else (s, e)

/-- The loop `for (auto& sub : _subscribers) sub->notify_add(added)`. -/
def notify_add_all : List PeerSelector → List NodeDescriptor → Engine →
    List PeerSelector × Engine
  | [], _, e => ([], e)
  | s :: rest, added, e =>
    let r := s.notify_add added e
    let r2 := notify_add_all rest added r.2
    (r.1 :: r2.1, r2.2)

/-- The write `_node_lut[a]->age() = age`, on the element of `_view` that is the indexed
object, or on `_self`.  A key whose descriptor has left `_view` points to an object that is
no longer part of the view, so the write does not change the view. -/
def URView.set_stored_age (v : URView) (a : String) (age : Nat) : URView :=
  if v._view.any (fun d => d.address = a) then
    { v with _view := v._view.map (fun d => if d.address = a then { d with age := age } else d) }
  else if v._self.address = a then
    { v with _self := { v._self with age := age } }
  else v

/-- The read `_node_lut[a]->age()`; `none` for a key whose descriptor has left `_view`. -/
def URView.stored_age (v : URView) (a : String) : Option Nat :=
  match v._view.find? (fun d => d.address = a) with
  | some d => some d.age
  | none => if v._self.address = a then some v._self.age else none

/-- The body of the loops in `URView::append`: an unknown address is pushed onto `_view`
and entered in `_node_lut`; for a known address the stored age is lowered to the incoming
age when it is strictly greater. -/
def URView.append_step (v : URView) (new_peer : NodeDescriptor) : URView :=
  if new_peer.address ∉ v._node_lut then
    { v with _view := v._view ++ [new_peer], _node_lut := v._node_lut ++ [new_peer.address] }
  else
    match v.stored_age new_peer.address with
    | some stored => if stored > new_peer.age then v.set_stored_age new_peer.address new_peer.age
                     else v
    | none => v

/-- The body of the loop of `URView::append(std::vector&)`, with the local vector `added`
that records the descriptors pushed. -/
def URView.append_body (s : URView × List NodeDescriptor) (new_peer : NodeDescriptor) :
    URView × List NodeDescriptor :=
  (s.1.append_step new_peer,
   if new_peer.address ∉ s.1._node_lut then s.2 ++ [new_peer] else s.2)

/-- The method `URView::append(std::vector&)`: the merge loop, then one batch notification. -/
def URView.append (v : URView) (new_peers : List NodeDescriptor) : URView :=
  let s := new_peers.foldl URView.append_body (v, [])
  let r := notify_add_all s.1._subscribers s.2 s.1._eng
  { s.1 with _subscribers := r.1, _eng := r.2 }

/-- The method `URView::append(std::shared_ptr<NodeDescriptor>)`: an unknown address is
pushed and notified; a known address has its stored age lowered when strictly greater. -/
def URView.append_one (v : URView) (new_peer : NodeDescriptor) : URView :=
  if new_peer.address ∉ v._node_lut then
    let r := notify_add_all v._subscribers [new_peer] v._eng
    { v with _view := v._view ++ [new_peer], _node_lut := v._node_lut ++ [new_peer.address],
             _subscribers := r.1, _eng := r.2 }
  else v.append_step new_peer

/-- The method `URView::manual_insert(std::shared_ptr<NodeDescriptor>)`. -/
def URView.manual_insert_one (v : URView) (new_node : NodeDescriptor) : URView :=
  v.append_one new_node

/-- The method `URView::manual_insert(std::vector&)`. -/
def URView.manual_insert (v : URView) (new_nodes : List NodeDescriptor) : URView :=
  v.append new_nodes

/-- The method `URView::head`: the first `num_get` descriptors of `_view` (all of them when
`num_get` exceeds the size, none when `num_get <= 0`). -/
def URView.head (v : URView) (num_get : Int) : List NodeDescriptor :=
  if num_get ≤ 0 then []
  else v._view.take (if num_get > v._view.length then v._view.length else num_get.toNat)

/-- The method `URView::increment_age`: `node->age()++` on every element of `_view`, in
unsigned 32-bit arithmetic. -/
def URView.increment_age (v : URView) : URView :=
  { v with _view := v._view.map (fun d => { d with age := (d.age + 1) % 2 ^ 32 }) }

/-- The elements `std::priority_queue::top` may return under `GossipNodeAgeComparator`:
those whose age no other element of the queue exceeds. -/
def pq_candidates (q : List NodeDescriptor) : List NodeDescriptor :=
  q.filter (fun d => q.all (fun e => decide (e.age ≤ d.age)))

/-- The call `age_q.top()`, the tie among equally old descriptors resolved by `t`. -/
def pq_top (t : Nat) (q : List NodeDescriptor) : Option NodeDescriptor :=
  (pq_candidates q)[t % (pq_candidates q).length]?

/-- The local variables of the second loop of `URView::move_old_to_back`. -/
structure MoveState where
  view : List NodeDescriptor
  idx_lut : String → Nat
  age_q : List NodeDescriptor
  back : Int

/-- The first loop of `URView::move_old_to_back`: `idx_lut[_view[i]->address()] = i`
for `i = 0, 1, ...`; a key never written reads as 0. -/
def build_idx_lut : List NodeDescriptor → Nat → (String → Nat) → (String → Nat)
  | [], _, lut => lut
  | d :: rest, i, lut => build_idx_lut rest (i + 1) (fun a => if a = d.address then i else lut a)

/-- One iteration of the second loop of `URView::move_old_to_back`: the oldest queued
descriptor is looked up in `idx_lut`, popped, swapped with position `back` unless it is
already there, and `back` moves one position down. -/
def move_step (t : Nat) (s : MoveState) : MoveState :=
  match pq_top t s.age_q with
  | none => s
  | some top =>
    let oldest_idx := s.idx_lut top.address
    let q := s.age_q.erase top
    if (oldest_idx : Int) ≠ s.back then
      let view := swap_at s.view oldest_idx s.back.toNat
      let idx_lut : String → Nat :=
        match view[oldest_idx]? with
        | some d => fun a => if a = d.address then oldest_idx else s.idx_lut a
        | none => s.idx_lut
      { view := view, idx_lut := idx_lut, age_q := q, back := s.back - 1 }
    else
      { s with age_q := q, back := s.back - 1 }

/-- The second loop of `URView::move_old_to_back`:
`for (i = 0; i < num_move && !age_q.empty(); ++i)`, with `k` iterations left. -/
def move_loop (tie : Nat → Nat) : Nat → Nat → MoveState → MoveState
  | 0, _, s => s
  | k + 1, i, s =>
    if s.age_q.isEmpty then s else move_loop tie k (i + 1) (move_step (tie i) s)

/-- The method `URView::move_old_to_back` on the vector `_view`. -/
def move_old_to_back_list (tie : Nat → Nat) (view : List NodeDescriptor) (num_move : Int) :
    List NodeDescriptor :=
  if num_move ≤ 0 ∨ view.isEmpty then view
  else
    let n : Nat := if num_move > view.length then view.length else num_move.toNat
    (move_loop tie n 0
      { view := view, idx_lut := build_idx_lut view 0 (fun _ => 0), age_q := view,
        back := (view.length : Int) - 1 }).view

/-- The method `URView::move_old_to_back`. -/
def URView.move_old_to_back (tie : Nat → Nat) (v : URView) (num_move : Int) : URView :=
  { v with _view := move_old_to_back_list tie v._view num_move }

/-- The loop of `URView::remove_old`, `k` times: the address of `_view.back()` is erased
from `_node_lut` and the element is popped. -/
def pop_back_loop : Nat → URView → URView
  | 0, v => v
  | k + 1, v =>
    match v._view.getLast? with
    | none => v
    | some d =>
      pop_back_loop k
        { v with _node_lut := v._node_lut.filter (fun a => a ≠ d.address),
                 _view := v._view.dropLast }

/-- The method `URView::remove_old`.  The deletion notification reaches only the default
no-op handlers, so it changes no state. -/
def URView.remove_old (tie : Nat → Nat) (v : URView) (num_remove : Int) : URView :=
  if num_remove ≤ 0 ∨ v._view.isEmpty then v
  else
    let n : Nat := if num_remove > v._view.length then v._view.length else num_remove.toNat
    pop_back_loop n (v.move_old_to_back tie n)

/-- The loop of `URView::remove_head`, `k` times: the address of `_view.front()` is erased
from `_node_lut`; `_view` is not touched inside the loop. -/
def erase_front_loop : Nat → URView → URView
  | 0, v => v
  | k + 1, v =>
    match v._view.head? with
    | none => v
    | some d =>
      erase_front_loop k { v with _node_lut := v._node_lut.filter (fun a => a ≠ d.address) }

/-- The method `URView::remove_head`: the loop, then
`_view.erase(_view.begin(), _view.begin() + num_remove)`. -/
def URView.remove_head (v : URView) (num_remove : Int) : URView :=
  if num_remove ≤ 0 ∨ v._view.isEmpty then v
  else
    let n : Nat := if num_remove > v._view.length then v._view.length else num_remove.toNat
    let v1 := erase_front_loop n v
    { v1 with _view := v1._view.drop n }

/-- The loop of `URView::remove_random`, `k` times: a position is drawn uniformly from
`0 .. size-1` and erased from `_view`; `_node_lut` is not touched. -/
def remove_random_loop : Nat → URView → URView
  | 0, v => v
  | k + 1, v =>
    remove_random_loop k
      { v with _view := v._view.eraseIdx (uniform_int v._eng (v._view.length - 1)),
               _eng := v._eng.advance }

/-- The method `URView::remove_random`. -/
def URView.remove_random (v : URView) (num_remove : Int) : URView :=
  if num_remove ≤ 0 ∨ v._view.isEmpty then v
  else
    let n : Nat := if num_remove > v._view.length then v._view.length else num_remove.toNat
    remove_random_loop n v

/-- The state of `URView::rx_nodes` after its first two statements: `append(nodes)` and
`remove_old(std::min(_healing, static_cast<int>(_view.size()) - _size))`. -/
def URView.rx_healed (tie : Nat → Nat) (v : URView) (nodes : List NodeDescriptor) : URView :=
  let v1 := v.append nodes
  v1.remove_old tie (min v1._healing ((v1._view.length : Int) - v1._size))

/-- The state of `URView::rx_nodes` after its third statement:
`remove_head(std::min(_swap, static_cast<int>(_view.size()) - _size))`. -/
def URView.rx_swapped (tie : Nat → Nat) (v : URView) (nodes : List NodeDescriptor) : URView :=
  let v2 := v.rx_healed tie nodes
  v2.remove_head (min v2._swap ((v2._view.length : Int) - v2._size))

/-- The method `URView::rx_nodes`: merge, then healing, swap and random removal, each
sized by the excess over `_size` at that moment; the last statement is
`remove_random(static_cast<int>(_view.size()) - _size)`. -/
def URView.rx_nodes (tie : Nat → Nat) (v : URView) (nodes : List NodeDescriptor) : URView :=
  let v3 := v.rx_swapped tie nodes
  v3.remove_random ((v3._view.length : Int) - v3._size)

/-- The method `URView::tx_nodes`: the buffer starts with `_self`; the view is permuted, the
`_healing` oldest are moved to the back, and the first `_size / 2 - 1` descriptors are
appended to the buffer.  Returns the buffer and the view afterwards. -/
def URView.tx_nodes (tie : Nat → Nat) (v : URView) : List NodeDescriptor × URView :=
  let v1 := v.permute
  let v2 := v1.move_old_to_back tie v1._healing
  (v2._self :: v2.head (Int.tdiv v2._size 2 - 1), v2)

/-- Well-formed view states: the addresses in `_view` are pairwise distinct, every one of
them is a key of `_node_lut`, and the view's own address is a key of `_node_lut`, is not in
`_view`, and has age 0. -/
structure URView.WF (v : URView) : Prop where
  nodup : v.addresses.Nodup
  covered : ∀ a ∈ v.addresses, a ∈ v._node_lut
  self_indexed : v._self.address ∈ v._node_lut
  self_absent : v._self.address ∉ v.addresses
  self_age : v._self.age = 0

/-- The enumerators of `SelectorType` by their integer values 0..5. -/
def SelectorType.of_code (code : Int) : Option SelectorType :=
  if code = 0 then some SelectorType.TAIL
  else if code = 1 then some SelectorType.UNIFORM_RANDOM
  else if code = 2 then some SelectorType.UNIFORM_RANDOM_NO_REPLACEMENT
  else if code = 3 then some SelectorType.LOGGED_TAIL
  else if code = 4 then some SelectorType.LOGGED_UNIFORM_RANDOM
  else if code = 5 then some SelectorType.LOGGED_UNIFORM_RANDOM_NO_REPLACEMENT
  else none

/-- Whether a selector is one of the three logged kinds, which override `select_peer`. -/
def PeerSelector.is_logged (s : PeerSelector) : Bool :=
  s.kind = SelectorType.LOGGED_TAIL ∨ s.kind = SelectorType.LOGGED_UNIFORM_RANDOM ∨
    s.kind = SelectorType.LOGGED_UNIFORM_RANDOM_NO_REPLACEMENT

/-- The constructors of the six selector classes on the view `v`: the no-replacement
constructor copies `_view` into its queue; the logged constructors store the log pointer
they are given (null by default) and the view's own address as id. -/
def PeerSelector.create (v : URView) (kind : SelectorType) (log : Option (List LogEntry)) :
    PeerSelector :=
  let sub : PeerSelector := { kind := kind }
  let sub := if sub.is_urnr then { sub with _qos_queue := v._view } else sub
  if sub.is_logged then { sub with _log := log, _id := v._self.address } else sub

/-- The method `URView::create_subscriber`: for each of the six selector kinds the new
selector is pushed onto `_subscribers` and returned; the `default` branch returns a null
pointer. -/
def URView.create_subscriber (v : URView) (type : Int) (log : Option (List LogEntry)) :
    Option PeerSelector × URView :=
  match SelectorType.of_code type with
  | some k =>
    (some (PeerSelector.create v k log),
     { v with _subscribers := v._subscribers ++ [PeerSelector.create v k log] })
  | none => (none, v)

/-- The method `URView::init_selector`: `_selector = create_subscriber(type, log)`; the new
selector is the last element of `_subscribers`, and `_selector` is null for an invalid
type. -/
def URView.init_selector (v : URView) (type : Int) (log : Option (List LogEntry)) : URView :=
  match (v.create_subscriber type log).1 with
  | some _ => { (v.create_subscriber type log).2 with _selector := some v._subscribers.length }
  | none => { v with _selector := none }

/-- The method `URNRPeerSelector::random_selection`, which is also the body of
`URPeerSelector::select_peer_impl`: a uniform draw from `_view` when it is not empty, a null
pointer otherwise (the distribution object built beforehand takes no draw). -/
def URView.random_selection (v : URView) : Option NodeDescriptor × Engine :=
  if v._view.isEmpty then (none, v._eng)
  else (v._view[uniform_int v._eng (v._view.length - 1)]?, v._eng.advance)

/-- The loop of `URNRPeerSelector::select_peer_impl`: the front of the queue is popped
until a descriptor is found whose address is a key of `_node_lut`; returns that descriptor
(or `none` when the queue runs empty) and the rest of the queue. -/
def qos_pop (lut : List String) :
    List NodeDescriptor → Option NodeDescriptor × List NodeDescriptor
  | [] => (none, [])
  | d :: rest => if d.address ∈ lut then (some d, rest) else qos_pop lut rest

/-- The method `URNRPeerSelector::select_peer_impl`: the queue is popped until a descriptor
with an indexed address comes up, which is returned; when the queue runs empty the selector
falls back to `random_selection()`.  Returns the selection, the selector and the generator
afterwards. -/
def PeerSelector.urnr_select_peer_impl (s : PeerSelector) (v : URView) :
    Option NodeDescriptor × PeerSelector × Engine :=
  match qos_pop v._node_lut s._qos_queue with
  | (some d, rest) => (some d, { s with _qos_queue := rest }, v._eng)
  | (none, rest) => (v.random_selection.1, { s with _qos_queue := rest }, v.random_selection.2)

/-- The method `select_peer_impl` of the selector `s` on the view `v`, by strategy: the tail
selector returns `_view.back()` (null on an empty view), the uniform selector draws, the
no-replacement selector pops its queue.  Returns the selection, the selector and the
generator afterwards. -/
def PeerSelector.select_peer_impl (s : PeerSelector) (v : URView) :
    Option NodeDescriptor × PeerSelector × Engine :=
  match s.kind with
  | SelectorType.TAIL | SelectorType.LOGGED_TAIL => (v._view.getLast?, s, v._eng)
  | SelectorType.UNIFORM_RANDOM | SelectorType.LOGGED_UNIFORM_RANDOM =>
    (v.random_selection.1, s, v.random_selection.2)
  | SelectorType.UNIFORM_RANDOM_NO_REPLACEMENT
  | SelectorType.LOGGED_UNIFORM_RANDOM_NO_REPLACEMENT => s.urnr_select_peer_impl v

/-- The virtual method `select_peer` of the selector `s` on the view `v` at clock reading
`now`: `select_peer_impl` for the plain kinds; `View::LoggedPeerSelector::select_peer` for
the logged kinds, which calls `select_peer_impl` and then `_log->push_back(_id, address of
the selection or "", now)`.  With a null `_log` the call has no result. -/
def PeerSelector.select_peer (s : PeerSelector) (v : URView) (now : Nat) :
    Option (Option NodeDescriptor × PeerSelector × Engine) :=
  if s.is_logged then
    let r := s.select_peer_impl v
    match r.2.1._log with
    | none => none
    | some log =>
      let selected_address := match r.1 with
        | some d => d.address
        | none => ""
      some (r.1, { r.2.1 with _log := some (log ++ [{ id := r.2.1._id,
                                                       selected := selected_address,
                                                       time := now }]) }, r.2.2)
  else some (s.select_peer_impl v)

/-- A call `select_peer()` on the subscriber at position `i` of `_subscribers`: the
selection and the view afterwards (the selector and the generator updated); no result for a
position that holds no subscriber or when the selector dereferences a null log. -/
def URView.select_peer_sub (v : URView) (i : Nat) (now : Nat) :
    Option (Option NodeDescriptor × URView) :=
  match v._subscribers[i]? with
  | none => none
  | some s =>
    match s.select_peer v now with
    | none => none
    | some r => some (r.1, { v with _subscribers := v._subscribers.set i r.2.1, _eng := r.2.2 })

/-- The method `URView::select_peer`: a null pointer when `_selector` is null, the primary
selector's `select_peer()` otherwise. -/
def URView.select_peer (v : URView) (now : Nat) : Option (Option NodeDescriptor × URView) :=
  match v._selector with
  | none => some (none, v)
  | some i => v.select_peer_sub i now

/-- The view states reachable from a freshly constructed view by calls of the public
mutating methods `rx_nodes`, `manual_insert` (both overloads), `tx_nodes`, `increment_age`,
`create_subscriber`, `init_selector` and of `select_peer` on a subscriber, with any
arguments, generator outcomes, tie-breaks and clock readings. -/
inductive Reachable : URView → Prop where
  | init (address : String) (size healing swap : Int) (eng : Engine) :
      Reachable (URView.new address size healing swap eng)
  | rx_nodes (tie : Nat → Nat) (v : URView) (nodes : List NodeDescriptor) :
      Reachable v → Reachable (v.rx_nodes tie nodes)
  | manual_insert_one (v : URView) (node : NodeDescriptor) :
      Reachable v → Reachable (v.manual_insert_one node)
  | manual_insert (v : URView) (nodes : List NodeDescriptor) :
      Reachable v → Reachable (v.manual_insert nodes)
  | tx_nodes (tie : Nat → Nat) (v : URView) :
      Reachable v → Reachable (v.tx_nodes tie).2
  | increment_age (v : URView) :
      Reachable v → Reachable v.increment_age
  | create_subscriber (v : URView) (type : Int) (log : Option (List LogEntry)) :
      Reachable v → Reachable (v.create_subscriber type log).2
  | init_selector (v : URView) (type : Int) (log : Option (List LogEntry)) :
      Reachable v → Reachable (v.init_selector type log)
  | select_peer_sub (v : URView) (i now : Nat) (r : Option NodeDescriptor × URView) :
      Reachable v → v.select_peer_sub i now = some r → Reachable r.2

/-- The first `k` calls `select_peer()` on the subscriber at position `i`, with no other
call in between: the selections in order and the view afterwards. -/
def URView.select_peer_n (v : URView) (i now : Nat) :
    Nat → Option (List (Option NodeDescriptor) × URView)
  | 0 => some ([], v)
  | k + 1 =>
    match v.select_peer_sub i now with
    | none => none
    | some r =>
      match r.2.select_peer_n i now k with
      | none => none
      | some rs => some (r.1 :: rs.1, rs.2)

/-- The local vector `removed` of `URView::remove_old` after `k` iterations of its loop:
the address of `_view.back()` is recorded before the element is popped. -/
def pop_back_removed : Nat → URView → List String
  | 0, _ => []
  | k + 1, v =>
    match v._view.getLast? with
    | none => []
    | some d =>
      d.address :: pop_back_removed k
        { v with _node_lut := v._node_lut.filter (fun a => a ≠ d.address),
                 _view := v._view.dropLast }

/-- The addresses that `URView::remove_old` hands to `notify_delete`; no notification at
all when it returns early. -/
def URView.remove_old_removed (tie : Nat → Nat) (v : URView) (num_remove : Int) :
    List String :=
  if num_remove ≤ 0 ∨ v._view.isEmpty then []
  else
    let n : Nat := if num_remove > v._view.length then v._view.length else num_remove.toNat
    pop_back_removed n (v.move_old_to_back tie n)

/-- The local vector `removed` of `URView::remove_head` after `k` iterations of its loop:
each iteration records the address of `_view.front()`, and `_view` is cut only after the
loop. -/
def erase_front_removed : Nat → URView → List String
  | 0, _ => []
  | k + 1, v =>
    match v._view.head? with
    | none => []
    | some d =>
      d.address :: erase_front_removed k
        { v with _node_lut := v._node_lut.filter (fun a => a ≠ d.address) }

/-- The addresses that `URView::remove_head` hands to `notify_delete`. -/
def URView.remove_head_removed (v : URView) (num_remove : Int) : List String :=
  if num_remove ≤ 0 ∨ v._view.isEmpty then []
  else
    let n : Nat := if num_remove > v._view.length then v._view.length else num_remove.toNat
    erase_front_removed n v

/-- The local vector `removed` of `URView::remove_random` after `k` iterations of its loop:
the address at the drawn position is recorded before the element is erased. -/
def remove_random_removed_loop : Nat → URView → List String
  | 0, _ => []
  | k + 1, v =>
    (match v._view[uniform_int v._eng (v._view.length - 1)]? with
     | some d => [d.address]
     | none => []) ++
    remove_random_removed_loop k
      { v with _view := v._view.eraseIdx (uniform_int v._eng (v._view.length - 1)),
               _eng := v._eng.advance }

/-- The addresses that `URView::remove_random` hands to `notify_delete`. -/
def URView.remove_random_removed (v : URView) (num_remove : Int) : List String :=
  if num_remove ≤ 0 ∨ v._view.isEmpty then []
  else
    let n : Nat := if num_remove > v._view.length then v._view.length else num_remove.toNat
    remove_random_removed_loop n v

/-- The descriptors that `URView::append(std::vector&)` hands to `notify_add`: the local
vector `added`. -/
def URView.append_added (v : URView) (new_peers : List NodeDescriptor) :
    List NodeDescriptor :=
  (new_peers.foldl URView.append_body (v, [])).2

/-- The addresses delivered to every subscriber by `notify_add` during one `rx_nodes`
call. -/
def URView.rx_notified_add (v : URView) (nodes : List NodeDescriptor) : List String :=
  (v.append_added nodes).map NodeDescriptor.address

/-- The addresses delivered to every subscriber by `notify_delete` during one `rx_nodes`
call: the batches of `remove_old`, `remove_head` and `remove_random`, in this order. -/
def URView.rx_notified_delete (tie : Nat → Nat) (v : URView) (nodes : List NodeDescriptor) :
    List String :=
  let v1 := v.append nodes
  let v2 := v.rx_healed tie nodes
  let v3 := v.rx_swapped tie nodes
  v1.remove_old_removed tie (min v1._healing ((v1._view.length : Int) - v1._size)) ++
  v2.remove_head_removed (min v2._swap ((v2._view.length : Int) - v2._size)) ++
  v3.remove_random_removed ((v3._view.length : Int) - v3._size)

/-! Wire messages (`include/view_proto_helper.h`, `src/node_descriptor.cc`) -/

/-- Modelled from the spec: the generated message type `NodeDescriptorProto` of
`gossip.pb.h`, which is not among the sources; the wire record is
`NodeMsg := { address: string; age: uint32 }`. -/
structure NodeDescriptorProto where
  address : String := ""
  age : Nat := 0
deriving DecidableEq, Repr

/-- Modelled from the spec: the generated message type `ViewProto` of `gossip.pb.h`, which
is not among the sources; the wire record is `ViewMsg := repeated NodeMsg nodes`. -/
structure ViewProto where
  nodes : List NodeDescriptorProto := []
deriving DecidableEq, Repr

/-- The constructor `NodeDescriptor(const NodeDescriptorProto& proto)`. -/
def NodeDescriptor.of_proto (proto : NodeDescriptorProto) : NodeDescriptor :=
  { address := proto.address, age := proto.age }

/-- The method `NodeDescriptor::make_proto`: `set_address(_address)` and `set_age(_age)` on
the message it is given. -/
def NodeDescriptor.make_proto (d : NodeDescriptor) (out_proto : NodeDescriptorProto) :
    NodeDescriptorProto :=
  { out_proto with address := d.address, age := d.age }

/-- The function `ViewProtoHelper::make_internal`: one new descriptor is pushed for every
node of the message, in order. -/
def ViewProtoHelper.make_internal (proto : ViewProto) : List NodeDescriptor :=
  proto.nodes.foldl (fun new_nodes node => new_nodes ++ [NodeDescriptor.of_proto node]) []

/-- The function `ViewProtoHelper::add_to_proto`: for every descriptor, in order,
`add_nodes()` appends a default node to the message and `make_proto` fills it. -/
def ViewProtoHelper.add_to_proto (in_nodes : List NodeDescriptor) (out_proto : ViewProto) :
    ViewProto :=
  in_nodes.foldl (fun out node => { out with nodes := out.nodes ++ [node.make_proto {}] })
    out_proto

/-- The function `ViewProtoHelper::make_proto`: `add_to_proto` on an empty message. -/
def ViewProtoHelper.make_proto (nodes : List NodeDescriptor) : ViewProto :=
  ViewProtoHelper.add_to_proto nodes {}

/-! Server, client and service (`src/server.cc`, `src/client.cc`,
`src/peer_sampling_service.cc`)

The three objects of one node share one view (a `std::shared_ptr<View>`); the view is
therefore passed to the server handlers and to the client operations and is held once, by
the service.  The transport is outside the program: what the client sees of it is a status
and a response message for every call it issues. -/

/-- The library type `grpc::Status`, by its status code (the numbering of
`grpc::StatusCode`) and its message. -/
structure Status where
  error_code : Nat
  error_message : String
deriving DecidableEq, Repr

/-- The code `grpc::StatusCode::OK`. -/
def StatusCode.OK : Nat := 0

/-- The code `grpc::StatusCode::DEADLINE_EXCEEDED`. -/
def StatusCode.DEADLINE_EXCEEDED : Nat := 4

/-- The code `grpc::StatusCode::NOT_FOUND`. -/
def StatusCode.NOT_FOUND : Nat := 5

/-- The code `grpc::StatusCode::UNAVAILABLE`. -/
def StatusCode.UNAVAILABLE : Nat := 14

/-- The value `grpc::Status::OK`. -/
def Status.OK : Status := { error_code := StatusCode.OK, error_message := "" }

/-- The method `grpc::Status::ok`. -/
def Status.ok (s : Status) : Bool := decide (s.error_code = StatusCode.OK)

/-- The handler `Server::PushView`: the request is converted, merged with `rx_nodes`, and
the view is aged.  Returns the status and the view afterwards. -/
def Server.PushView (tie : Nat → Nat) (view : URView) (request : ViewProto) :
    Status × URView :=
  let new_nodes := ViewProtoHelper.make_internal request
  (Status.OK, (view.rx_nodes tie new_nodes).increment_age)

/-- The handler `Server::PullView`: `tx_nodes`, then `increment_age`, then the payload is
added to the response message.  Returns the status, the response and the view afterwards. -/
def Server.PullView (tie : Nat → Nat) (view : URView) (response : ViewProto) :
    Status × ViewProto × URView :=
  let send := view.tx_nodes tie
  (Status.OK, ViewProtoHelper.add_to_proto send.1 response, send.2.increment_age)

/-- The handler `Server::PushPullView`: `tx_nodes` first and its payload added to the
response message; then the request is converted and merged with `rx_nodes`; then
`increment_age`.  Returns the status, the response and the view afterwards. -/
def Server.PushPullView (tie_tx tie_rx : Nat → Nat) (view : URView)
    (request response : ViewProto) : Status × ViewProto × URView :=
  let send := view.tx_nodes tie_tx
  let response := ViewProtoHelper.add_to_proto send.1 response
  let new_nodes := ViewProtoHelper.make_internal request
  (Status.OK, response, (send.2.rx_nodes tie_rx new_nodes).increment_age)

/-- The three methods of the service `GossipProtocol`. -/
inductive RpcMethod where
  | PushView
  | PullView
  | PushPullView
deriving DecidableEq, Repr

/-- One call issued through a stub: the address the channel was created for, the method,
and the request message (the empty message for `PullView`, whose request is
`google::protobuf::Empty`). -/
structure RpcCall where
  server_address : String
  method : RpcMethod
  request : ViewProto
deriving DecidableEq, Repr

/-- The transport as the client sees it: the calls issued so far, and the status and
response message it delivers for a call, given how many calls were issued before. -/
structure Net where
  sent : List RpcCall
  outcome : Nat → RpcCall → Status × ViewProto

/-- One call through `_stub->async()`, waited for with `status_future.get()`: the status
and response delivered, and the transport afterwards. -/
def Net.call (net : Net) (c : RpcCall) : (Status × ViewProto) × Net :=
  (net.outcome net.sent.length c, { net with sent := net.sent ++ [c] })

/-- The method `ClientSession::push_view`: the call is issued and its status returned; the
view is not touched. -/
def ClientSession.push_view (net : Net) (view : URView) (server_address : String)
    (tx_buf : ViewProto) : Status × URView × Net :=
  let r := net.call { server_address := server_address, method := RpcMethod.PushView,
                      request := tx_buf }
  (r.1.1, view, r.2)

/-- The method `ClientSession::pull_view`: the call is issued; when the status is ok the
response is converted, merged with `rx_nodes`, and the view is aged; the status is
returned. -/
def ClientSession.pull_view (tie : Nat → Nat) (net : Net) (view : URView)
    (server_address : String) : Status × URView × Net :=
  let r := net.call { server_address := server_address, method := RpcMethod.PullView,
                      request := {} }
  if !r.1.1.ok then (r.1.1, view, r.2)
  else
    let new_nodes := ViewProtoHelper.make_internal r.1.2
    (r.1.1, (view.rx_nodes tie new_nodes).increment_age, r.2)

/-- The method `ClientSession::push_pull_view`: the call is issued with the payload; when
the status is ok the response is converted, merged with `rx_nodes`, and the view is aged;
the status is returned. -/
def ClientSession.push_pull_view (tie : Nat → Nat) (net : Net) (view : URView)
    (server_address : String) (tx_buf : ViewProto) : Status × URView × Net :=
  let r := net.call { server_address := server_address, method := RpcMethod.PushPullView,
                      request := tx_buf }
  if !r.1.1.ok then (r.1.1, view, r.2)
  else
    let new_nodes := ViewProtoHelper.make_internal r.1.2
    (r.1.1, (view.rx_nodes tie new_nodes).increment_age, r.2)

/-- The overload `Client::push_view(std::string address)`: `tx_nodes`, `increment_age`, the
payload is converted and pushed through a session. -/
def Client.push_view_at (tie : Nat → Nat) (net : Net) (view : URView) (address : String) :
    Status × URView × Net :=
  let send := view.tx_nodes tie
  let view := send.2.increment_age
  let tx_buffer := ViewProtoHelper.make_proto send.1
  ClientSession.push_view net view address tx_buffer

/-- The overload `Client::pull_view(std::string address)`: a session pulls into a fresh
response buffer. -/
def Client.pull_view_at (tie : Nat → Nat) (net : Net) (view : URView) (address : String) :
    Status × URView × Net :=
  ClientSession.pull_view tie net view address

/-- The overload `Client::push_pull_view(std::string address)`: `tx_nodes`, the payload is
converted, and a session exchanges it for the response. -/
def Client.push_pull_view_at (tie_tx tie_rx : Nat → Nat) (net : Net) (view : URView)
    (address : String) : Status × URView × Net :=
  let send := view.tx_nodes tie_tx
  let tx_buffer := ViewProtoHelper.make_proto send.1
  ClientSession.push_pull_view tie_rx net send.2 address tx_buffer

/-- The method `Client::push_view()`: the peer is taken from `_view->select_peer()`; without
a peer the status is `NOT_FOUND`.  No result when `select_peer` has none. -/
def Client.push_view (tie : Nat → Nat) (now : Nat) (net : Net) (view : URView) :
    Option (Status × URView × Net) :=
  match view.select_peer now with
  | none => none
  | some (none, view) =>
    some ({ error_code := StatusCode.NOT_FOUND,
            error_message := "No Peer was selected to push view to." }, view, net)
  | some (some peer, view) => some (Client.push_view_at tie net view peer.address)

/-- The method `Client::pull_view()`: the peer is taken from `_view->select_peer()`; without
a peer the status is `NOT_FOUND`.  No result when `select_peer` has none. -/
def Client.pull_view (tie : Nat → Nat) (now : Nat) (net : Net) (view : URView) :
    Option (Status × URView × Net) :=
  match view.select_peer now with
  | none => none
  | some (none, view) =>
    some ({ error_code := StatusCode.NOT_FOUND,
            error_message := "No Peer was selected to pull view from." }, view, net)
  | some (some peer, view) => some (Client.pull_view_at tie net view peer.address)

/-- The method `Client::push_pull_view()`: the peer is taken from `_view->select_peer()`;
without a peer the status is `NOT_FOUND`.  No result when `select_peer` has none. -/
def Client.push_pull_view (tie_tx tie_rx : Nat → Nat) (now : Nat) (net : Net)
    (view : URView) : Option (Status × URView × Net) :=
  match view.select_peer now with
  | none => none
  | some (none, view) =>
    some ({ error_code := StatusCode.NOT_FOUND,
            error_message := "No Peer was selected to push/pull from." }, view, net)
  | some (some peer, view) =>
    some (Client.push_pull_view_at tie_tx tie_rx net view peer.address)

/-- The members of `class Client::Thread` seen from outside: the flag `_active`, and
whether `_thread` holds a running thread. -/
structure ClientThread where
  _active : Bool
  _thread : Bool
deriving DecidableEq, Repr

/-- The method `Client::thread`: a new `Thread` object, not active. -/
def Client.thread : ClientThread := { _active := false, _thread := false }

/-- The method `Client::Thread::start`: `_active` is set and the thread is created; when the
creation throws `std::system_error` (`spawned = false`) the flag is cleared again. -/
def ClientThread.start (t : ClientThread) (spawned : Bool) : ClientThread :=
  let t := { t with _active := true }
  if spawned then { t with _thread := true } else { t with _active := false }

/-- The members of `class PeerSamplingService`; `_gossip_client` and `_gossip_server` hold
nothing beyond the parameters and the shared view; a null `_client_thread` is `none`. -/
structure PeerSamplingService where
  _entered : Bool
  _push : Bool
  _pull : Bool
  _wait_time : Nat
  _timeout : Nat
  _entry_points : List String
  _view : URView
  _client_thread : Option ClientThread := none

/-- The constructor of `PeerSamplingService`: `_entered(false)`. -/
def PeerSamplingService.new (push pull : Bool) (wait_time timeout : Nat)
    (entry_points : List String) (view : URView) : PeerSamplingService :=
  { _entered := false, _push := push, _pull := pull, _wait_time := wait_time,
    _timeout := timeout, _entry_points := entry_points, _view := view,
    _client_thread := none }

/-- The state of the loop of `PeerSamplingService::enter`: the service, the transport, and
the statuses the exchanges have returned so far. -/
structure EnterState where
  service : PeerSamplingService
  net : Net
  statuses : List Status

/-- One iteration of the loop of `PeerSamplingService::enter` for the entry point `ep`:
while `_entered` is false a successful exchange sets it; afterwards the exchange is made
and its status ignored. -/
def PeerSamplingService.enter_step (tie_tx tie_rx : Nat → Nat) (s : EnterState)
    (ep : String) : EnterState :=
  let r := Client.push_pull_view_at tie_tx tie_rx s.net s.service._view ep
  if !s.service._entered then
    if r.1.ok then
      { service := { s.service with _view := r.2.1, _entered := true }, net := r.2.2,
        statuses := s.statuses ++ [r.1] }
    else
      { service := { s.service with _view := r.2.1 }, net := r.2.2,
        statuses := s.statuses ++ [r.1] }
  else
    { service := { s.service with _view := r.2.1 }, net := r.2.2,
      statuses := s.statuses ++ [r.1] }

/-- The loop `for (auto& ep : _entry_points)` of `PeerSamplingService::enter`; the exchange
of iteration `k` uses the tie-breaks `ties (2 * k)` and `ties (2 * k + 1)`. -/
def PeerSamplingService.enter_loop (ties : Nat → Nat → Nat) :
    List String → Nat → EnterState → EnterState
  | [], _, s => s
  | ep :: rest, k, s =>
    PeerSamplingService.enter_loop ties rest (k + 1)
      (PeerSamplingService.enter_step (ties (2 * k)) (ties (2 * k + 1)) s ep)

/-- The method `PeerSamplingService::enter`: with no entry point the service is entered at
once; otherwise every entry point is contacted in turn.  Returns `_entered` and the loop
state afterwards. -/
def PeerSamplingService.enter (ties : Nat → Nat → Nat) (s : PeerSamplingService)
    (net : Net) : Bool × EnterState :=
  if s._entry_points.length = 0 then
    (true, { service := { s with _entered := true }, net := net, statuses := [] })
  else
    let r := PeerSamplingService.enter_loop ties s._entry_points 0
      { service := s, net := net, statuses := [] }
    (r.service._entered, r)

/-- The method `PeerSamplingService::exit`: `_entered` is cleared and returned. -/
def PeerSamplingService.exit (s : PeerSamplingService) : Bool × PeerSamplingService :=
  (false, { s with _entered := false })

/-- The method `PeerSamplingService::start_client`: nothing unless `_entered`; otherwise a
new client thread object is stored and started. -/
def PeerSamplingService.start_client (s : PeerSamplingService) (spawned : Bool) :
    PeerSamplingService :=
  if !s._entered then s
  else { s with _client_thread := some (Client.thread.start spawned) }

/-- The getter `URView::size`: `return _size`. -/
def URView.size (v : URView) : Int := v._size

/-- The getter `URView::max_size`: `return _view.size()`. -/
def URView.max_size (v : URView) : Int := (v._view.length : Int)

/-- The members of `class PSSManager` instantiated with `PeerSamplingService` and `URView`;
the view is shared with the service, which holds it. -/
structure PSSManager where
  _service : PeerSamplingService

/-- The constructor of `PSSManager` for the view arguments `(size, healing, swap)`: the view
is made, the service is made on it, and `_view->init_selector(type)` is called with the
default log argument, a null pointer. -/
def PSSManager.new (address : String) (push pull : Bool) (wait_time timeout : Nat)
    (entry_points : List String) (type : Int) (size healing swap : Int) (eng : Engine) :
    PSSManager :=
  let _view := URView.new address size healing swap eng
  let _service := PeerSamplingService.new push pull wait_time timeout entry_points _view
  { _service := { _service with _view := _view.init_selector type none } }

/-- The method `PSSManager::view`. -/
def PSSManager.view (m : PSSManager) : URView := m._service._view

/-- The method `PSSManager::subscribe`: `_view->create_subscriber(type, log)`. -/
def PSSManager.subscribe (m : PSSManager) (type : Int) (log : Option (List LogEntry)) :
    Option PeerSelector × PSSManager :=
  let r := m._service._view.create_subscriber type log
  (r.1, { m with _service := { m._service with _view := r.2 } })

/-! Ring buffer (`include/ts_ring_buffer.h`)

The buffer is embedded with its mutex: `_lock` records whether the mutex is held.  The
embedding follows one thread, so a `std::lock_guard` constructed while `_lock` is held is
constructed by the thread that holds it; `std::mutex` is not recursive, and such a
construction never returns: it has no result. -/

/-- The members of `TSRingBuffer<T>`: the mutex (held or not), the storage `_data` of
`_max_size` slots (a slot that holds no constructed object is `none`), and the unsigned
32-bit counters. -/
structure TSRingBuffer (α : Type) where
  _lock : Bool
  _data : List (Option α)
  _head : Nat
  _tail : Nat
  _current_size : Nat
  _max_size : Nat
deriving DecidableEq, Repr

/-- The constructor `TSRingBuffer(max_size)`: raw storage for `max_size` objects, all
counters 0. -/
def TSRingBuffer.new (α : Type) (max_size : Nat) : TSRingBuffer α :=
  { _lock := false, _data := List.replicate max_size none, _head := 0, _tail := 0,
    _current_size := 0, _max_size := max_size }

/-- The statement `std::lock_guard<std::mutex> lock(_lock)`: no result when the mutex is
already held. -/
def TSRingBuffer.lock_guard {α : Type} (b : TSRingBuffer α) : Option (TSRingBuffer α) :=
  if b._lock then none else some { b with _lock := true }

/-- The method `TSRingBuffer::pop`: under the lock, the object at `_tail` is destroyed,
`_tail` moves on modulo `_max_size`, and `_current_size` is decremented. -/
def TSRingBuffer.pop {α : Type} (b : TSRingBuffer α) : Option (TSRingBuffer α) :=
  match b.lock_guard with
  | none => none
  | some b =>
    some { b with _data := b._data.set b._tail none,
                  _tail := (b._tail + 1) % 2 ^ 32 % b._max_size,
                  _current_size := (b._current_size + (2 ^ 32 - 1)) % 2 ^ 32,
                  _lock := false }

/-- The method `TSRingBuffer::push`: under the lock, `pop()` is called when the buffer is
full; then the object is constructed at `_head`, `_head` moves on modulo `_max_size`, and
`_current_size` is incremented. -/
def TSRingBuffer.push {α : Type} (b : TSRingBuffer α) (data : α) : Option (TSRingBuffer α) :=
  match b.lock_guard with
  | none => none
  | some b =>
    match (if b._current_size = b._max_size then b.pop else some b) with
    | none => none
    | some b =>
      some { b with _data := b._data.set b._head (some data),
                    _head := (b._head + 1) % 2 ^ 32 % b._max_size,
                    _current_size := (b._current_size + 1) % 2 ^ 32,
                    _lock := false }

/-- The method `TSRingBuffer::front`: under the lock, the object in slot `_tail`. -/
def TSRingBuffer.front {α : Type} (b : TSRingBuffer α) : Option (Option α) :=
  match b.lock_guard with
  | none => none
  | some b => some (b._data[b._tail]?).join

/-- The method `TSRingBuffer::consume`: `front()`, then `pop()`; returns the object and the
buffer afterwards. -/
def TSRingBuffer.consume {α : Type} (b : TSRingBuffer α) :
    Option (Option α × TSRingBuffer α) :=
  match b.front with
  | none => none
  | some temp =>
    match b.pop with
    | none => none
    | some b => some (temp, b)

/-- The method `TSRingBuffer::size`: under the lock, `_current_size`. -/
def TSRingBuffer.size {α : Type} (b : TSRingBuffer α) : Option Nat :=
  match b.lock_guard with
  | none => none
  | some b => some b._current_size

/-- The method `TSRingBuffer::data`: under the lock, the objects in the slots
`(_tail + i) % _max_size` for `i = 0 .. _current_size - 1`. -/
def TSRingBuffer.data {α : Type} (b : TSRingBuffer α) : Option (List (Option α)) :=
  match b.lock_guard with
  | none => none
  | some b =>
    some ((List.range b._current_size).map
      (fun i => (b._data[(b._tail + i) % 2 ^ 32 % b._max_size]?).join))

/-! Lock discipline of the view (`include/view.h`, `src/view.cc`)

For the lock discipline every function of the view and of its selectors is embedded a
second time, by what its statements do to the mutex `_lock` of the view and to the state
the lock is there for: the statements in program order, a loop body once, the branches of
a conditional one after the other.  A `std::lock_guard` is a `lock` where it is declared
and an `unlock` where its scope ends.  The private functions take no lock; their steps are
part of the steps of the public functions that call them. -/

/-- The parts of the state of a view that its lock is there for: `_view`, `_node_lut`,
`_eng` and `_subscribers`. -/
inductive Shared where
  | nodes
  | index
  | rng
  | subscribers
deriving DecidableEq, Repr

/-- What one statement does: it constructs a guard on `_lock`, ends the scope of the
guard, reads a part of the shared state or writes it. -/
inductive LockStep where
  | lock
  | unlock
  | read (s : Shared)
  | write (s : Shared)
deriving DecidableEq, Repr

/-- The steps of `URView::head`: it copies a range of `_view`. -/
def URView.head_steps : List LockStep := [LockStep.read Shared.nodes]

/-- The steps of `URView::permute`: `std::shuffle` over `_view` with `_eng`. -/
def URView.permute_steps : List LockStep :=
  [LockStep.write Shared.nodes, LockStep.write Shared.rng]

/-- The steps of `URView::move_old_to_back`: it reads `_view` into the queue and swaps
elements of `_view`. -/
def URView.move_old_to_back_steps : List LockStep :=
  [LockStep.read Shared.nodes, LockStep.write Shared.nodes]

/-- The steps of `notify_add` of a selector of the given kind (both overloads): the
no-replacement selectors extend their queue and shuffle it with the generator `_eng` of the
view; the other kinds have the empty default handler. -/
def PeerSelector.notify_add_steps : SelectorType → List LockStep
  | SelectorType.UNIFORM_RANDOM_NO_REPLACEMENT => [LockStep.write Shared.rng]
  | SelectorType.LOGGED_UNIFORM_RANDOM_NO_REPLACEMENT => [LockStep.write Shared.rng]
  | _ => []

/-- The steps of the loops `for (auto& sub : _subscribers) sub->notify_add(...)` over
subscribers of the given kinds. -/
def URView.notify_all_steps (subs : List SelectorType) : List LockStep :=
  LockStep.read Shared.subscribers :: (subs.map PeerSelector.notify_add_steps).flatten

/-- The steps of `URView::append` (both overloads): the lookup in `_node_lut`, the push
onto `_view`, the entry in `_node_lut`, the age read and written through `_node_lut`, and
the notification of the subscribers. -/
def URView.append_steps (subs : List SelectorType) : List LockStep :=
  [LockStep.read Shared.index, LockStep.write Shared.nodes, LockStep.write Shared.index,
   LockStep.read Shared.index, LockStep.write Shared.nodes] ++ URView.notify_all_steps subs

/-- The steps of `URView::remove_old`; `notify_delete` reaches the empty default handler of
every kind. -/
def URView.remove_old_steps : List LockStep :=
  [LockStep.read Shared.nodes] ++ URView.move_old_to_back_steps ++
  [LockStep.read Shared.nodes, LockStep.write Shared.index, LockStep.write Shared.nodes,
   LockStep.read Shared.subscribers]

/-- The steps of `URView::remove_head`. -/
def URView.remove_head_steps : List LockStep :=
  [LockStep.read Shared.nodes, LockStep.write Shared.index, LockStep.write Shared.nodes,
   LockStep.read Shared.subscribers]

/-- The steps of `URView::remove_random`. -/
def URView.remove_random_steps : List LockStep :=
  [LockStep.read Shared.nodes, LockStep.write Shared.rng, LockStep.write Shared.nodes,
   LockStep.read Shared.subscribers]

/-- The steps of `URView::rx_nodes`: the guard, then `append` and the three removals. -/
def URView.rx_nodes_steps (subs : List SelectorType) : List LockStep :=
  LockStep.lock :: (URView.append_steps subs ++ (URView.remove_old_steps ++
    URView.remove_head_steps ++ URView.remove_random_steps ++ [LockStep.unlock]))

/-- The steps of `URView::tx_nodes`: `_self` is pushed before the guard (it is not part of
the shared state, the pointer never changes); then the guard, `permute`,
`move_old_to_back` and `head`. -/
def URView.tx_nodes_steps : List LockStep :=
  [LockStep.lock] ++ URView.permute_steps ++ URView.move_old_to_back_steps ++
  URView.head_steps ++ [LockStep.unlock]

/-- The steps of `URView::increment_age`. -/
def URView.increment_age_steps : List LockStep :=
  [LockStep.lock, LockStep.write Shared.nodes, LockStep.unlock]

/-- The steps of `URView::manual_insert` (both overloads): the guard, then `append`. -/
def URView.manual_insert_steps (subs : List SelectorType) : List LockStep :=
  LockStep.lock :: (URView.append_steps subs ++ [LockStep.unlock])

/-- The steps of `URView::max_size`: `return _view.size()`, no guard. -/
def URView.max_size_steps : List LockStep := [LockStep.read Shared.nodes]

/-- The steps of `URView::contains`: the lookup in `_node_lut`, no guard. -/
def URView.contains_steps : List LockStep := [LockStep.read Shared.index]

/-- The steps of `URView::print`: the loop over `_view`, no guard. -/
def URView.print_steps : List LockStep := [LockStep.read Shared.nodes]

/-- The steps of the constructor of a selector of the given kind: the no-replacement
constructor copies `_view` into its queue under a guard; the others touch no shared
state. -/
def PeerSelector.create_steps : SelectorType → List LockStep
  | SelectorType.UNIFORM_RANDOM_NO_REPLACEMENT =>
    [LockStep.lock, LockStep.read Shared.nodes, LockStep.unlock]
  | SelectorType.LOGGED_UNIFORM_RANDOM_NO_REPLACEMENT =>
    [LockStep.lock, LockStep.read Shared.nodes, LockStep.unlock]
  | _ => []

/-- The steps of `URView::create_subscriber` for a valid kind: the constructor, then
`_subscribers.push_back(sub)`, no guard. -/
def URView.create_subscriber_steps (kind : SelectorType) : List LockStep :=
  PeerSelector.create_steps kind ++ [LockStep.write Shared.subscribers]

/-- The steps of `URView::init_selector`: `create_subscriber`, then the assignment to
`_selector`. -/
def URView.init_selector_steps (kind : SelectorType) : List LockStep :=
  URView.create_subscriber_steps kind

/-- The steps of `URNRPeerSelector::random_selection`: the distribution is built from
`_view.size()` before the guard is declared; the draw is under the guard. -/
def PeerSelector.random_selection_steps : List LockStep :=
  [LockStep.read Shared.nodes, LockStep.lock, LockStep.read Shared.nodes,
   LockStep.read Shared.nodes, LockStep.write Shared.rng, LockStep.unlock]

/-- The steps of `select_peer_impl` of a selector of the given kind (the logged wrapper
adds the push onto its log, which is no part of the view): the tail and the uniform
selectors work under one guard; the no-replacement selector pops its queue against
`_node_lut` under a guard in a scope of its own and then calls `random_selection`. -/
def PeerSelector.select_peer_steps : SelectorType → List LockStep
  | SelectorType.TAIL | SelectorType.LOGGED_TAIL =>
    [LockStep.lock, LockStep.read Shared.nodes, LockStep.read Shared.nodes, LockStep.unlock]
  | SelectorType.UNIFORM_RANDOM | SelectorType.LOGGED_UNIFORM_RANDOM =>
    [LockStep.lock, LockStep.read Shared.nodes, LockStep.read Shared.nodes,
     LockStep.read Shared.nodes, LockStep.write Shared.rng, LockStep.unlock]
  | SelectorType.UNIFORM_RANDOM_NO_REPLACEMENT
  | SelectorType.LOGGED_UNIFORM_RANDOM_NO_REPLACEMENT =>
    [LockStep.lock, LockStep.read Shared.index, LockStep.unlock] ++
    PeerSelector.random_selection_steps

/-- The steps of `print` of a selector of the given kind: the tail selector reads
`_view.back()`; every kind prints the view; no guard. -/
def PeerSelector.print_steps : SelectorType → List LockStep
  | SelectorType.TAIL | SelectorType.LOGGED_TAIL =>
    LockStep.read Shared.nodes :: URView.print_steps
  | _ => URView.print_steps

/-- The steps of `URView::select_peer` with a primary selector of the given kind: the test
of `_selector` under a guard in a scope of its own, then `_selector->select_peer()`. -/
def URView.select_peer_steps (kind : SelectorType) : List LockStep :=
  [LockStep.lock, LockStep.unlock] ++ PeerSelector.select_peer_steps kind

/-- Whether every read and write of shared state in the steps happens while the lock is
held; `held` says whether it is held at the start. -/
def accesses_under_lock : Bool → List LockStep → Bool
  | _, [] => true
  | _, LockStep.lock :: rest => accesses_under_lock true rest
  | _, LockStep.unlock :: rest => accesses_under_lock false rest
  | held, LockStep.read _ :: rest => held && accesses_under_lock held rest
  | held, LockStep.write _ :: rest => held && accesses_under_lock held rest

/-- Whether no guard is constructed in the steps while the lock is held. -/
def never_relocks : Bool → List LockStep → Bool
  | _, [] => true
  | held, LockStep.lock :: rest => !held && never_relocks true rest
  | _, LockStep.unlock :: rest => never_relocks false rest
  | held, LockStep.read _ :: rest => never_relocks held rest
  | held, LockStep.write _ :: rest => never_relocks held rest

/-- The six selector kinds. -/
def SelectorType.all : List SelectorType :=
  [SelectorType.TAIL, SelectorType.UNIFORM_RANDOM, SelectorType.UNIFORM_RANDOM_NO_REPLACEMENT,
   SelectorType.LOGGED_TAIL, SelectorType.LOGGED_UNIFORM_RANDOM,
   SelectorType.LOGGED_UNIFORM_RANDOM_NO_REPLACEMENT]

/-- The public operations of a view whose subscribers have the kinds `subs`, and of its
selectors, each with its steps. -/
def public_operations (subs : List SelectorType) : List (String × List LockStep) :=
  [("rx_nodes", URView.rx_nodes_steps subs),
   ("tx_nodes", URView.tx_nodes_steps),
   ("increment_age", URView.increment_age_steps),
   ("manual_insert", URView.manual_insert_steps subs),
   ("max_size", URView.max_size_steps),
   ("contains", URView.contains_steps),
   ("print", URView.print_steps)] ++
  SelectorType.all.map (fun k => ("create_subscriber", URView.create_subscriber_steps k)) ++
  SelectorType.all.map (fun k => ("init_selector", URView.init_selector_steps k)) ++
  SelectorType.all.map (fun k => ("select_peer", URView.select_peer_steps k)) ++
  SelectorType.all.map (fun k => ("selector select_peer", PeerSelector.select_peer_steps k)) ++
  SelectorType.all.map (fun k => ("selector print", PeerSelector.print_steps k))

/-- Steps that neither lock nor unlock. -/
def LockStep.plain : LockStep → Bool
  | LockStep.lock => false
  | LockStep.unlock => false
  | _ => true

/-! Vocabulary of the claims -/

/-- The invariant of the second loop of `URView::move_old_to_back`: `age_q` holds exactly
the first `age_q.size()` elements of the vector, `back` is the last of those positions,
`idx_lut` gives the position of every queued descriptor, and nothing queued is older than
anything behind `back`. -/
structure MoveInv (s : MoveState) : Prop where
  nodup : (s.view.map NodeDescriptor.address).Nodup
  back_eq : s.back = (s.age_q.length : Int) - 1
  queue : s.age_q.Perm (s.view.take s.age_q.length)
  idx : ∀ d ∈ s.age_q, s.view[s.idx_lut d.address]? = some d
  sorted : ∀ x ∈ s.view.drop s.age_q.length, ∀ y ∈ s.age_q, y.age ≤ x.age

/-- Follows the wording of the claim: the first occurrence of each address of a list, in
arrival order. -/
def first_occurrences : List String → List String
  | [] => []
  | a :: rest => a :: first_occurrences (rest.filter (fun b => b ≠ a))
termination_by l => l.length
decreasing_by
  simp only [List.length_cons]
  exact Nat.lt_succ_of_le (List.length_filter_le _ _)

/-- The ages that a list of descriptors records for the address `a`. -/
def ages_of (l : List NodeDescriptor) (a : String) : List Nat :=
  (l.filter (fun d => d.address = a)).map NodeDescriptor.age

/-- The numeric value of an enumerator of `SelectorType`. -/
def SelectorType.code : SelectorType → Int
  | SelectorType.TAIL => 0
  | SelectorType.UNIFORM_RANDOM => 1
  | SelectorType.UNIFORM_RANDOM_NO_REPLACEMENT => 2
  | SelectorType.LOGGED_TAIL => 3
  | SelectorType.LOGGED_UNIFORM_RANDOM => 4
  | SelectorType.LOGGED_UNIFORM_RANDOM_NO_REPLACEMENT => 5

/-- The local `selected_address` of `View::LoggedPeerSelector::select_peer`: the address of
the selection, or the empty string for a null selection. -/
def selected_address (selected : Option NodeDescriptor) : String :=
  match selected with
  | some d => d.address
  | none => ""

/-- Every logged subscriber of the view carries the view's own address as `_id`. -/
def URView.IdsOk (v : URView) : Prop :=
  ∀ s ∈ v._subscribers, s.is_logged = true → s._id = v._self.address

/-- The log of the subscriber at position `i`, when there is one and its sink is present. -/
def URView.log_of (v : URView) (i : Nat) : Option (List LogEntry) :=
  match v._subscribers[i]? with
  | some s => s._log
  | none => none

/-- Follows the wording of the claim: the elements of a sequence pushed one after the
other; no result as soon as one push has none. -/
def TSRingBuffer.push_all {α : Type} (b : TSRingBuffer α) : List α → Option (TSRingBuffer α)
  | [] => some b
  | x :: rest =>
    match b.push x with
    | none => none
    | some b => b.push_all rest

/-- The buffer of capacity `m` after the elements `pre` were pushed onto it while it was
not full: they occupy the first slots, `_tail` is 0. -/
def TSRingBuffer.filled {α : Type} (m : Nat) (pre : List α) : TSRingBuffer α :=
  { _lock := false,
    _data := pre.map some ++ List.replicate (m - pre.length) none,
    _head := pre.length % m, _tail := 0, _current_size := pre.length, _max_size := m }

/-! Example data -/

/-- The fixture of `test/view_ut.cc`: a fresh view with size 10, healing 5 and swap 5. -/
def fixture_view : URView := URView.new "192.168.225.1:5012" 10 5 5 (fun i => 7 * i + 3)

/-- The helper `vector_of_nodes` of `test/view_ut.cc`: `num_nodes` descriptors with
consecutive ports and ages `0 .. num_nodes-1`. -/
def vector_of_nodes (num_nodes : Nat) : List NodeDescriptor :=
  (List.range num_nodes).map
    (fun i => { address := "192.168.225.1:" ++ toString (5012 + i + 1), age := i })

/-- A fresh view of capacity 1 without healing or swap, whose generator always yields 0. -/
def tiny_view : URView := URView.new "self" 1 0 0 (fun _ => 0)

/-- A fresh view of capacity 1 without healing and with swap 2. -/
def tiny_swap_view : URView := URView.new "self" 1 0 2 (fun _ => 0)

/-- A fresh view constructed with the negative size -1 and healing 5. -/
def negative_size_view : URView := URView.new "self" (-1) 5 0 (fun _ => 0)

/-- Five further descriptors with ages 0..4, as in the over-capacity scenario. -/
def five_new_nodes : List NodeDescriptor :=
  [⟨"n0", 0⟩, ⟨"n1", 1⟩, ⟨"n2", 2⟩, ⟨"n3", 3⟩, ⟨"n4", 4⟩]

/-- The fixture view after `rx_nodes` of ten descriptors with ages 0..9. -/
def fixture_full_view : URView := fixture_view.rx_nodes (fun _ => 0) (vector_of_nodes 10)

/-- A view that holds one descriptor with the largest unsigned 32-bit age. -/
def max_age_view : URView := tiny_view.append [⟨"a", 4294967295⟩]

/-- A view of size 0 whose generator always yields 0. -/
def zero_size_view : URView := URView.new "self" 0 0 0 (fun _ => 0)

/-- The fixture view with ten descriptors and a logged tail subscriber with an empty log. -/
def logged_fixture_view : URView := (fixture_full_view.create_subscriber 3 (some [])).2

/-- A view of capacity 1 that holds the descriptor `a` with age 5. -/
def aged_view : URView := tiny_view.manual_insert_one ⟨"a", 5⟩

/-- A transport on which every call fails with `UNAVAILABLE`. -/
def silent_net : Net :=
  { sent := [],
    outcome := fun _ _ => ({ error_code := StatusCode.UNAVAILABLE,
                             error_message := "failed to connect" }, {}) }

/-- The view of the entry server of the test `one_enter_from_zero`. -/
def node0_view : URView :=
  (URView.new "0.0.0.0:50050" 10 5 5 (fun _ => 0)).init_selector 0 none

/-- The view of the joining node of the test `one_enter_from_zero`. -/
def node1_view : URView :=
  (URView.new "0.0.0.0:50051" 10 5 5 (fun _ => 0)).init_selector 0 none

/-- A transport that hands every `PushPullView` call to the handler of a server whose view
is `server_view`, and fails every other call. -/
def loopback_net (server_view : URView) : Net :=
  { sent := [],
    outcome := fun _ c =>
      match c.method with
      | RpcMethod.PushPullView =>
        ((Server.PushPullView (fun _ => 0) (fun _ => 0) server_view c.request {}).1,
         (Server.PushPullView (fun _ => 0) (fun _ => 0) server_view c.request {}).2.1)
      | _ => ({ error_code := StatusCode.UNAVAILABLE, error_message := "failed to connect" },
              {}) }

/-- A transport whose first call succeeds with an empty response and whose later calls
fail with `UNAVAILABLE`. -/
def flaky_net : Net :=
  { sent := [],
    outcome := fun k _ =>
      if k = 0 then (Status.OK, {})
      else ({ error_code := StatusCode.UNAVAILABLE, error_message := "failed to connect" },
            {}) }

/-- The joining service of the test `one_enter_from_zero`, with one entry point. -/
def joining_service : PeerSamplingService :=
  PeerSamplingService.new true true 1 1 ["0.0.0.0:50050"] node1_view

/-- The joining service and the transport after a first `enter()` on `flaky_net`. -/
def joined_state : EnterState := (joining_service.enter (fun _ _ => 0) flaky_net).2

/-- A view of size 0 with a no-replacement primary selector, after `rx_nodes` of one
descriptor: `_view` is empty again, the selector still has the descriptor queued. -/
def drained_view : URView :=
  (zero_size_view.init_selector 2 none).rx_nodes (fun _ => 0) [⟨"a", 0⟩]

/-- A view of capacity 1 into which `a`, `b`, `c` were inserted by hand. -/
def three_view : URView := tiny_view.manual_insert [⟨"a", 0⟩, ⟨"b", 1⟩, ⟨"c", 2⟩]

/-- A manager configured with the logged tail selector, as the fixture of the tests
configures its views otherwise. -/
def logged_manager : PSSManager :=
  PSSManager.new "192.168.225.1:5012" true true 1 1 [] 3 10 5 5 (fun _ => 0)

/-! Auxiliary lemmas: swaps and shuffles are permutations -/

theorem swap_at_length {α : Type} (xs : List α) (i j : Nat) :
    (swap_at xs i j).length = xs.length := by
  unfold swap_at
  split <;> simp

theorem set_cons_perm {α : Type} (x b : α) :
    ∀ (t : List α) (j : Nat), t[j]? = some b → (b :: t.set j x).Perm (x :: t)
  | [], j, h => by simp at h
  | y :: t, 0, h => by
    simp at h
    subst h
    simpa using List.Perm.swap x y t
  | y :: t, j + 1, h => by
    have ih := set_cons_perm x b t j (by simpa using h)
    simp only [List.set_cons_succ]
    exact ((List.Perm.swap y b _).trans (ih.cons y)).trans (List.Perm.swap x y t)

theorem swap_at_perm {α : Type} : ∀ (xs : List α) (i j : Nat), (swap_at xs i j).Perm xs
  | [], i, j => by simp [swap_at]
  | x :: t, 0, 0 => by simp [swap_at]
  | x :: t, 0, j + 1 => by
    unfold swap_at
    cases h : t[j]? with
    | none => simp [h]
    | some b =>
      simp [h]
      exact set_cons_perm x b t j h
  | x :: t, i + 1, 0 => by
    unfold swap_at
    cases h : t[i]? with
    | none => simp [h]
    | some a =>
      simp [h]
      exact set_cons_perm x a t i h
  | x :: t, i + 1, j + 1 => by
    have ih := swap_at_perm t i j
    unfold swap_at at ih ⊢
    cases hi : t[i]? with
    | none => simp [hi]
    | some a =>
      cases hj : t[j]? with
      | none => simp [hi, hj]
      | some b =>
        simp [hi, hj] at ih ⊢
        exact ih

theorem shuffle_fold_perm {α : Type} (is : List Nat) :
    ∀ (s : List α × Engine), (is.foldl shuffle_step s).1.Perm s.1 := by
  induction is with
  | nil => intro s; exact List.Perm.refl _
  | cons i is ih =>
    intro s
    simp only [List.foldl_cons]
    exact (ih _).trans (swap_at_perm _ _ _)

theorem shuffle_perm {α : Type} (xs : List α) (e : Engine) : (shuffle xs e).1.Perm xs :=
  shuffle_fold_perm _ (xs, e)

/-! Auxiliary lemmas: fields left alone by the operations -/

theorem set_stored_age_size (v : URView) (a : String) (n : Nat) :
    (v.set_stored_age a n)._size = v._size ∧ (v.set_stored_age a n)._healing = v._healing ∧
    (v.set_stored_age a n)._swap = v._swap ∧ (v.set_stored_age a n)._node_lut = v._node_lut ∧
    (v.set_stored_age a n)._subscribers = v._subscribers ∧
    (v.set_stored_age a n)._eng = v._eng ∧
    (v.set_stored_age a n)._view.length = v._view.length := by
  unfold URView.set_stored_age
  split
  · simp
  · split <;> simp

theorem append_step_config (v : URView) (p : NodeDescriptor) :
    (v.append_step p)._size = v._size ∧ (v.append_step p)._healing = v._healing ∧
    (v.append_step p)._swap = v._swap ∧ (v.append_step p)._subscribers = v._subscribers ∧
    (v.append_step p)._eng = v._eng := by
  unfold URView.append_step
  split
  · simp
  · split
    · split
      · have h := set_stored_age_size v p.address p.age
        exact ⟨h.1, h.2.1, h.2.2.1, h.2.2.2.2.1, h.2.2.2.2.2.1⟩
      · simp
    · simp

theorem append_body_fst (L : List NodeDescriptor) :
    ∀ (s : URView × List NodeDescriptor),
      (L.foldl URView.append_body s).1 = L.foldl URView.append_step s.1 := by
  induction L with
  | nil => intro s; rfl
  | cons p L ih => intro s; simp only [List.foldl_cons]; rw [ih]; rfl

theorem append_steps_config (L : List NodeDescriptor) :
    ∀ (v : URView), (L.foldl URView.append_step v)._size = v._size ∧
      (L.foldl URView.append_step v)._healing = v._healing ∧
      (L.foldl URView.append_step v)._swap = v._swap := by
  induction L with
  | nil => intro v; simp
  | cons p L ih =>
    intro v
    simp only [List.foldl_cons]
    have h1 := ih (v.append_step p)
    have h2 := append_step_config v p
    exact ⟨h1.1.trans h2.1, h1.2.1.trans h2.2.1, h1.2.2.trans h2.2.2.1⟩

theorem append_view (v : URView) (L : List NodeDescriptor) :
    (v.append L)._view = (L.foldl URView.append_step v)._view := by
  simp [URView.append, append_body_fst]

theorem append_node_lut (v : URView) (L : List NodeDescriptor) :
    (v.append L)._node_lut = (L.foldl URView.append_step v)._node_lut := by
  simp [URView.append, append_body_fst]

theorem append_self (v : URView) (L : List NodeDescriptor) :
    (v.append L)._self = (L.foldl URView.append_step v)._self := by
  simp [URView.append, append_body_fst]

theorem append_config (v : URView) (L : List NodeDescriptor) :
    (v.append L)._size = v._size ∧ (v.append L)._healing = v._healing ∧
    (v.append L)._swap = v._swap := by
  have h := append_steps_config L v
  simpa [URView.append, append_body_fst] using h

/-! Auxiliary lemmas: `move_old_to_back` permutes `_view` -/

theorem move_step_perm (t : Nat) (s : MoveState) : (move_step t s).view.Perm s.view := by
  unfold move_step
  split
  · exact List.Perm.refl _
  · dsimp only
    split
    · exact swap_at_perm _ _ _
    · exact List.Perm.refl _

theorem move_loop_perm (tie : Nat → Nat) :
    ∀ (k i : Nat) (s : MoveState), (move_loop tie k i s).view.Perm s.view
  | 0, _, s => List.Perm.refl _
  | k + 1, i, s => by
    unfold move_loop
    split
    · exact List.Perm.refl _
    · exact (move_loop_perm tie k (i + 1) _).trans (move_step_perm _ _)

theorem move_old_to_back_list_perm (tie : Nat → Nat) (view : List NodeDescriptor)
    (num_move : Int) : (move_old_to_back_list tie view num_move).Perm view := by
  unfold move_old_to_back_list
  split
  · exact List.Perm.refl _
  · exact move_loop_perm tie _ _ _

theorem move_old_to_back_list_length (tie : Nat → Nat) (view : List NodeDescriptor)
    (num_move : Int) : (move_old_to_back_list tie view num_move).length = view.length :=
  (move_old_to_back_list_perm tie view num_move).length_eq

/-! Auxiliary lemmas: the removal loops -/

theorem pop_back_loop_view :
    ∀ (k : Nat) (v : URView), k ≤ v._view.length →
      (pop_back_loop k v)._view = v._view.take (v._view.length - k)
  | 0, v, _ => by simp [pop_back_loop]
  | k + 1, v, h => by
    unfold pop_back_loop
    cases hl : v._view.getLast? with
    | none =>
      rw [List.getLast?_eq_none_iff] at hl
      rw [hl] at h
      simp at h
    | some d =>
      simp only
      rw [pop_back_loop_view k _ (by simp; omega)]
      simp only [List.length_dropLast]
      rw [List.dropLast_eq_take, List.take_take]
      congr 1
      omega

theorem pop_back_loop_config (k : Nat) :
    ∀ (v : URView), (pop_back_loop k v)._size = v._size ∧
      (pop_back_loop k v)._healing = v._healing ∧ (pop_back_loop k v)._swap = v._swap ∧
      (pop_back_loop k v)._self = v._self ∧ (pop_back_loop k v)._eng = v._eng ∧
      (pop_back_loop k v)._subscribers = v._subscribers := by
  induction k with
  | zero => intro v; simp [pop_back_loop]
  | succ k ih =>
    intro v
    unfold pop_back_loop
    split
    · simp
    · rename_i d _
      have h := ih { v with _node_lut := v._node_lut.filter (fun a => a ≠ d.address),
                            _view := v._view.dropLast }
      simpa using h

theorem erase_front_loop_view (k : Nat) :
    ∀ (v : URView), (erase_front_loop k v)._view = v._view ∧
      (erase_front_loop k v)._size = v._size ∧
      (erase_front_loop k v)._healing = v._healing ∧ (erase_front_loop k v)._swap = v._swap ∧
      (erase_front_loop k v)._self = v._self ∧ (erase_front_loop k v)._eng = v._eng ∧
      (erase_front_loop k v)._subscribers = v._subscribers := by
  induction k with
  | zero => intro v; simp [erase_front_loop]
  | succ k ih =>
    intro v
    unfold erase_front_loop
    split
    · simp
    · rename_i d _
      have h := ih { v with _node_lut := v._node_lut.filter (fun a => a ≠ d.address) }
      simpa using h

theorem remove_random_loop_length :
    ∀ (k : Nat) (v : URView), k ≤ v._view.length →
      (remove_random_loop k v)._view.length = v._view.length - k
  | 0, v, _ => by simp [remove_random_loop]
  | k + 1, v, h => by
    unfold remove_random_loop
    have hlt : uniform_int v._eng (v._view.length - 1) < v._view.length := by
      unfold uniform_int
      have : v._view.length - 1 + 1 = v._view.length := by omega
      rw [this]
      exact Nat.mod_lt _ (by omega)
    rw [remove_random_loop_length k _ (by simp [List.length_eraseIdx_of_lt hlt]; omega)]
    simp [List.length_eraseIdx_of_lt hlt]
    omega

theorem remove_random_loop_config (k : Nat) :
    ∀ (v : URView), (remove_random_loop k v)._size = v._size ∧
      (remove_random_loop k v)._healing = v._healing ∧
      (remove_random_loop k v)._swap = v._swap ∧
      (remove_random_loop k v)._self = v._self ∧
      (remove_random_loop k v)._node_lut = v._node_lut ∧
      (remove_random_loop k v)._subscribers = v._subscribers := by
  induction k with
  | zero => intro v; simp [remove_random_loop]
  | succ k ih =>
    intro v
    unfold remove_random_loop
    have h := ih
      { v with
        _view := v._view.eraseIdx (uniform_int v._eng (v._view.length - 1))
        _eng := v._eng.advance }
    simpa using h

theorem remove_old_length (tie : Nat → Nat) (v : URView) (n : Int) :
    (v.remove_old tie n)._view.length = v._view.length - n.toNat := by
  unfold URView.remove_old
  split
  · rename_i h
    rcases h with h | h
    · have : n.toNat = 0 := by omega
      simp [this]
    · have : v._view = [] := by simpa using h
      simp [this]
  · rename_i h
    simp only [not_or, not_le] at h
    rw [pop_back_loop_view]
    · simp only [URView.move_old_to_back, List.length_take, move_old_to_back_list_length]
      split <;> omega
    · simp only [URView.move_old_to_back, move_old_to_back_list_length]
      split <;> omega

theorem remove_old_config (tie : Nat → Nat) (v : URView) (n : Int) :
    (v.remove_old tie n)._size = v._size ∧ (v.remove_old tie n)._healing = v._healing ∧
    (v.remove_old tie n)._swap = v._swap ∧ (v.remove_old tie n)._self = v._self ∧
    (v.remove_old tie n)._eng = v._eng ∧
    (v.remove_old tie n)._subscribers = v._subscribers := by
  unfold URView.remove_old
  split
  · simp
  · exact pop_back_loop_config _ _

theorem remove_head_length (v : URView) (n : Int) :
    (v.remove_head n)._view.length = v._view.length - n.toNat := by
  unfold URView.remove_head
  split
  · rename_i h
    rcases h with h | h
    · have : n.toNat = 0 := by omega
      simp [this]
    · have : v._view = [] := by simpa using h
      simp [this]
  · rename_i h
    simp only [not_or, not_le] at h
    simp only [List.length_drop, (erase_front_loop_view _ v).1]
    split <;> omega

theorem remove_head_config (v : URView) (n : Int) :
    (v.remove_head n)._size = v._size ∧ (v.remove_head n)._healing = v._healing ∧
    (v.remove_head n)._swap = v._swap ∧ (v.remove_head n)._self = v._self ∧
    (v.remove_head n)._eng = v._eng ∧
    (v.remove_head n)._subscribers = v._subscribers := by
  unfold URView.remove_head
  split
  · simp
  · have h := erase_front_loop_view
      (if n > v._view.length then v._view.length else n.toNat) v
    exact ⟨h.2.1, h.2.2.1, h.2.2.2.1, h.2.2.2.2.1, h.2.2.2.2.2.1, h.2.2.2.2.2.2⟩

theorem remove_random_length (v : URView) (n : Int) :
    (v.remove_random n)._view.length = v._view.length - n.toNat := by
  unfold URView.remove_random
  split
  · rename_i h
    rcases h with h | h
    · have : n.toNat = 0 := by omega
      simp [this]
    · have : v._view = [] := by simpa using h
      simp [this]
  · rename_i h
    simp only [not_or, not_le] at h
    rw [remove_random_loop_length]
    · split <;> omega
    · split <;> omega

theorem remove_random_config (v : URView) (n : Int) :
    (v.remove_random n)._size = v._size ∧ (v.remove_random n)._healing = v._healing ∧
    (v.remove_random n)._swap = v._swap ∧ (v.remove_random n)._self = v._self ∧
    (v.remove_random n)._node_lut = v._node_lut ∧
    (v.remove_random n)._subscribers = v._subscribers := by
  unfold URView.remove_random
  split
  · simp
  · exact remove_random_loop_config _ _

theorem rx_healed_config (tie : Nat → Nat) (v : URView) (nodes : List NodeDescriptor) :
    (v.rx_healed tie nodes)._size = v._size ∧ (v.rx_healed tie nodes)._healing = v._healing ∧
    (v.rx_healed tie nodes)._swap = v._swap := by
  have h1 := remove_old_config tie (v.append nodes)
    (min (v.append nodes)._healing (((v.append nodes)._view.length : Int) - (v.append nodes)._size))
  have h2 := append_config v nodes
  exact ⟨h1.1.trans h2.1, h1.2.1.trans h2.2.1, h1.2.2.1.trans h2.2.2⟩

theorem rx_swapped_config (tie : Nat → Nat) (v : URView) (nodes : List NodeDescriptor) :
    (v.rx_swapped tie nodes)._size = v._size ∧ (v.rx_swapped tie nodes)._healing = v._healing ∧
    (v.rx_swapped tie nodes)._swap = v._swap := by
  have h1 := remove_head_config (v.rx_healed tie nodes)
    (min (v.rx_healed tie nodes)._swap
      (((v.rx_healed tie nodes)._view.length : Int) - (v.rx_healed tie nodes)._size))
  have h2 := rx_healed_config tie v nodes
  exact ⟨h1.1.trans h2.1, h1.2.1.trans h2.2.1, h1.2.2.1.trans h2.2.2⟩

/-- Lengths of `_view` after the three removal phases of `rx_nodes`, in terms of the length
after the merge. -/
theorem rx_phase_lengths (tie : Nat → Nat) (v : URView) (nodes : List NodeDescriptor) :
    (v.rx_healed tie nodes)._view.length =
      (v.append nodes)._view.length -
        (min v._healing (((v.append nodes)._view.length : Int) - v._size)).toNat ∧
    (v.rx_swapped tie nodes)._view.length =
      (v.rx_healed tie nodes)._view.length -
        (min v._swap (((v.rx_healed tie nodes)._view.length : Int) - v._size)).toNat ∧
    (v.rx_nodes tie nodes)._view.length =
      (v.rx_swapped tie nodes)._view.length -
        (((v.rx_swapped tie nodes)._view.length : Int) - v._size).toNat := by
  refine ⟨?_, ?_, ?_⟩
  · have h := append_config v nodes
    simp only [URView.rx_healed, remove_old_length, h.1, h.2.1]
  · have h := rx_healed_config tie v nodes
    simp only [URView.rx_swapped, remove_head_length, h.1, h.2.2]
  · have h := rx_swapped_config tie v nodes
    simp only [URView.rx_nodes, remove_random_length, h.1]

/-! Well-formedness is preserved by every operation -/

theorem constructor_wf (address : String) (size healing swap : Int) (eng : Engine) :
    (URView.new address size healing swap eng).WF := by
  constructor <;> simp [URView.new, URView.addresses]

/-- A state with the same self descriptor whose addresses form a duplicate-free list drawn
from a well-formed state's addresses, all still indexed, is well-formed. -/
theorem wf_of_subset {v w : URView} (h : v.WF) (hself : w._self = v._self)
    (hnd : w.addresses.Nodup) (hsub : ∀ a ∈ w.addresses, a ∈ v.addresses)
    (hcov : ∀ a ∈ w.addresses, a ∈ w._node_lut)
    (hidx : w._self.address ∈ w._node_lut) : w.WF := by
  constructor
  · exact hnd
  · exact hcov
  · exact hidx
  · rw [hself]; exact fun hm => h.self_absent (hsub _ hm)
  · rw [hself]; exact h.self_age

theorem stored_age_of_not_any (v : URView) (a : String)
    (h : ¬ (v._view.any (fun d => d.address = a)) = true) :
    v.stored_age a = if v._self.address = a then some v._self.age else none := by
  unfold URView.stored_age
  have : v._view.find? (fun d => decide (d.address = a)) = none := by
    rw [List.find?_eq_none]
    intro d hd
    simp only [List.any_eq_true, not_exists, not_and] at h
    exact h d hd
  rw [this]

theorem set_stored_age_addresses (v : URView) (a : String) (n : Nat) :
    (v.set_stored_age a n).addresses = v.addresses := by
  unfold URView.set_stored_age URView.addresses
  split
  · simp only [List.map_map]
    apply List.map_congr_left
    intro d _
    simp only [Function.comp]
    split <;> rfl
  · split <;> rfl

theorem append_step_wf {v : URView} (h : v.WF) (p : NodeDescriptor) :
    (v.append_step p).WF := by
  unfold URView.append_step
  split
  · rename_i hk
    have hk : p.address ∉ v._node_lut := by simpa using hk
    constructor
    · simp only [URView.addresses, List.map_append, List.map_cons, List.map_nil]
      rw [List.nodup_append]
      refine ⟨h.nodup, by simp, ?_⟩
      intro a ha hb
      simp only [List.mem_singleton] at hb
      subst hb
      exact hk (h.covered _ ha)
    · intro a ha
      simp only [URView.addresses, List.map_append, List.map_cons, List.map_nil,
        List.mem_append, List.mem_singleton] at ha
      simp only [List.mem_append, List.mem_singleton]
      rcases ha with ha | ha
      · exact Or.inl (h.covered _ ha)
      · exact Or.inr ha
    · simp only [List.mem_append, List.mem_singleton]
      exact Or.inl h.self_indexed
    · simp only [URView.addresses, List.map_append, List.map_cons, List.map_nil,
        List.mem_append, List.mem_singleton, not_or]
      refine ⟨h.self_absent, ?_⟩
      intro he
      exact hk (he ▸ h.self_indexed)
    · exact h.self_age
  · split
    · rename_i stored hs
      split
      · rename_i hgt
        by_cases hany : (v._view.any (fun d => d.address = p.address)) = true
        · have e1 : (v.set_stored_age p.address p.age)._self = v._self := by
            simp [URView.set_stored_age, hany]
          have e2 := (set_stored_age_size v p.address p.age).2.2.2.1
          have e3 := set_stored_age_addresses v p.address p.age
          refine wf_of_subset h e1 (e3 ▸ h.nodup) (fun a ha => e3 ▸ ha) ?_ ?_
          · intro a ha; rw [e2]; exact h.covered _ (e3 ▸ ha)
          · rw [e1, e2]; exact h.self_indexed
        · rw [stored_age_of_not_any v _ hany] at hs
          split at hs
          · simp only [Option.some.injEq] at hs
            rw [h.self_age] at hs
            omega
          · simp at hs
      · exact h
    · exact h

theorem append_steps_wf (L : List NodeDescriptor) :
    ∀ {v : URView}, v.WF → (L.foldl URView.append_step v).WF := by
  induction L with
  | nil => intro v h; exact h
  | cons p L ih => intro v h; exact ih (append_step_wf h p)

/-- Well-formedness does not depend on the subscribers or on the generator. -/
theorem wf_congr {v w : URView} (h : v.WF) (h1 : w._self = v._self) (h2 : w._view = v._view)
    (h3 : w._node_lut = v._node_lut) : w.WF := by
  have ha : w.addresses = v.addresses := by simp [URView.addresses, h2]
  constructor
  · rw [ha]; exact h.nodup
  · rw [ha, h3]; exact h.covered
  · rw [h1, h3]; exact h.self_indexed
  · rw [h1, ha]; exact h.self_absent
  · rw [h1]; exact h.self_age

theorem append_wf {v : URView} (h : v.WF) (L : List NodeDescriptor) : (v.append L).WF :=
  wf_congr (append_steps_wf L h) (append_self v L) (append_view v L) (append_node_lut v L)

theorem append_one_wf {v : URView} (h : v.WF) (p : NodeDescriptor) : (v.append_one p).WF := by
  unfold URView.append_one
  split
  · rename_i hk
    have h2 := append_step_wf h p
    unfold URView.append_step at h2
    rw [if_pos hk] at h2
    exact wf_congr h2 rfl rfl rfl
  · exact append_step_wf h p

theorem pop_back_loop_wf :
    ∀ (k : Nat) {v : URView}, v.WF → (pop_back_loop k v).WF
  | 0, v, h => by simpa [pop_back_loop] using h
  | k + 1, v, h => by
    unfold pop_back_loop
    cases hl : v._view.getLast? with
    | none => exact h
    | some d =>
      simp only
      apply pop_back_loop_wf k
      obtain ⟨ys, hys⟩ := List.getLast?_eq_some_iff.mp hl
      have hadr : v.addresses = ys.map NodeDescriptor.address ++ [d.address] := by
        simp [URView.addresses, hys]
      have hnd := h.nodup
      rw [hadr, List.nodup_append] at hnd
      have hne : ∀ a ∈ ys.map NodeDescriptor.address, a ≠ d.address := by
        intro a ha he
        exact hnd.2.2 ha (by simp [he])
      refine wf_of_subset h rfl ?_ ?_ ?_ ?_
      · simpa [URView.addresses, hys] using hnd.1
      · intro a ha
        have ha : a ∈ ys.map NodeDescriptor.address := by
          simpa [URView.addresses, hys] using ha
        rw [hadr]
        exact List.mem_append_left _ ha
      · intro a ha
        have ha : a ∈ ys.map NodeDescriptor.address := by
          simpa [URView.addresses, hys] using ha
        simp only [List.mem_filter, decide_eq_true_eq]
        refine ⟨h.covered _ (by rw [hadr]; exact List.mem_append_left _ ha), ?_⟩
        simpa using hne a ha
      · simp only [List.mem_filter, decide_eq_true_eq]
        refine ⟨h.self_indexed, ?_⟩
        have := h.self_absent
        rw [hadr] at this
        simp only [List.mem_append, List.mem_singleton, not_or] at this
        simpa using this.2

theorem move_old_to_back_wf (tie : Nat → Nat) {v : URView} (h : v.WF) (n : Int) :
    (v.move_old_to_back tie n).WF := by
  have hp : (v.move_old_to_back tie n).addresses.Perm v.addresses :=
    (move_old_to_back_list_perm tie v._view n).map _
  refine wf_of_subset h rfl (hp.nodup_iff.mpr h.nodup) (fun a ha => hp.subset ha) ?_ ?_
  · intro a ha; exact h.covered _ (hp.subset ha)
  · exact h.self_indexed

theorem remove_old_wf (tie : Nat → Nat) {v : URView} (h : v.WF) (n : Int) :
    (v.remove_old tie n).WF := by
  unfold URView.remove_old
  split
  · exact h
  · exact pop_back_loop_wf _ (move_old_to_back_wf tie h _)

theorem erase_front_loop_node_lut (d : NodeDescriptor) (rest : List NodeDescriptor) :
    ∀ (k : Nat) (v : URView), v._view = d :: rest →
      (erase_front_loop (k + 1) v)._node_lut = v._node_lut.filter (fun a => a ≠ d.address)
  | 0, v, hv => by
    simp [erase_front_loop, hv]
  | k + 1, v, hv => by
    rw [erase_front_loop]
    simp only [hv, List.head?_cons]
    have hv2 : ({ v with
        _view := d :: rest
        _node_lut := v._node_lut.filter (fun a => a ≠ d.address) } : URView)._view
        = d :: rest := rfl
    rw [erase_front_loop_node_lut d rest k _ hv2]
    simp [List.filter_filter]

theorem remove_head_wf {v : URView} (h : v.WF) (n : Int) : (v.remove_head n).WF := by
  unfold URView.remove_head
  split
  · exact h
  · rename_i hc
    simp only [not_or, not_le] at hc
    cases hv : v._view with
    | nil => simp [hv] at hc
    | cons d rest =>
      have hpos : ∃ k,
          (if n > (d :: rest).length then (d :: rest).length else n.toNat) = k + 1 := by
        refine ⟨(if n > (d :: rest).length then (d :: rest).length else n.toNat) - 1, ?_⟩
        split
        · simp
        · omega
      obtain ⟨k, hk⟩ := hpos
      rw [hk]
      have hlut := erase_front_loop_node_lut d rest k v hv
      have hview := (erase_front_loop_view (k + 1) v).1
      have hself := (erase_front_loop_view (k + 1) v).2.2.2.2.1
      have hnd := h.nodup
      have hadr : v.addresses = d.address :: rest.map NodeDescriptor.address := by
        simp [URView.addresses, hv]
      rw [hadr, List.nodup_cons] at hnd
      have hsub : ∀ a ∈ (List.drop (k + 1) (erase_front_loop (k + 1) v)._view).map
          NodeDescriptor.address, a ∈ rest.map NodeDescriptor.address := by
        intro a ha
        rw [hview, hv, List.drop_succ_cons] at ha
        exact ((List.drop_sublist k rest).map _).subset ha
      refine wf_of_subset h hself ?_ ?_ ?_ ?_
      · simp only [URView.addresses]
        rw [hview, hv, List.drop_succ_cons]
        exact ((List.drop_sublist k rest).map _).nodup hnd.2
      · intro a ha
        rw [hadr]
        exact List.mem_cons_of_mem _ (hsub a ha)
      · intro a ha
        have ha2 := hsub a ha
        simp only [hlut, List.mem_filter, decide_eq_true_eq]
        refine ⟨h.covered _ (by rw [hadr]; exact List.mem_cons_of_mem _ ha2), ?_⟩
        have : a ≠ d.address := fun he => hnd.1 (he ▸ ha2)
        simpa using this
      · simp only [hlut, hself, List.mem_filter, decide_eq_true_eq]
        refine ⟨h.self_indexed, ?_⟩
        have := h.self_absent
        rw [hadr] at this
        simp only [List.mem_cons, not_or] at this
        simpa using this.1

theorem remove_random_loop_sublist :
    ∀ (k : Nat) (v : URView), (remove_random_loop k v)._view.Sublist v._view
  | 0, v => by simp [remove_random_loop]
  | k + 1, v => by
    unfold remove_random_loop
    exact (remove_random_loop_sublist k _).trans (List.eraseIdx_sublist _ _)

theorem remove_random_sublist (v : URView) (n : Int) :
    (v.remove_random n)._view.Sublist v._view := by
  unfold URView.remove_random
  split
  · exact List.Sublist.refl _
  · exact remove_random_loop_sublist _ _

theorem remove_random_wf {v : URView} (h : v.WF) (n : Int) : (v.remove_random n).WF := by
  have hs : (v.remove_random n).addresses.Sublist v.addresses :=
    (remove_random_sublist v n).map _
  have hc := remove_random_config v n
  refine wf_of_subset h hc.2.2.2.1 (hs.nodup h.nodup) (fun a ha => hs.subset ha) ?_ ?_
  · intro a ha; rw [hc.2.2.2.2.1]; exact h.covered _ (hs.subset ha)
  · rw [hc.2.2.2.1, hc.2.2.2.2.1]; exact h.self_indexed

theorem rx_nodes_wf (tie : Nat → Nat) {v : URView} (h : v.WF) (nodes : List NodeDescriptor) :
    (v.rx_nodes tie nodes).WF :=
  remove_random_wf (remove_head_wf (remove_old_wf tie (append_wf h nodes) _) _) _

theorem permute_wf {v : URView} (h : v.WF) : v.permute.WF := by
  have hp : v.permute.addresses.Perm v.addresses := (shuffle_perm v._view v._eng).map _
  refine wf_of_subset h rfl (hp.nodup_iff.mpr h.nodup) (fun a ha => hp.subset ha) ?_ ?_
  · intro a ha; exact h.covered _ (hp.subset ha)
  · exact h.self_indexed

theorem tx_nodes_wf (tie : Nat → Nat) {v : URView} (h : v.WF) : (v.tx_nodes tie).2.WF :=
  move_old_to_back_wf tie (permute_wf h) _

theorem increment_age_addresses (v : URView) : v.increment_age.addresses = v.addresses := by
  simp [URView.increment_age, URView.addresses, Function.comp_def]

theorem increment_age_wf {v : URView} (h : v.WF) : v.increment_age.WF := by
  have ha := increment_age_addresses v
  refine wf_of_subset h rfl (ha ▸ h.nodup) (fun a hm => ha ▸ hm) ?_ h.self_indexed
  intro a hm
  exact h.covered _ (ha ▸ hm)

theorem create_subscriber_wf {v : URView} (h : v.WF) (type : Int)
    (log : Option (List LogEntry)) : (v.create_subscriber type log).2.WF := by
  unfold URView.create_subscriber
  split
  · exact wf_congr h rfl rfl rfl
  · exact h

theorem init_selector_wf {v : URView} (h : v.WF) (type : Int)
    (log : Option (List LogEntry)) : (v.init_selector type log).WF := by
  unfold URView.init_selector
  split
  · have h2 := create_subscriber_wf h type log
    exact wf_congr h2 rfl rfl rfl
  · exact wf_congr h rfl rfl rfl

/-- A `select_peer()` call on a subscriber changes only that subscriber and the generator. -/
theorem select_peer_sub_frame {v : URView} {i now : Nat} {r : Option NodeDescriptor × URView}
    (h : v.select_peer_sub i now = some r) :
    r.2._self = v._self ∧ r.2._view = v._view ∧ r.2._node_lut = v._node_lut ∧
    r.2._size = v._size ∧ r.2._healing = v._healing ∧ r.2._swap = v._swap ∧
    r.2._selector = v._selector ∧ r.2._subscribers.length = v._subscribers.length := by
  unfold URView.select_peer_sub at h
  split at h
  · simp at h
  · split at h
    · simp at h
    · simp only [Option.some.injEq] at h
      subst h
      simp

theorem select_peer_sub_wf {v : URView} (hv : v.WF) {i now : Nat}
    {r : Option NodeDescriptor × URView} (h : v.select_peer_sub i now = some r) : r.2.WF := by
  have hf := select_peer_sub_frame h
  exact wf_congr hv hf.1 hf.2.1 hf.2.2.1

/-- Every reachable state is well-formed. -/
theorem reachable_wf {v : URView} (h : Reachable v) : v.WF := by
  induction h with
  | init address size healing swap eng => exact constructor_wf _ _ _ _ _
  | rx_nodes tie v nodes _ ih => exact rx_nodes_wf tie ih nodes
  | manual_insert_one v node _ ih => exact append_one_wf ih node
  | manual_insert v nodes _ ih => exact append_wf ih nodes
  | tx_nodes tie v _ ih => exact tx_nodes_wf tie ih
  | increment_age v _ ih => exact increment_age_wf ih
  | create_subscriber v type log _ ih => exact create_subscriber_wf ih type log
  | init_selector v type log _ ih => exact init_selector_wf ih type log
  | select_peer_sub v i now r _ hr ih => exact select_peer_sub_wf ih hr

/-! Auxiliary lemmas: the merge loop -/

theorem append_step_addresses (v : URView) (p : NodeDescriptor) :
    (v.append_step p).addresses =
      v.addresses ++ (if p.address ∉ v._node_lut then [p.address] else []) ∧
    (v.append_step p)._node_lut =
      v._node_lut ++ (if p.address ∉ v._node_lut then [p.address] else []) := by
  unfold URView.append_step
  split
  · simp [URView.addresses]
  · split
    · split
      · exact ⟨by simpa using set_stored_age_addresses v p.address p.age,
          by simpa using (set_stored_age_size v p.address p.age).2.2.2.1⟩
      · simp
    · simp

/-- The addresses pushed by the merge loop, and the keys it adds to the index: the first
occurrences of the incoming addresses that the index did not hold. -/
theorem append_steps_addresses (L : List NodeDescriptor) :
    ∀ (v : URView),
      (L.foldl URView.append_step v).addresses = v.addresses ++
        first_occurrences
          ((L.map NodeDescriptor.address).filter (fun a => a ∉ v._node_lut)) ∧
      (L.foldl URView.append_step v)._node_lut = v._node_lut ++
        first_occurrences
          ((L.map NodeDescriptor.address).filter (fun a => a ∉ v._node_lut)) := by
  induction L with
  | nil => intro v; simp [first_occurrences]
  | cons p L ih =>
    intro v
    simp only [List.foldl_cons, List.map_cons]
    obtain ⟨h1, h2⟩ := append_step_addresses v p
    obtain ⟨i1, i2⟩ := ih (v.append_step p)
    rw [i1, i2, h1, h2]
    by_cases hk : p.address ∈ v._node_lut
    · simp [hk]
    · have hf : List.filter (fun a => decide (a ∉ v._node_lut ++ [p.address]))
            (L.map NodeDescriptor.address) =
          List.filter (fun b => decide (b ≠ p.address))
            (List.filter (fun a => decide (a ∉ v._node_lut)) (L.map NodeDescriptor.address)) := by
        rw [List.filter_filter]
        apply List.filter_congr
        intro a _
        simp [and_comm]
      simp only [hk, not_false_eq_true, if_true, List.filter_cons_of_pos, decide_True,
        first_occurrences, hf, List.append_assoc, List.singleton_append, and_self]

theorem remove_old_of_nonpos (tie : Nat → Nat) (v : URView) (n : Int) (h : n ≤ 0) :
    v.remove_old tie n = v := by
  simp [URView.remove_old, h]

theorem remove_head_of_nonpos (v : URView) (n : Int) (h : n ≤ 0) : v.remove_head n = v := by
  simp [URView.remove_head, h]

theorem remove_random_of_nonpos (v : URView) (n : Int) (h : n ≤ 0) :
    v.remove_random n = v := by
  simp [URView.remove_random, h]

/-- Without excess after the merge, the three removal statements of `rx_nodes` do nothing. -/
theorem rx_nodes_eq_append_of_le (tie : Nat → Nat) (v : URView) (nodes : List NodeDescriptor)
    (h : ((v.append nodes)._view.length : Int) ≤ (v.append nodes)._size) :
    v.rx_nodes tie nodes = v.append nodes := by
  have e1 : v.rx_healed tie nodes = v.append nodes := by
    unfold URView.rx_healed
    exact remove_old_of_nonpos tie _ _ (by omega)
  have e2 : v.rx_swapped tie nodes = v.append nodes := by
    unfold URView.rx_swapped
    rw [e1]
    exact remove_head_of_nonpos _ _ (by omega)
  unfold URView.rx_nodes
  rw [e2]
  exact remove_random_of_nonpos _ _ (by omega)

theorem append_addresses (v : URView) (L : List NodeDescriptor) :
    (v.append L).addresses = v.addresses ++
      first_occurrences ((L.map NodeDescriptor.address).filter (fun a => a ∉ v._node_lut)) := by
  have h := (append_steps_addresses L v).1
  simpa [URView.addresses, append_view] using h

theorem mem_first_occurrences : ∀ (l : List String) (a : String),
    a ∈ l → a ∈ first_occurrences l
  | [], a, h => by simp at h
  | b :: rest, a, h => by
    rw [first_occurrences]
    by_cases hab : a = b
    · simp [hab]
    · have : a ∈ rest.filter (fun c => c ≠ b) := by
        simp only [List.mem_filter, decide_eq_true_eq]
        refine ⟨?_, by simpa using hab⟩
        simpa [hab] using h
      exact List.mem_cons_of_mem _ (mem_first_occurrences _ a this)
termination_by l => l.length
decreasing_by
  simp only [List.length_cons]
  exact Nat.lt_succ_of_le (List.length_filter_le _ _)

theorem append_contains (v : URView) (L : List NodeDescriptor) (p : NodeDescriptor)
    (hp : p ∈ L) : (v.append L).contains p.address = true := by
  have h := (append_steps_addresses L v).2
  simp only [URView.contains, decide_eq_true_eq, append_node_lut, h, List.mem_append]
  by_cases hk : p.address ∈ v._node_lut
  · exact Or.inl hk
  · right
    apply mem_first_occurrences
    simp only [List.mem_filter, List.mem_map, decide_eq_true_eq]
    exact ⟨⟨p, hp, rfl⟩, by simpa using hk⟩

theorem mem_ages_of (l : List NodeDescriptor) (a : String) (x : Nat) :
    x ∈ ages_of l a ↔ ∃ e ∈ l, e.address = a ∧ e.age = x := by
  simp [ages_of, and_assoc]

theorem wf_eq_of_address {v : URView} (h : v.WF) {x y : NodeDescriptor} (hx : x ∈ v._view)
    (hy : y ∈ v._view) (he : x.address = y.address) : x = y :=
  List.inj_on_of_nodup_map h.nodup hx hy he

theorem stored_age_of_mem {v : URView} (h : v.WF) {e : NodeDescriptor} (he : e ∈ v._view) :
    v.stored_age e.address = some e.age := by
  unfold URView.stored_age
  cases hf : v._view.find? (fun d => decide (d.address = e.address)) with
  | none =>
    rw [List.find?_eq_none] at hf
    have := hf e he
    simp at this
  | some x =>
    have hx := List.mem_of_find?_eq_some hf
    have hp := List.find?_some hf
    simp only [decide_eq_true_eq] at hp
    rw [wf_eq_of_address h hx he hp]

/-- What one iteration of the merge loop does to a well-formed view, read backwards: every
descriptor afterwards is an untouched old one, the old one for the incoming address with the
smaller of the two ages, or the incoming descriptor itself when its address was unknown. -/
theorem append_step_mem {v : URView} (h : v.WF) (p e' : NodeDescriptor)
    (he' : e' ∈ (v.append_step p)._view) :
    (e'.address ≠ p.address ∧ e' ∈ v._view) ∨
    (e'.address = p.address ∧ ∃ e ∈ v._view, e.address = p.address ∧
      e'.age = min e.age p.age) ∨
    (e' = p ∧ p.address ∉ v._node_lut) := by
  unfold URView.append_step at he'
  split at he'
  · rename_i hk
    have hk : p.address ∉ v._node_lut := by simpa using hk
    simp only [List.mem_append, List.mem_singleton] at he'
    rcases he' with hm | hm
    · left
      refine ⟨?_, hm⟩
      intro he
      exact hk (he ▸ h.covered _ (List.mem_map_of_mem _ hm))
    · right; right; exact ⟨hm, hk⟩
  · have unchanged : e' ∈ v._view → ∀ s, v.stored_age p.address = some s → ¬ s > p.age →
        (e'.address ≠ p.address ∧ e' ∈ v._view) ∨
        (e'.address = p.address ∧ ∃ e ∈ v._view, e.address = p.address ∧
          e'.age = min e.age p.age) ∨ (e' = p ∧ p.address ∉ v._node_lut) := by
      intro hm s hs hle
      by_cases he : e'.address = p.address
      · right; left
        refine ⟨he, e', hm, he, ?_⟩
        have := stored_age_of_mem h hm
        rw [he, hs] at this
        simp only [Option.some.injEq] at this
        omega
      · left; exact ⟨he, hm⟩
    split at he'
    · rename_i stored hs
      split at he'
      · rename_i hgt
        by_cases hany : (v._view.any (fun d => d.address = p.address)) = true
        · simp only [URView.set_stored_age, hany, if_true, List.mem_map] at he'
          obtain ⟨x, hx, hxe⟩ := he'
          by_cases hxa : x.address = p.address
          · right; left
            rw [if_pos hxa] at hxe
            subst hxe
            refine ⟨hxa, x, hx, hxa, ?_⟩
            have := stored_age_of_mem h hx
            rw [hxa, hs] at this
            simp only [Option.some.injEq] at this
            simp only
            omega
          · left
            rw [if_neg hxa] at hxe
            subst hxe
            exact ⟨hxa, hx⟩
        · exfalso
          rw [stored_age_of_not_any v _ hany] at hs
          split at hs
          · simp only [Option.some.injEq] at hs
            rw [h.self_age] at hs
            omega
          · simp at hs
      · rename_i hle
        exact unchanged he' stored hs hle
    · rename_i hnone
      left
      refine ⟨?_, he'⟩
      intro he
      have := stored_age_of_mem h he'
      rw [he, hnone] at this
      simp at this

/-- What one iteration of the merge loop does to a well-formed view, read forwards: a
descriptor of the view keeps its address and does not get older, and ends up no older than
an incoming descriptor with the same address. -/
theorem append_step_fwd {v : URView} (h : v.WF) (p e : NodeDescriptor) (he : e ∈ v._view) :
    ∃ e' ∈ (v.append_step p)._view, e'.address = e.address ∧ e'.age ≤ e.age ∧
      (e.address = p.address → e'.age ≤ p.age) := by
  have hk : ¬ p.address ∉ v._node_lut ∨ e.address ≠ p.address := by
    by_cases hea : e.address = p.address
    · left
      simp only [not_not]
      exact hea ▸ h.covered _ (List.mem_map_of_mem _ he)
    · right; exact hea
  unfold URView.append_step
  split
  · rename_i hnew
    rcases hk with hk | hk
    · exact absurd hnew hk
    · exact ⟨e, by simp [he], rfl, le_refl _, fun hc => absurd hc hk⟩
  · split
    · rename_i stored hs
      split
      · rename_i hgt
        by_cases hany : (v._view.any (fun d => d.address = p.address)) = true
        · simp only [URView.set_stored_age, hany, if_true, List.mem_map]
          by_cases hea : e.address = p.address
          · refine ⟨{ e with age := p.age }, ⟨e, he, by rw [if_pos hea]⟩, rfl, ?_,
              fun _ => le_refl _⟩
            have := stored_age_of_mem h he
            rw [hea, hs] at this
            simp only [Option.some.injEq] at this
            simp only
            omega
          · exact ⟨e, ⟨e, he, by rw [if_neg hea]⟩, rfl, le_refl _, fun hc => absurd hc hea⟩
        · exfalso
          rw [stored_age_of_not_any v _ hany] at hs
          split at hs
          · simp only [Option.some.injEq] at hs
            rw [h.self_age] at hs
            omega
          · simp at hs
      · rename_i hle
        refine ⟨e, he, rfl, le_refl _, ?_⟩
        intro hea
        have := stored_age_of_mem h he
        rw [hea, hs] at this
        simp only [Option.some.injEq] at this
        omega
    · rename_i hnone
      refine ⟨e, he, rfl, le_refl _, ?_⟩
      intro hea
      have := stored_age_of_mem h he
      rw [hea, hnone] at this
      simp at this

theorem mem_of_mem_first_occurrences : ∀ (l : List String) (a : String),
    a ∈ first_occurrences l → a ∈ l
  | [], a, h => by simp [first_occurrences] at h
  | b :: rest, a, h => by
    rw [first_occurrences] at h
    simp only [List.mem_cons] at h ⊢
    rcases h with h | h
    · exact Or.inl h
    · right
      have := mem_of_mem_first_occurrences _ a h
      exact (List.mem_filter.mp this).1
termination_by l => l.length
decreasing_by
  simp only [List.length_cons]
  exact Nat.lt_succ_of_le (List.length_filter_le _ _)

/-- The list of first occurrences has no repetition. -/
theorem first_occurrences_nodup : ∀ (l : List String), (first_occurrences l).Nodup
  | [] => by simp [first_occurrences]
  | a :: rest => by
    rw [first_occurrences, List.nodup_cons]
    refine ⟨?_, first_occurrences_nodup _⟩
    intro hm
    have := mem_of_mem_first_occurrences _ _ hm
    simp at this
termination_by l => l.length
decreasing_by
  simp only [List.length_cons]
  exact Nat.lt_succ_of_le (List.length_filter_le _ _)

/-- An address in the view after the merge loop was in the view before, or was not a key
of the index. -/
theorem append_steps_address_origin (L : List NodeDescriptor) (v : URView) (a : String)
    (ha : a ∈ (L.foldl URView.append_step v).addresses) :
    a ∈ v.addresses ∨ a ∉ v._node_lut := by
  rw [(append_steps_addresses L v).1, List.mem_append] at ha
  rcases ha with ha | ha
  · exact Or.inl ha
  · right
    have := mem_of_mem_first_occurrences _ _ ha
    simpa using (List.mem_filter.mp this).2

theorem ages_of_cons (p : NodeDescriptor) (L : List NodeDescriptor) (a : String) (x : Nat) :
    x ∈ ages_of (p :: L) a ↔ (p.address = a ∧ p.age = x) ∨ x ∈ ages_of L a := by
  simp [mem_ages_of]

/-- After the merge loop, the age stored for an address of the view is the least of the age
stored before (if any) and the incoming ages for that address. -/
theorem append_steps_min_age (L : List NodeDescriptor) :
    ∀ (v : URView), v.WF → ∀ d ∈ (L.foldl URView.append_step v)._view,
      d.age ∈ ages_of v._view d.address ++ ages_of L d.address ∧
      ∀ b ∈ ages_of v._view d.address ++ ages_of L d.address, d.age ≤ b := by
  induction L with
  | nil =>
    intro v hv d hd
    simp only [List.foldl_nil] at hd
    refine ⟨?_, ?_⟩
    · simp only [List.mem_append, mem_ages_of]
      exact Or.inl ⟨d, hd, rfl, rfl⟩
    · intro b hb
      simp only [List.mem_append, mem_ages_of, List.not_mem_nil, false_and, exists_false,
        or_false] at hb
      obtain ⟨e, he, hea, heb⟩ := hb
      rw [wf_eq_of_address hv he hd hea] at heb
      omega
  | cons p L ih =>
    intro v hv d hd
    simp only [List.foldl_cons] at hd
    have hv' := append_step_wf hv p
    obtain ⟨ih1, ih2⟩ := ih (v.append_step p) hv' d hd
    simp only [List.mem_append] at ih1 ih2 ⊢
    refine ⟨?_, ?_⟩
    · rcases ih1 with h1 | h1
      · rw [mem_ages_of] at h1
        obtain ⟨e', he', hea, heb⟩ := h1
        rcases append_step_mem hv p e' he' with
          ⟨_, hm⟩ | ⟨hpa, e, he, hep, hmin⟩ | ⟨hep, _⟩
        · exact Or.inl ((mem_ages_of _ _ _).mpr ⟨e', hm, hea, heb⟩)
        · rcases Nat.le_total e.age p.age with hle | hle
          · left
            rw [mem_ages_of]
            exact ⟨e, he, by rw [hep, ← hpa, hea], by rw [← heb, hmin]; omega⟩
          · right
            rw [ages_of_cons]
            exact Or.inl ⟨by rw [← hpa, hea], by rw [← heb, hmin]; omega⟩
        · right
          rw [ages_of_cons]
          subst hep
          exact Or.inl ⟨hea, heb⟩
      · right
        rw [ages_of_cons]
        exact Or.inr h1
    · intro b hb
      rcases hb with hb | hb
      · rw [mem_ages_of] at hb
        obtain ⟨e, he, hea, heb⟩ := hb
        obtain ⟨e', he', hea', hage, _⟩ := append_step_fwd hv p e he
        have := ih2 e'.age (Or.inl ((mem_ages_of _ _ _).mpr ⟨e', he', by rw [hea', hea], rfl⟩))
        omega
      · rw [ages_of_cons] at hb
        rcases hb with ⟨hpa, hpb⟩ | hb
        · have hin : d.address ∈ (v.append_step p)._node_lut := by
            rw [(append_step_addresses v p).2, ← hpa]
            by_cases hk : p.address ∈ v._node_lut
            · simp [hk]
            · simp [hk]
          have hmem : d.address ∈ (L.foldl URView.append_step (v.append_step p)).addresses :=
            List.mem_map_of_mem _ hd
          rcases append_steps_address_origin L _ _ hmem with ho | ho
          · simp only [URView.addresses, List.mem_map] at ho
            obtain ⟨e'', he'', hea''⟩ := ho
            have hb2 := ih2 e''.age (Or.inl ((mem_ages_of _ _ _).mpr ⟨e'', he'', hea'', rfl⟩))
            rcases append_step_mem hv p e'' he'' with
              ⟨hne, _⟩ | ⟨_, e, _, _, hmin⟩ | ⟨hep, _⟩
            · exact absurd (hea''.trans hpa.symm) hne
            · omega
            · subst hep; omega
          · exact absurd hin ho
        · exact ih2 b (Or.inr hb)

/-- Incoming descriptors with pairwise distinct addresses that the index does not hold are
appended as they are, in arrival order. -/
theorem append_steps_fresh (L : List NodeDescriptor) :
    ∀ (v : URView), (∀ p ∈ L, p.address ∉ v._node_lut) →
      (L.map NodeDescriptor.address).Nodup →
      (L.foldl URView.append_step v)._view = v._view ++ L := by
  induction L with
  | nil => intro v _ _; simp
  | cons p L ih =>
    intro v hnew hnd
    simp only [List.map_cons, List.nodup_cons] at hnd
    have hp : p.address ∉ v._node_lut := hnew p (by simp)
    have hstep : v.append_step p =
        { v with _view := v._view ++ [p], _node_lut := v._node_lut ++ [p.address] } := by
      unfold URView.append_step
      rw [if_pos hp]
    simp only [List.foldl_cons]
    rw [ih (v.append_step p) ?_ hnd.2, hstep]
    · simp
    · intro q hq
      rw [hstep]
      simp only [List.mem_append, List.mem_singleton, not_or]
      refine ⟨hnew q (List.mem_cons_of_mem _ hq), ?_⟩
      intro he
      exact hnd.1 (he ▸ List.mem_map_of_mem _ hq)

/-! Auxiliary lemmas: `tx_nodes` -/

theorem tx_nodes_view_perm (tie : Nat → Nat) (v : URView) :
    (v.tx_nodes tie).2._view.Perm v._view :=
  (move_old_to_back_list_perm tie _ _).trans (shuffle_perm v._view v._eng)

theorem tx_nodes_fst (tie : Nat → Nat) (v : URView) :
    (v.tx_nodes tie).1 =
      v._self :: (v.tx_nodes tie).2.head (Int.tdiv v._size 2 - 1) := rfl

theorem head_length (v : URView) (k : Int) :
    ((v.head k).length : Int) = min (max k 0) v._view.length := by
  unfold URView.head
  split
  · simp only [List.length_nil]
    omega
  · rename_i hk
    split
    · simp only [List.length_take]
      omega
    · simp only [List.length_take]
      omega

theorem head_sublist (v : URView) (k : Int) : (v.head k).Sublist v._view := by
  unfold URView.head
  split
  · exact List.nil_sublist _
  · exact List.take_sublist _ _

/-- The number of descriptors returned by `tx_nodes`: self, then at most `c/2 - 1` of the
view. -/
theorem tx_nodes_length (tie : Nat → Nat) (v : URView) :
    (((v.tx_nodes tie).1.length : Nat) : Int) =
      1 + min (max (Int.tdiv v._size 2 - 1) 0) v._view.length := by
  rw [tx_nodes_fst, List.length_cons]
  have h := head_length (v.tx_nodes tie).2 (Int.tdiv v._size 2 - 1)
  rw [(tx_nodes_view_perm tie v).length_eq] at h
  push_cast
  omega

/-- For a capacity of at least 2 the payload has `min(n + 1, c/2)` descriptors. -/
theorem tx_nodes_length_of_two_le (tie : Nat → Nat) (v : URView) (hc : 2 ≤ v._size) :
    ((v.tx_nodes tie).1.length : Int) = min ((v._view.length : Int) + 1) (v._size / 2) := by
  have h := tx_nodes_length tie v
  have : Int.tdiv v._size 2 = v._size / 2 := by
    rw [Int.tdiv_eq_ediv (by omega) (by omega)]
  omega

/-! Auxiliary lemmas: the priority queue -/

theorem exists_oldest : ∀ (q : List NodeDescriptor), q ≠ [] →
    ∃ d ∈ q, ∀ e ∈ q, e.age ≤ d.age
  | [], h => absurd rfl h
  | [d], _ => ⟨d, by simp, by simp⟩
  | d :: d2 :: rest, _ => by
    obtain ⟨m, hm, hmax⟩ := exists_oldest (d2 :: rest) (by simp)
    rcases Nat.le_total d.age m.age with hle | hle
    · refine ⟨m, List.mem_cons_of_mem _ hm, ?_⟩
      intro e he
      rcases List.mem_cons.mp he with he | he
      · rw [he]; exact hle
      · exact hmax e he
    · refine ⟨d, by simp, ?_⟩
      intro e he
      rcases List.mem_cons.mp he with he | he
      · rw [he]
      · exact (hmax e he).trans hle

theorem mem_pq_candidates (q : List NodeDescriptor) (d : NodeDescriptor) :
    d ∈ pq_candidates q ↔ d ∈ q ∧ ∀ e ∈ q, e.age ≤ d.age := by
  simp [pq_candidates]

theorem pq_top_spec (t : Nat) (q : List NodeDescriptor) (top : NodeDescriptor)
    (h : pq_top t q = some top) : top ∈ q ∧ ∀ e ∈ q, e.age ≤ top.age := by
  unfold pq_top at h
  have hm : top ∈ pq_candidates q := by
    obtain ⟨hlt, he⟩ := List.getElem?_eq_some_iff.mp h
    exact he ▸ List.getElem_mem hlt
  exact (mem_pq_candidates q top).mp hm

theorem pq_top_isSome (t : Nat) (q : List NodeDescriptor) (h : q ≠ []) :
    ∃ top, pq_top t q = some top := by
  obtain ⟨d, hd, hmax⟩ := exists_oldest q h
  have hm : d ∈ pq_candidates q := (mem_pq_candidates q d).mpr ⟨hd, hmax⟩
  have hpos : 0 < (pq_candidates q).length := List.length_pos_of_mem hm
  have hlt : t % (pq_candidates q).length < (pq_candidates q).length := Nat.mod_lt _ hpos
  exact ⟨(pq_candidates q)[t % (pq_candidates q).length], by
    unfold pq_top
    exact List.getElem?_eq_getElem hlt⟩

/-! Auxiliary lemmas: positions after a swap -/

theorem swap_at_getElem? {α : Type} (xs : List α) (i j k : Nat) (hi : i < xs.length)
    (hj : j < xs.length) :
    (swap_at xs i j)[k]? = if k = j then xs[i]? else if k = i then xs[j]? else xs[k]? := by
  unfold swap_at
  rw [List.getElem?_eq_getElem hi, List.getElem?_eq_getElem hj]
  simp only [List.getElem?_set]
  by_cases hkj : k = j
  · subst hkj
    simp [hi, hj]
  · by_cases hki : k = i
    · subst hki
      simp [hkj, hi, hj, Ne.symm hkj]
    · simp [hkj, hki, Ne.symm hkj, Ne.symm hki]

/-! Auxiliary lemmas: the position table -/

theorem build_idx_lut_of_not_mem : ∀ (l : List NodeDescriptor) (i : Nat) (lut : String → Nat)
    (a : String), a ∉ l.map NodeDescriptor.address → build_idx_lut l i lut a = lut a
  | [], _, _, _, _ => rfl
  | d :: rest, i, lut, a, h => by
    simp only [List.map_cons, List.mem_cons, not_or] at h
    rw [build_idx_lut, build_idx_lut_of_not_mem rest _ _ a h.2]
    simp [h.1]

theorem build_idx_lut_getElem : ∀ (l : List NodeDescriptor) (i : Nat) (lut : String → Nat),
    (l.map NodeDescriptor.address).Nodup →
    ∀ (j : Nat) (d : NodeDescriptor), l[j]? = some d → build_idx_lut l i lut d.address = i + j
  | [], _, _, _, j, d, h => by simp at h
  | x :: rest, i, lut, hnd, 0, d, h => by
    simp only [List.getElem?_cons_zero, Option.some.injEq] at h
    subst h
    simp only [List.map_cons, List.nodup_cons] at hnd
    rw [build_idx_lut, build_idx_lut_of_not_mem rest _ _ _ hnd.1]
    simp
  | x :: rest, i, lut, hnd, j + 1, d, h => by
    simp only [List.getElem?_cons_succ] at h
    simp only [List.map_cons, List.nodup_cons] at hnd
    rw [build_idx_lut, build_idx_lut_getElem rest (i + 1) _ hnd.2 j d h]
    omega

/-! Auxiliary lemmas: `move_old_to_back` selects the oldest -/

theorem move_step_finish (view view' q : List NodeDescriptor) (top : NodeDescriptor)
    (b : Nat) (hq : q.Perm (view.take (b + 1))) (htop : top ∈ q)
    (hmax : ∀ e ∈ q, e.age ≤ top.age) (h1 : view'[b]? = some top)
    (h2 : (view'.take (b + 1)).Perm (view.take (b + 1)))
    (h3 : view'.drop (b + 1) = view.drop (b + 1))
    (hs : ∀ x ∈ view.drop (b + 1), ∀ y ∈ q, y.age ≤ x.age) :
    (q.erase top).Perm (view'.take b) ∧
    ∀ x ∈ view'.drop b, ∀ y ∈ q.erase top, y.age ≤ x.age := by
  obtain ⟨hb, hbt⟩ := List.getElem?_eq_some_iff.mp h1
  refine ⟨?_, ?_⟩
  · have e1 : view'.take (b + 1) = view'.take b ++ [top] := by
      rw [List.take_succ, h1]; rfl
    have p1 : (top :: q.erase top).Perm (top :: view'.take b) := by
      have := (List.perm_cons_erase htop).symm.trans (hq.trans h2.symm)
      rw [e1] at this
      exact this.trans (List.perm_append_singleton _ _)
    exact p1.cons_inv
  · intro x hx y hy
    have hy' := List.mem_of_mem_erase hy
    rw [List.drop_eq_getElem_cons hb, hbt, h3] at hx
    rcases List.mem_cons.mp hx with hx | hx
    · rw [hx]; exact hmax y hy'
    · exact hs x hx y hy'

theorem take_swap_at_perm {α : Type} (xs : List α) (i b : Nat) (hi : i < b)
    (hb : b < xs.length) : ((swap_at xs i b).take (b + 1)).Perm (xs.take (b + 1)) := by
  have e : (swap_at xs i b).take (b + 1) = swap_at (xs.take (b + 1)) i b := by
    apply List.ext_getElem?
    intro k
    have hl : (xs.take (b + 1)).length = b + 1 := by
      rw [List.length_take]; omega
    rw [swap_at_getElem? _ _ _ _ (by omega) (by omega)]
    simp only [List.getElem?_take]
    rw [swap_at_getElem? _ _ _ _ (by omega) hb]
    by_cases hk : k < b + 1
    · simp [hk, show i < b + 1 by omega]
    · have h1 : k ≠ b := by omega
      have h2 : k ≠ i := by omega
      simp [hk, h1, h2]
  rw [e]
  exact swap_at_perm _ _ _

theorem drop_swap_at {α : Type} (xs : List α) (i b : Nat) (hi : i < b) (hb : b < xs.length) :
    (swap_at xs i b).drop (b + 1) = xs.drop (b + 1) := by
  apply List.ext_getElem?
  intro k
  rw [List.getElem?_drop, List.getElem?_drop, swap_at_getElem? _ _ _ _ (by omega) hb]
  have h1 : b + 1 + k ≠ b := by omega
  have h2 : b + 1 + k ≠ i := by omega
  simp [h1, h2]

theorem getElem?_inj_of_nodup {l : List NodeDescriptor}
    (h : (l.map NodeDescriptor.address).Nodup) {i j : Nat} {d e : NodeDescriptor}
    (hi : l[i]? = some d) (hj : l[j]? = some e) (ha : d.address = e.address) : i = j := by
  obtain ⟨hil, hie⟩ := List.getElem?_eq_some_iff.mp hi
  obtain ⟨hjl, hje⟩ := List.getElem?_eq_some_iff.mp hj
  have hil' : i < (l.map NodeDescriptor.address).length := by simpa using hil
  have hjl' : j < (l.map NodeDescriptor.address).length := by simpa using hjl
  have : (l.map NodeDescriptor.address)[i] = (l.map NodeDescriptor.address)[j] := by
    simp only [List.getElem_map, hie, hje, ha]
  exact (List.Nodup.getElem_inj_iff h).mp this

theorem eq_of_address_of_nodup {l : List NodeDescriptor}
    (h : (l.map NodeDescriptor.address).Nodup) {d e : NodeDescriptor} (hd : d ∈ l)
    (he : e ∈ l) (ha : d.address = e.address) : d = e :=
  List.inj_on_of_nodup_map h hd he ha

/-- One iteration of the second loop of `move_old_to_back` keeps the loop invariant and
takes one descriptor out of the queue. -/
theorem move_step_inv (t : Nat) (s : MoveState) (h : MoveInv s) (hne : s.age_q ≠ []) :
    MoveInv (move_step t s) ∧ (move_step t s).age_q.length + 1 = s.age_q.length := by
  obtain ⟨top, htop⟩ := pq_top_isSome t s.age_q hne
  obtain ⟨hmem, hmax⟩ := pq_top_spec t s.age_q top htop
  have hlen_pos : 0 < s.age_q.length := List.length_pos_of_mem hmem
  obtain ⟨b, hb⟩ : ∃ b, s.age_q.length = b + 1 := ⟨s.age_q.length - 1, by omega⟩
  have hqlen : (s.age_q.erase top).length = b := by
    rw [List.length_erase_of_mem hmem, hb]; rfl
  have hback : s.back = (b : Int) := by rw [h.back_eq, hb]; push_cast; omega
  have hqueue : s.age_q.Perm (s.view.take (b + 1)) := hb ▸ h.queue
  have hsorted : ∀ x ∈ s.view.drop (b + 1), ∀ y ∈ s.age_q, y.age ≤ x.age :=
    hb ▸ h.sorted
  have hvlen : b + 1 ≤ s.view.length := by
    have := hqueue.length_eq
    rw [List.length_take] at this
    omega
  have hndv : s.view.Nodup := List.Nodup.of_map _ h.nodup
  have hndq : s.age_q.Nodup := hqueue.nodup_iff.mpr ((List.take_sublist _ _).nodup hndv)
  have hidx := h.idx top hmem
  -- the position of `top` lies in the queued prefix
  have hile : s.idx_lut top.address ≤ b := by
    have hin : top ∈ s.view.take (b + 1) := hqueue.subset hmem
    obtain ⟨j, hjl, hj⟩ := List.getElem_of_mem hin
    have hjb : j < b + 1 := by
      rw [List.length_take] at hjl; omega
    have hj' : s.view[j]? = some top := by
      rw [← List.getElem?_take_of_lt hjb, List.getElem?_eq_getElem hjl, hj]
    have := getElem?_inj_of_nodup h.nodup hidx hj' rfl
    omega
  unfold move_step
  rw [htop]
  simp only [hback, Int.toNat_ofNat]
  by_cases hib : s.idx_lut top.address = b
  · -- the oldest is already at position `back`
    rw [if_neg (by simp [hib])]
    rw [hib] at hidx
    obtain ⟨f1, f2⟩ := move_step_finish s.view s.view s.age_q top b hqueue hmem hmax hidx
      (List.Perm.refl _) rfl hsorted
    refine ⟨⟨h.nodup, ?_, ?_, ?_, ?_⟩, ?_⟩
    · simp only [hqlen]
    · simpa only [hqlen] using f1
    · intro d hd
      exact h.idx d (List.mem_of_mem_erase hd)
    · simpa only [hqlen] using f2
    · simp only [hqlen, hb]
  · -- the oldest is swapped with the descriptor at position `back`
    have hilt : s.idx_lut top.address < b := by omega
    rw [if_pos (by simp only [ne_eq, Nat.cast_inj]; exact hib)]
    have hbl : b < s.view.length := by omega
    have hil : s.idx_lut top.address < s.view.length := by omega
    have hsw := swap_at_getElem? s.view (s.idx_lut top.address) b
    have hvb : (swap_at s.view (s.idx_lut top.address) b)[b]? = some top := by
      rw [hsw b hil hbl]; simp [hidx]
    obtain ⟨w, hw⟩ : ∃ w, s.view[b]? = some w := ⟨s.view[b], List.getElem?_eq_getElem hbl⟩
    have hvi : (swap_at s.view (s.idx_lut top.address) b)[s.idx_lut top.address]? = some w := by
      rw [hsw _ hil hbl]; simp [hib, hw]
    obtain ⟨f1, f2⟩ := move_step_finish s.view (swap_at s.view (s.idx_lut top.address) b)
      s.age_q top b hqueue hmem hmax hvb (take_swap_at_perm _ _ _ hilt hbl)
      (drop_swap_at _ _ _ hilt hbl) hsorted
    simp only [hvi]
    refine ⟨⟨?_, ?_, ?_, ?_, ?_⟩, ?_⟩
    · exact ((swap_at_perm _ _ _).map _).nodup_iff.mpr h.nodup
    · simp only [hqlen]
    · simpa only [hqlen] using f1
    · intro d hd
      have hdq : d ∈ s.age_q := List.mem_of_mem_erase hd
      have hdt : d ≠ top := ((List.Nodup.mem_erase_iff hndq).mp hd).1
      have hdi := h.idx d hdq
      have hdv : d ∈ s.view := List.mem_iff_getElem?.mpr ⟨_, hdi⟩
      have hwv : w ∈ s.view := List.mem_iff_getElem?.mpr ⟨_, hw⟩
      have htv : top ∈ s.view := List.mem_iff_getElem?.mpr ⟨_, hidx⟩
      simp only
      by_cases hdw : d.address = w.address
      · rw [if_pos hdw, hvi, eq_of_address_of_nodup h.nodup hdv hwv hdw]
      · rw [if_neg hdw, hsw _ hil hbl]
        have hj1 : s.idx_lut d.address ≠ b := by
          intro hc
          rw [hc, hw] at hdi
          simp only [Option.some.injEq] at hdi
          exact hdw (by rw [hdi])
        have hj2 : s.idx_lut d.address ≠ s.idx_lut top.address := by
          intro hc
          rw [hc, hidx] at hdi
          simp only [Option.some.injEq] at hdi
          exact hdt hdi.symm
        simp [hj1, hj2, hdi]
    · simpa only [hqlen] using f2
    · simp only [hqlen, hb]

theorem move_loop_inv (tie : Nat → Nat) :
    ∀ (k i : Nat) (s : MoveState), MoveInv s → k ≤ s.age_q.length →
      MoveInv (move_loop tie k i s) ∧
      (move_loop tie k i s).age_q.length = s.age_q.length - k
  | 0, _, s, h, _ => ⟨h, by simp [move_loop]⟩
  | k + 1, i, s, h, hk => by
    have hne : s.age_q ≠ [] := by
      intro hc
      rw [hc] at hk
      simp at hk
    unfold move_loop
    rw [if_neg (by simpa using hne)]
    obtain ⟨h1, h2⟩ := move_step_inv (tie i) s h hne
    obtain ⟨h3, h4⟩ := move_loop_inv tie k (i + 1) _ h1 (by omega)
    exact ⟨h3, by omega⟩

theorem move_init_inv (view : List NodeDescriptor)
    (hnd : (view.map NodeDescriptor.address).Nodup) :
    MoveInv { view := view, idx_lut := build_idx_lut view 0 (fun _ => 0), age_q := view,
              back := (view.length : Int) - 1 } := by
  refine ⟨hnd, rfl, ?_, ?_, ?_⟩
  · simp
  · intro d hd
    obtain ⟨j, hj⟩ := List.mem_iff_getElem?.mp hd
    simp only
    rw [build_idx_lut_getElem view 0 _ hnd j d hj]
    simpa using hj
  · simp

/-- With pairwise distinct addresses, `move_old_to_back(n)` permutes the vector so that no
descriptor in the last `min(max(n, 0), size)` positions is younger than a descriptor before
them. -/
theorem move_old_to_back_list_spec (tie : Nat → Nat) (view : List NodeDescriptor)
    (num_move : Int) (hnd : (view.map NodeDescriptor.address).Nodup) :
    (move_old_to_back_list tie view num_move).Perm view ∧
    ∀ x ∈ (move_old_to_back_list tie view num_move).drop (view.length - num_move.toNat),
      ∀ y ∈ (move_old_to_back_list tie view num_move).take (view.length - num_move.toNat),
        y.age ≤ x.age := by
  refine ⟨move_old_to_back_list_perm tie view num_move, ?_⟩
  unfold move_old_to_back_list
  split
  · rename_i h
    rcases h with h | h
    · have : num_move.toNat = 0 := by omega
      simp [this]
    · have : view = [] := by simpa using h
      simp [this]
  · rename_i h
    simp only [not_or, not_le] at h
    have hk : (if num_move > view.length then view.length else num_move.toNat) ≤ view.length := by
      split <;> omega
    obtain ⟨hinv, hlen⟩ := move_loop_inv tie _ 0 _ (move_init_inv view hnd) hk
    simp only at hlen
    have he : view.length - (if num_move > view.length then view.length else num_move.toNat)
        = view.length - num_move.toNat := by
      split <;> omega
    rw [he] at hlen
    intro x hx y hy
    have hs := hinv.sorted
    have hq := hinv.queue
    rw [hlen] at hs hq
    exact hs x hx y (hq.symm.subset hy)

/-- Healing removes the oldest: `remove_old(n)` on a view with pairwise distinct addresses
splits the descriptors into the survivors and `min(max(n, 0), size)` removed ones, none of
which is younger than a survivor. -/
theorem remove_old_spec (tie : Nat → Nat) (v : URView) (n : Int)
    (hnd : v.addresses.Nodup) :
    ∃ removed : List NodeDescriptor,
      v._view.Perm ((v.remove_old tie n)._view ++ removed) ∧
      removed.length = min n.toNat v._view.length ∧
      ∀ r ∈ removed, ∀ s ∈ (v.remove_old tie n)._view, s.age ≤ r.age := by
  unfold URView.remove_old
  split
  · rename_i h
    refine ⟨[], by simp, ?_, by simp⟩
    rcases h with h | h
    · have : n.toNat = 0 := by omega
      simp [this]
    · have : v._view = [] := by simpa using h
      simp [this]
  · rename_i h
    simp only [not_or, not_le] at h
    obtain ⟨k, hk⟩ :
        ∃ k : Nat, (if n > v._view.length then v._view.length else n.toNat) = k := ⟨_, rfl⟩
    rw [hk]
    have hkl : k ≤ v._view.length := by rw [← hk]; split <;> omega
    have hkm : k = min n.toNat v._view.length := by rw [← hk]; split <;> omega
    obtain ⟨hp, hs⟩ := move_old_to_back_list_spec tie v._view (k : Int) hnd
    have hml := move_old_to_back_list_length tie v._view (k : Int)
    rw [pop_back_loop_view k _ (by simp [URView.move_old_to_back, hml, hkl])]
    simp only [URView.move_old_to_back, hml]
    simp only [Int.toNat_ofNat] at hs
    refine ⟨(move_old_to_back_list tie v._view (k : Int)).drop (v._view.length - k), ?_, ?_, ?_⟩
    · rw [List.take_append_drop]
      exact hp.symm
    · rw [List.length_drop, hml]
      omega
    · intro r hr s hs'
      exact hs r hr s hs'

/-! Auxiliary lemmas: the shuffled view and the wire messages -/

theorem permute_length (v : URView) : v.permute._view.length = v._view.length :=
  (shuffle_perm v._view v._eng).length_eq

theorem add_to_proto_nodes (in_nodes : List NodeDescriptor) :
    ∀ (out_proto : ViewProto), (ViewProtoHelper.add_to_proto in_nodes out_proto).nodes
      = out_proto.nodes ++ in_nodes.map (fun d => d.make_proto {}) := by
  induction in_nodes with
  | nil => intro out; simp [ViewProtoHelper.add_to_proto]
  | cons d rest ih =>
    intro out
    have := ih { out with nodes := out.nodes ++ [d.make_proto {}] }
    simp only [ViewProtoHelper.add_to_proto, List.foldl_cons] at this ⊢
    rw [this]
    simp

theorem make_internal_fold (nodes : List NodeDescriptorProto) :
    ∀ (acc : List NodeDescriptor),
      nodes.foldl (fun new_nodes node => new_nodes ++ [NodeDescriptor.of_proto node]) acc
        = acc ++ nodes.map NodeDescriptor.of_proto := by
  induction nodes with
  | nil => intro acc; simp
  | cons n rest ih => intro acc; simp [ih]

/-! Auxiliary lemmas: the selectors -/

theorem qos_pop_some (lut : List String) :
    ∀ (q : List NodeDescriptor) (d : NodeDescriptor), (qos_pop lut q).1 = some d →
      d ∈ q ∧ d.address ∈ lut
  | [], d, h => by simp [qos_pop] at h
  | x :: rest, d, h => by
    unfold qos_pop at h
    split at h
    · rename_i hx
      simp only [Option.some.injEq] at h
      subst h
      exact ⟨by simp, hx⟩
    · obtain ⟨h1, h2⟩ := qos_pop_some lut rest d h
      exact ⟨List.mem_cons_of_mem _ h1, h2⟩

theorem random_selection_of_ne_nil (v : URView) (h : v._view ≠ []) :
    ∃ d ∈ v._view, v.random_selection.1 = some d := by
  unfold URView.random_selection
  have hne : v._view.isEmpty = false := by simpa using h
  have hpos : 0 < v._view.length := List.length_pos.mpr h
  have hlt : uniform_int v._eng (v._view.length - 1) < v._view.length := by
    unfold uniform_int
    have : v._view.length - 1 + 1 = v._view.length := by omega
    rw [this]
    exact Nat.mod_lt _ hpos
  simp only [hne, Bool.false_eq_true, if_false]
  exact ⟨v._view[uniform_int v._eng (v._view.length - 1)], List.getElem_mem hlt,
    List.getElem?_eq_getElem hlt⟩

theorem random_selection_of_nil (v : URView) (h : v._view = []) :
    v.random_selection = (none, v._eng) := by
  simp [URView.random_selection, h]

/-- On a well-formed view that holds at least one descriptor, the strategy of each of the
six selector kinds selects a descriptor whose address is a key of the index. -/
theorem select_peer_impl_of_ne_nil (s : PeerSelector) (v : URView) (hv : v.WF)
    (h : v._view ≠ []) :
    ∃ d, (s.select_peer_impl v).1 = some d ∧ v.contains d.address = true := by
  have hin : ∀ d ∈ v._view, v.contains d.address = true := by
    intro d hd
    simpa [URView.contains] using hv.covered _ (List.mem_map_of_mem _ hd)
  have htail : ∃ d, v._view.getLast? = some d ∧ v.contains d.address = true := by
    refine ⟨v._view.getLast h, List.getLast?_eq_getLast _ h, hin _ (List.getLast_mem h)⟩
  have hrand : ∃ d, v.random_selection.1 = some d ∧ v.contains d.address = true := by
    obtain ⟨d, hd, he⟩ := random_selection_of_ne_nil v h
    exact ⟨d, he, hin d hd⟩
  have hurnr : ∃ d, (s.urnr_select_peer_impl v).1 = some d ∧
      v.contains d.address = true := by
    unfold PeerSelector.urnr_select_peer_impl
    cases hq : qos_pop v._node_lut s._qos_queue with
    | mk sel rest =>
      cases sel with
      | none => simpa using hrand
      | some d =>
        have := qos_pop_some v._node_lut s._qos_queue d (by rw [hq])
        exact ⟨d, rfl, by simpa [URView.contains] using this.2⟩
  unfold PeerSelector.select_peer_impl
  cases hk : s.kind <;> simp only <;> first | exact htail | exact hrand | exact hurnr

theorem urnr_select_peer_impl_frame (s : PeerSelector) (v : URView) :
    (s.urnr_select_peer_impl v).2.1._log = s._log ∧
    (s.urnr_select_peer_impl v).2.1._id = s._id ∧
    (s.urnr_select_peer_impl v).2.1.kind = s.kind := by
  unfold PeerSelector.urnr_select_peer_impl
  cases hq : qos_pop v._node_lut s._qos_queue with
  | mk sel rest => cases sel <;> exact ⟨rfl, rfl, rfl⟩

theorem select_peer_impl_log (s : PeerSelector) (v : URView) :
    (s.select_peer_impl v).2.1._log = s._log := by
  unfold PeerSelector.select_peer_impl
  cases hk : s.kind <;> simp only <;>
    first | rfl | exact (urnr_select_peer_impl_frame s v).1

/-- A selector that is not logged, or whose log sink is present, returns what its strategy
selects. -/
theorem select_peer_of_sink (s : PeerSelector) (v : URView) (now : Nat)
    (h : s.is_logged = false ∨ s._log.isSome = true) :
    ∃ r, s.select_peer v now = some r ∧ r.1 = (s.select_peer_impl v).1 := by
  have hlog := select_peer_impl_log s v
  unfold PeerSelector.select_peer
  by_cases hl : s.is_logged = true
  · rw [if_pos hl]
    have hs : s._log.isSome = true := by
      rcases h with h | h
      · rw [hl] at h; simp at h
      · exact h
    obtain ⟨log, hlg⟩ := Option.isSome_iff_exists.mp hs
    simp only [hlog, hlg]
    exact ⟨_, rfl, rfl⟩
  · rw [if_neg hl]
    exact ⟨_, rfl, rfl⟩

/-- A logged selector whose log pointer is null has no result. -/
theorem select_peer_of_null_log (s : PeerSelector) (v : URView) (now : Nat)
    (hl : s.is_logged = true) (h : s._log = none) : s.select_peer v now = none := by
  have hlog := select_peer_impl_log s v
  unfold PeerSelector.select_peer
  rw [if_pos hl]
  simp only [hlog, h]

theorem set_of_getElem?_eq {α : Type} (l : List α) (i : Nat) (a : α) (h : l[i]? = some a) :
    l.set i a = l := by
  apply List.ext_getElem?
  intro k
  rw [List.getElem?_set]
  by_cases hik : i = k
  · subst hik
    simp [h, (List.getElem?_eq_some_iff.mp h).1]
  · simp [hik]

theorem set_subscriber_self (v : URView) (i : Nat) (s : PeerSelector)
    (hs : v._subscribers[i]? = some s) :
    ({ v with _subscribers := v._subscribers.set i s, _eng := v._eng } : URView) = v := by
  rw [set_of_getElem?_eq _ _ _ hs]

/-- While the queue of a no-replacement selector starts with `k` descriptors whose
addresses are indexed, `k` consecutive `select_peer()` calls return exactly these, in
order, and leave the rest of the queue. -/
theorem urnr_select_peer_n (i now : Nat) :
    ∀ (k : Nat) (v : URView) (s : PeerSelector),
      v._subscribers[i]? = some s →
      s.kind = SelectorType.UNIFORM_RANDOM_NO_REPLACEMENT →
      k ≤ s._qos_queue.length →
      (∀ d ∈ s._qos_queue.take k, d.address ∈ v._node_lut) →
      v.select_peer_n i now k = some ((s._qos_queue.take k).map some,
        { v with _subscribers :=
            v._subscribers.set i { s with _qos_queue := s._qos_queue.drop k } })
  | 0, v, s, hs, _, _, _ => by
    have h := set_subscriber_self v i s hs
    simp only [URView.select_peer_n, List.take_zero, List.map_nil, List.drop_zero]
    exact congrArg some (congrArg (Prod.mk []) h.symm)
  | k + 1, v, s, hs, hk, hlen, hlut => by
    cases hq : s._qos_queue with
    | nil => rw [hq] at hlen; simp at hlen
    | cons d rest =>
      rw [hq] at hlen hlut
      have hd : d.address ∈ v._node_lut := hlut d (by simp)
      have himpl : s.select_peer_impl v = (some d, { s with _qos_queue := rest }, v._eng) := by
        simp [PeerSelector.select_peer_impl, PeerSelector.urnr_select_peer_impl, hk, hq,
          qos_pop, hd]
      have hsel : s.select_peer v now
          = some (some d, { s with _qos_queue := rest }, v._eng) := by
        simp [PeerSelector.select_peer, PeerSelector.is_logged, hk, himpl]
      have hsub : v.select_peer_sub i now = some (some d,
          { v with _subscribers := v._subscribers.set i { s with _qos_queue := rest } }) := by
        unfold URView.select_peer_sub
        rw [hs]
        simp only [hsel]
      have hi : i < v._subscribers.length := (List.getElem?_eq_some_iff.mp hs).1
      have ih := urnr_select_peer_n i now k
        { v with _subscribers := v._subscribers.set i { s with _qos_queue := rest } }
        { s with _qos_queue := rest }
        (by simp [hi]) hk (by simpa using hlen)
        (fun x hx => hlut x (by simp only [List.take_succ_cons]; exact List.mem_cons_of_mem _ hx))
      rw [URView.select_peer_n, hsub]
      simp only [ih, List.take_succ_cons, List.map_cons, List.drop_succ_cons, List.set_set]

theorem qos_pop_none (lut : List String) :
    ∀ (q : List NodeDescriptor), (∀ d ∈ q, d.address ∉ lut) → qos_pop lut q = (none, [])
  | [], _ => rfl
  | x :: rest, h => by
    unfold qos_pop
    rw [if_neg (h x (by simp))]
    exact qos_pop_none lut rest (fun d hd => h d (List.mem_cons_of_mem _ hd))

/-- On an empty view the tail and the uniform strategies select nothing, and so does the
no-replacement strategy when none of its queued descriptors has an indexed address. -/
theorem select_peer_impl_of_nil (s : PeerSelector) (v : URView) (h : v._view = [])
    (hq : s.is_urnr = true → ∀ d ∈ s._qos_queue, d.address ∉ v._node_lut) :
    (s.select_peer_impl v).1 = none := by
  have hr := random_selection_of_nil v h
  unfold PeerSelector.select_peer_impl
  cases hk : s.kind <;> simp only [h, hr, List.getLast?_nil]
  all_goals
    have hu : s.is_urnr = true := by simp [PeerSelector.is_urnr, hk]
    simp only [PeerSelector.urnr_select_peer_impl, qos_pop_none _ _ (hq hu), hr]

/-- The non-self part of the payload comes from the positions before the last `H` ones. -/
theorem tx_nodes_tail_subset_take (tie : Nat → Nat) (v : URView)
    (hn : v._healing + (Int.tdiv v._size 2 - 1) ≤ (v._view.length : Int)) :
    ∀ d ∈ (v.tx_nodes tie).1.tail,
      d ∈ (v.tx_nodes tie).2._view.take (v._view.length - v._healing.toNat) := by
  intro d hd
  rw [tx_nodes_fst, List.tail_cons] at hd
  unfold URView.head at hd
  split at hd
  · simp at hd
  · rename_i hk
    rw [(tx_nodes_view_perm tie v).length_eq] at hd
    refine List.take_subset_take_left _ ?_ hd
    split <;> omega

/-- The example of the test `tx_nodes_ur`, for every generator outcome and tie-break: with
capacity 10, healing 5 and ten descriptors of ages 0..9 with distinct addresses, every
non-self descriptor sent by `tx_nodes` has an age below 5. -/
theorem tx_nodes_ages_below_five (tie : Nat → Nat) (v : URView) (hv : v.WF)
    (hc : v._size = 10) (hH : v._healing = 5)
    (hages : (v._view.map NodeDescriptor.age).Perm (List.range 10)) :
    ∀ d ∈ (v.tx_nodes tie).1.tail, d.age < 5 := by
  intro d hd
  have hlen : v._view.length = 10 := by
    have := hages.length_eq
    simpa using this
  have hpl := permute_length v
  have hnd : (v.permute._view.map NodeDescriptor.address).Nodup := (permute_wf hv).nodup
  obtain ⟨-, hs⟩ := move_old_to_back_list_spec tie v.permute._view v._healing hnd
  have hview : (v.tx_nodes tie).2._view
      = move_old_to_back_list tie v.permute._view v._healing := rfl
  rw [← hview, hpl, hH, hlen] at hs
  have hdt := tx_nodes_tail_subset_take tie v (by rw [hc, hH, hlen]; decide) d hd
  rw [hH, hlen] at hdt
  have hfp : ((v.tx_nodes tie).2._view.map NodeDescriptor.age).Perm (List.range 10) :=
    ((tx_nodes_view_perm tie v).map _).trans hages
  have hfnd : ((v.tx_nodes tie).2._view.map NodeDescriptor.age).Nodup :=
    hfp.nodup_iff.mpr (List.nodup_range 10)
  rw [← List.take_append_drop (10 - (5 : Int).toNat) (v.tx_nodes tie).2._view,
    List.map_append, List.nodup_append] at hfnd
  obtain ⟨-, hkn, hdisj⟩ := hfnd
  -- the ages kept in the last five positions lie strictly between `d.age` and 10
  have hsub : ((v.tx_nodes tie).2._view.drop (10 - (5 : Int).toNat)).map NodeDescriptor.age
      ⊆ List.range' (d.age + 1) (9 - d.age) := by
    intro a ha
    obtain ⟨x, hx, rfl⟩ := List.mem_map.mp ha
    have h1 : d.age ≤ x.age := hs x hx d hdt
    have h2 : x.age ≠ d.age := by
      intro he
      exact hdisj (List.mem_map_of_mem _ hdt) (he ▸ ha)
    have h3 : x.age < 10 := by
      have : x.age ∈ List.range 10 :=
        hfp.subset (List.mem_map_of_mem _ (List.mem_of_mem_drop hx))
      exact List.mem_range.mp this
    rw [List.mem_range'_1]
    omega
  have hle := (List.subperm_of_subset hkn hsub).length_le
  have hl5 : ((v.tx_nodes tie).2._view.drop (10 - (5 : Int).toNat)).length = 5 := by
    rw [List.length_drop, (tx_nodes_view_perm tie v).length_eq, hlen]
    decide
  rw [List.length_map, hl5, List.length_range'] at hle
  omega

/-! Auxiliary lemmas: the logged selectors, the exchanges and the service -/

theorem notify_add_frame (s : PeerSelector) (added : List NodeDescriptor) (e : Engine) :
    (s.notify_add added e).1.kind = s.kind ∧ (s.notify_add added e).1._id = s._id ∧
    (s.notify_add added e).1._log = s._log := by
  unfold PeerSelector.notify_add
  split <;> exact ⟨rfl, rfl, rfl⟩

theorem notify_add_all_frame (added : List NodeDescriptor) :
    ∀ (subs : List PeerSelector) (e : Engine),
      ∀ t ∈ (notify_add_all subs added e).1,
        ∃ s ∈ subs, t.kind = s.kind ∧ t._id = s._id ∧ t._log = s._log
  | [], e, t, ht => by simp [notify_add_all] at ht
  | s :: rest, e, t, ht => by
    simp only [notify_add_all, List.mem_cons] at ht
    rcases ht with ht | ht
    · subst ht
      exact ⟨s, by simp, notify_add_frame s added e⟩
    · obtain ⟨s', hs', h⟩ := notify_add_all_frame added rest _ t ht
      exact ⟨s', List.mem_cons_of_mem _ hs', h⟩

theorem set_stored_age_self_address (v : URView) (a : String) (age : Nat) :
    (v.set_stored_age a age)._self.address = v._self.address ∧
    (v.set_stored_age a age)._subscribers = v._subscribers := by
  unfold URView.set_stored_age
  split
  · exact ⟨rfl, rfl⟩
  · split <;> exact ⟨rfl, rfl⟩

theorem append_step_self_address (v : URView) (p : NodeDescriptor) :
    (v.append_step p)._self.address = v._self.address := by
  unfold URView.append_step
  split
  · rfl
  · split
    · split
      · exact (set_stored_age_self_address _ _ _).1
      · rfl
    · rfl

theorem append_steps_self_address (L : List NodeDescriptor) :
    ∀ (v : URView), (L.foldl URView.append_step v)._self.address = v._self.address ∧
      (L.foldl URView.append_step v)._subscribers = v._subscribers := by
  induction L with
  | nil => intro v; exact ⟨rfl, rfl⟩
  | cons p rest ih =>
    intro v
    simp only [List.foldl_cons]
    obtain ⟨h1, h2⟩ := ih (v.append_step p)
    exact ⟨h1.trans (append_step_self_address v p),
      h2.trans (append_step_config v p).2.2.2.1⟩

theorem ids_ok_of_frame {v w : URView} (hv : v.IdsOk)
    (hself : w._self.address = v._self.address)
    (hsub : ∀ t ∈ w._subscribers, ∃ s ∈ v._subscribers, t.kind = s.kind ∧ t._id = s._id) :
    w.IdsOk := by
  intro t ht hl
  obtain ⟨s, hs, hk, hid⟩ := hsub t ht
  rw [hid, hself]
  apply hv s hs
  simpa [PeerSelector.is_logged, hk] using hl

theorem ids_ok_of_eq {v w : URView} (hv : v.IdsOk) (hself : w._self = v._self)
    (hsub : w._subscribers = v._subscribers) : w.IdsOk :=
  ids_ok_of_frame hv (by rw [hself]) (fun t ht => ⟨t, hsub ▸ ht, rfl, rfl⟩)

theorem append_ids_ok {v : URView} (hv : v.IdsOk) (L : List NodeDescriptor) :
    (v.append L).IdsOk := by
  refine ids_ok_of_frame hv ?_ ?_
  · rw [append_self]
    exact (append_steps_self_address L v).1
  · intro t ht
    have hsub : (v.append L)._subscribers =
        (notify_add_all (L.foldl URView.append_body (v, [])).1._subscribers
          (L.foldl URView.append_body (v, [])).2
          (L.foldl URView.append_body (v, [])).1._eng).1 := rfl
    rw [hsub] at ht
    obtain ⟨s, hs, hk, hid, -⟩ := notify_add_all_frame _ _ _ t ht
    rw [append_body_fst, (append_steps_self_address L v).2] at hs
    exact ⟨s, hs, hk, hid⟩

theorem append_one_ids_ok {v : URView} (hv : v.IdsOk) (p : NodeDescriptor) :
    (v.append_one p).IdsOk := by
  unfold URView.append_one
  split
  · refine ids_ok_of_frame hv rfl ?_
    intro t ht
    obtain ⟨s, hs, hk, hid, -⟩ := notify_add_all_frame _ _ _ t ht
    exact ⟨s, hs, hk, hid⟩
  · exact ids_ok_of_frame hv (append_step_self_address v p)
      (fun t ht => ⟨t, (append_step_config v p).2.2.2.1 ▸ ht, rfl, rfl⟩)

theorem rx_nodes_frame (tie : Nat → Nat) (v : URView) (nodes : List NodeDescriptor) :
    (v.rx_nodes tie nodes)._self = (v.append nodes)._self ∧
    (v.rx_nodes tie nodes)._subscribers = (v.append nodes)._subscribers ∧
    (v.rx_nodes tie nodes)._size = v._size := by
  have h1 := remove_old_config tie (v.append nodes)
    (min (v.append nodes)._healing (((v.append nodes)._view.length : Int) - (v.append nodes)._size))
  have h2 := remove_head_config (v.rx_healed tie nodes)
    (min (v.rx_healed tie nodes)._swap
      (((v.rx_healed tie nodes)._view.length : Int) - (v.rx_healed tie nodes)._size))
  have h3 := remove_random_config (v.rx_swapped tie nodes)
    (((v.rx_swapped tie nodes)._view.length : Int) - (v.rx_swapped tie nodes)._size)
  refine ⟨?_, ?_, ?_⟩
  · exact h3.2.2.2.1.trans (h2.2.2.2.1.trans h1.2.2.2.1)
  · exact h3.2.2.2.2.2.trans (h2.2.2.2.2.2.trans h1.2.2.2.2.2)
  · exact h3.1.trans (h2.1.trans (h1.1.trans (append_config v nodes).1))

theorem rx_nodes_ids_ok (tie : Nat → Nat) {v : URView} (hv : v.IdsOk)
    (nodes : List NodeDescriptor) : (v.rx_nodes tie nodes).IdsOk :=
  ids_ok_of_eq (append_ids_ok hv nodes) (rx_nodes_frame tie v nodes).1
    (rx_nodes_frame tie v nodes).2.1

theorem create_ids_ok (v : URView) (k : SelectorType) (log : Option (List LogEntry)) :
    (PeerSelector.create v k log).kind = k ∧
    ((PeerSelector.create v k log).is_logged = true →
      (PeerSelector.create v k log)._id = v._self.address ∧
      (PeerSelector.create v k log)._log = log) := by
  cases k <;> simp [PeerSelector.create, PeerSelector.is_logged, PeerSelector.is_urnr]

theorem create_subscriber_ids_ok {v : URView} (hv : v.IdsOk) (type : Int)
    (log : Option (List LogEntry)) : (v.create_subscriber type log).2.IdsOk := by
  unfold URView.create_subscriber
  split
  · intro t ht hl
    simp only [List.mem_append, List.mem_singleton] at ht
    rcases ht with ht | ht
    · exact hv t ht hl
    · subst ht
      exact ((create_ids_ok v _ log).2 hl).1
  · exact hv

theorem init_selector_ids_ok {v : URView} (hv : v.IdsOk) (type : Int)
    (log : Option (List LogEntry)) : (v.init_selector type log).IdsOk := by
  unfold URView.init_selector
  split
  · exact ids_ok_of_eq (create_subscriber_ids_ok hv type log) rfl rfl
  · exact hv

theorem select_peer_impl_frame (s : PeerSelector) (v : URView) :
    (s.select_peer_impl v).2.1.kind = s.kind ∧ (s.select_peer_impl v).2.1._id = s._id := by
  unfold PeerSelector.select_peer_impl
  cases hk : s.kind <;> simp only <;>
    first
    | exact ⟨hk, trivial⟩
    | exact ⟨((urnr_select_peer_impl_frame s v).2.2).trans hk,
        (urnr_select_peer_impl_frame s v).2.1⟩

theorem select_peer_frame {s : PeerSelector} {v : URView} {now : Nat}
    {r : Option NodeDescriptor × PeerSelector × Engine} (h : s.select_peer v now = some r) :
    r.2.1.kind = s.kind ∧ r.2.1._id = s._id := by
  unfold PeerSelector.select_peer at h
  split at h
  · dsimp only at h
    split at h
    · simp at h
    · simp only [Option.some.injEq] at h
      subst h
      exact select_peer_impl_frame s v
  · simp only [Option.some.injEq] at h
    subst h
    exact select_peer_impl_frame s v

theorem select_peer_sub_ids_ok {v : URView} (hv : v.IdsOk) {i now : Nat}
    {r : Option NodeDescriptor × URView} (h : v.select_peer_sub i now = some r) :
    r.2.IdsOk := by
  unfold URView.select_peer_sub at h
  split at h
  · simp at h
  · rename_i s hs
    split at h
    · simp at h
    · rename_i q hq
      simp only [Option.some.injEq] at h
      subst h
      refine ids_ok_of_frame hv rfl ?_
      intro t ht
      rcases List.mem_or_eq_of_mem_set ht with ht | ht
      · exact ⟨t, ht, rfl, rfl⟩
      · subst ht
        exact ⟨s, List.mem_iff_getElem?.mpr ⟨_, hs⟩, select_peer_frame hq⟩

/-- In every reachable state, every logged subscriber carries the view's own address as
`_id`. -/
theorem reachable_ids_ok {v : URView} (h : Reachable v) : v.IdsOk := by
  induction h with
  | init address size healing swap eng => intro s hs; simp [URView.new] at hs
  | rx_nodes tie v nodes _ ih => exact rx_nodes_ids_ok tie ih nodes
  | manual_insert_one v node _ ih => exact append_one_ids_ok ih node
  | manual_insert v nodes _ ih => exact append_ids_ok ih nodes
  | tx_nodes tie v _ ih => exact ids_ok_of_eq ih rfl rfl
  | increment_age v _ ih => exact ids_ok_of_eq ih rfl rfl
  | create_subscriber v type log _ ih => exact create_subscriber_ids_ok ih type log
  | init_selector v type log _ ih => exact init_selector_ids_ok ih type log
  | select_peer_sub v i now r _ hsel ih => exact select_peer_sub_ids_ok ih hsel

/-- One `select_peer()` call on a logged subscriber whose log sink is present: the result
is the selection of the strategy, and the subscriber afterwards has one more log entry. -/
theorem logged_select_peer_sub (v : URView) (i now : Nat) (s : PeerSelector)
    (log : List LogEntry) (hs : v._subscribers[i]? = some s) (hl : s.is_logged = true)
    (hlog : s._log = some log) :
    v.select_peer_sub i now = some ((s.select_peer_impl v).1,
      { v with
        _subscribers := v._subscribers.set i
          { (s.select_peer_impl v).2.1 with
            _log := some (log ++ [{ id := s._id,
                                    selected := selected_address (s.select_peer_impl v).1,
                                    time := now }]) }
        _eng := (s.select_peer_impl v).2.2 }) := by
  have h1 := select_peer_impl_log s v
  have h2 := (select_peer_impl_frame s v).2
  have hsel : s.select_peer v now = some ((s.select_peer_impl v).1,
      { (s.select_peer_impl v).2.1 with
        _log := some (log ++ [{ id := s._id,
                                selected := selected_address (s.select_peer_impl v).1,
                                time := now }]) },
      (s.select_peer_impl v).2.2) := by
    unfold PeerSelector.select_peer
    rw [if_pos hl]
    simp only [h1, hlog, h2]
    cases (s.select_peer_impl v).1 <;> rfl
  unfold URView.select_peer_sub
  rw [hs]
  simp only [hsel]

theorem logged_select_peer_n (i now : Nat) :
    ∀ (k : Nat) (v : URView) (s : PeerSelector) (log : List LogEntry),
      v._subscribers[i]? = some s → s.is_logged = true → s._log = some log →
      ∃ rs entries, v.select_peer_n i now k = some rs ∧ rs.1.length = k ∧
        rs.2.log_of i = some (log ++ entries) ∧ entries.length = k ∧
        ∀ e ∈ entries, e.id = s._id
  | 0, v, s, log, hs, _, hlog => by
    refine ⟨([], v), [], rfl, rfl, ?_, rfl, by simp⟩
    simp [URView.log_of, hs, hlog]
  | k + 1, v, s, log, hs, hl, hlog => by
    have h1 := logged_select_peer_sub v i now s log hs hl hlog
    have hi : i < v._subscribers.length := (List.getElem?_eq_some_iff.mp hs).1
    have hf := select_peer_impl_frame s v
    obtain ⟨rs, entries, hn, hlen, hlg, hel, hid⟩ := logged_select_peer_n i now k
      { v with
        _subscribers := v._subscribers.set i
          { (s.select_peer_impl v).2.1 with
            _log := some (log ++ [{ id := s._id,
                                    selected := selected_address (s.select_peer_impl v).1,
                                    time := now }]) }
        _eng := (s.select_peer_impl v).2.2 }
      { (s.select_peer_impl v).2.1 with
        _log := some (log ++ [{ id := s._id,
                                selected := selected_address (s.select_peer_impl v).1,
                                time := now }]) }
      (log ++ [{ id := s._id, selected := selected_address (s.select_peer_impl v).1,
                 time := now }])
      (by simp [hi])
      (by simpa [PeerSelector.is_logged, hf.1] using hl)
      rfl
    refine ⟨((s.select_peer_impl v).1 :: rs.1, rs.2),
      { id := s._id, selected := selected_address (s.select_peer_impl v).1, time := now }
        :: entries, ?_, ?_, ?_, ?_, ?_⟩
    · rw [URView.select_peer_n, h1]
      simp only [hn]
    · simp [hlen]
    · rw [hlg]; simp
    · simp [hel]
    · intro e he
      rcases List.mem_cons.mp he with he | he
      · rw [he]
      · rw [hid e he]
        exact hf.2

/-- An example: three selections at clock reading 7 on the logged tail
subscriber leave three entries, each naming the view and the last descriptor. -/
theorem logged_tail_three_entries :
    (logged_fixture_view.select_peer_n 0 7 3).map (fun rs => rs.2.log_of 0)
      = some (some [⟨"192.168.225.1:5012", "192.168.225.1:5022", 7⟩,
                    ⟨"192.168.225.1:5012", "192.168.225.1:5022", 7⟩,
                    ⟨"192.168.225.1:5012", "192.168.225.1:5022", 7⟩]) := by
  decide

theorem append_one_addresses (v : URView) (p : NodeDescriptor) :
    (v.append_one p).addresses =
      v.addresses ++ (if p.address ∉ v._node_lut then [p.address] else []) := by
  unfold URView.append_one
  split
  · rename_i h
    simp [URView.addresses, h]
  · rename_i h
    have := (append_step_addresses v p).1
    rw [if_neg h] at this
    exact this

theorem stored_age_congr {v w : URView} (hview : w._view = v._view) (hself : w._self = v._self)
    (a : String) : w.stored_age a = v.stored_age a := by
  unfold URView.stored_age
  rw [hview, hself]

theorem find?_map_set_age (a : String) (age : Nat) :
    ∀ (l : List NodeDescriptor), (∃ e ∈ l, e.address = a) →
      ((l.map (fun d => if d.address = a then { d with age := age } else d)).find?
        (fun d => d.address = a)).map NodeDescriptor.age = some age
  | [], h => by simp at h
  | x :: rest, h => by
    by_cases hx : x.address = a
    · simp [List.find?, hx]
    · have hrest : ∃ e ∈ rest, e.address = a := by
        obtain ⟨e, he, hea⟩ := h
        rcases List.mem_cons.mp he with he | he
        · subst he; exact absurd hea hx
        · exact ⟨e, he, hea⟩
      have ih := find?_map_set_age a age rest hrest
      simpa [List.find?, hx] using ih

theorem stored_age_set_stored_age (v : URView) (a : String) (age : Nat)
    (h : ∃ e ∈ v._view, e.address = a) :
    (v.set_stored_age a age).stored_age a = some age := by
  have hany : v._view.any (fun d => d.address = a) = true := by
    obtain ⟨e, he, hea⟩ := h
    exact List.any_eq_true.mpr ⟨e, he, by simpa using hea⟩
  have hf := find?_map_set_age a age v._view h
  unfold URView.set_stored_age
  rw [if_pos hany]
  unfold URView.stored_age
  dsimp only
  cases hq : (v._view.map (fun d => if d.address = a then { d with age := age } else d)).find?
      (fun d => d.address = a) with
  | none => rw [hq] at hf; simp at hf
  | some x =>
    rw [hq] at hf
    simpa using hf

/-- The merge step on a descriptor whose address is in the view keeps the younger of the
stored and the incoming age. -/
theorem append_step_stored_age {v : URView} (hv : v.WF) (d e : NodeDescriptor)
    (he : e ∈ v._view) (hed : e.address = d.address) :
    v.stored_age d.address = some e.age ∧
    (v.append_step d).stored_age d.address = some (min e.age d.age) := by
  have hst : v.stored_age d.address = some e.age := hed ▸ stored_age_of_mem hv he
  have hin : d.address ∈ v._node_lut :=
    hed ▸ hv.covered _ (List.mem_map_of_mem _ he)
  refine ⟨hst, ?_⟩
  unfold URView.append_step
  rw [if_neg (by simpa using hin)]
  simp only [hst]
  split
  · rename_i hgt
    rw [stored_age_set_stored_age v d.address d.age ⟨e, he, hed⟩]
    congr 1
    omega
  · rename_i hle
    rw [hst]
    congr 1
    omega

theorem aged_view_wf : aged_view.WF :=
  append_one_wf (constructor_wf "self" 1 0 0 (fun _ => 0)) ⟨"a", 5⟩

theorem tx_nodes_frame (tie : Nat → Nat) (v : URView) :
    (v.tx_nodes tie).2._self = v._self ∧ (v.tx_nodes tie).2._node_lut = v._node_lut ∧
    (v.tx_nodes tie).2._size = v._size ∧
    (v.tx_nodes tie).2._subscribers = v._subscribers ∧
    (v.tx_nodes tie).2._selector = v._selector :=
  ⟨rfl, rfl, rfl, rfl, rfl⟩

/-- Every descriptor of the payload is the view's own descriptor or a descriptor of the
view. -/
theorem tx_nodes_origin (tie : Nat → Nat) (v : URView) :
    ∀ d ∈ (v.tx_nodes tie).1, d = v._self ∨ d ∈ v._view := by
  intro d hd
  rw [tx_nodes_fst] at hd
  rcases List.mem_cons.mp hd with hd | hd
  · exact Or.inl hd
  · exact Or.inr ((tx_nodes_view_perm tie v).subset ((head_sublist _ _).subset hd))

theorem make_internal_make_proto (nodes : List NodeDescriptor) :
    ViewProtoHelper.make_internal (ViewProtoHelper.make_proto nodes) = nodes := by
  unfold ViewProtoHelper.make_internal ViewProtoHelper.make_proto
  rw [add_to_proto_nodes, make_internal_fold]
  simp only [List.nil_append, List.map_map]
  conv_rhs => rw [← List.map_id nodes]
  apply List.map_congr_left
  intro d _
  rfl

theorem rx_nodes_self_address (tie : Nat → Nat) (v : URView) (nodes : List NodeDescriptor) :
    (v.rx_nodes tie nodes)._self.address = v._self.address := by
  rw [(rx_nodes_frame tie v nodes).1, append_self]
  exact (append_steps_self_address nodes v).1

theorem first_occurrences_eq_nil : ∀ (l : List String), first_occurrences l = [] → l = []
  | [], _ => rfl
  | a :: rest, h => by
    rw [first_occurrences] at h
    simp at h

theorem append_steps_of_view_nil (L : List NodeDescriptor) (v : URView)
    (h : (L.foldl URView.append_step v)._view = []) :
    v._view = [] ∧ (L.foldl URView.append_step v)._node_lut = v._node_lut := by
  obtain ⟨h1, h2⟩ := append_steps_addresses L v
  have ha : (L.foldl URView.append_step v).addresses = [] := by
    simp [URView.addresses, h]
  rw [ha] at h1
  have h3 := List.append_eq_nil.mp h1.symm
  refine ⟨by simpa [URView.addresses] using h3.1, ?_⟩
  rw [h2, h3.2, List.append_nil]

theorem append_of_view_nil (v : URView) (L : List NodeDescriptor)
    (h : (v.append L)._view = []) :
    v._view = [] ∧ (v.append L)._node_lut = v._node_lut := by
  rw [append_view] at h
  rw [append_node_lut]
  exact append_steps_of_view_nil L v h

theorem append_one_of_view_nil (v : URView) (p : NodeDescriptor)
    (h : (v.append_one p)._view = []) :
    v._view = [] ∧ (v.append_one p)._node_lut = v._node_lut ∧
    (v.append_one p)._self.address = v._self.address ∧
    (v.append_one p)._size = v._size := by
  unfold URView.append_one at h ⊢
  split at h
  · simp at h
  · rename_i hin
    rw [if_neg hin]
    have := append_steps_of_view_nil [p] v h
    exact ⟨this.1, this.2, append_step_self_address v p, (append_step_config v p).1⟩

theorem rx_nodes_of_view_nil (tie : Nat → Nat) (v : URView) (nodes : List NodeDescriptor)
    (hc : 1 ≤ v._size) (h : (v.rx_nodes tie nodes)._view = []) :
    (v.append nodes)._view = [] ∧ v.rx_nodes tie nodes = v.append nodes := by
  obtain ⟨h1, h2, h3⟩ := rx_phase_lengths tie v nodes
  rw [h] at h3
  simp only [List.length_nil] at h3
  have h0 : (v.append nodes)._view.length = 0 := by omega
  refine ⟨List.length_eq_zero.mp h0, ?_⟩
  apply rx_nodes_eq_append_of_le
  rw [h0, (append_config v nodes).1]
  omega

theorem create_subscriber_frame (v : URView) (type : Int) (log : Option (List LogEntry)) :
    (v.create_subscriber type log).2._self = v._self ∧
    (v.create_subscriber type log).2._view = v._view ∧
    (v.create_subscriber type log).2._node_lut = v._node_lut ∧
    (v.create_subscriber type log).2._size = v._size := by
  unfold URView.create_subscriber
  cases SelectorType.of_code type <;> exact ⟨rfl, rfl, rfl, rfl⟩

theorem init_selector_frame (v : URView) (type : Int) (log : Option (List LogEntry)) :
    (v.init_selector type log)._self = v._self ∧
    (v.init_selector type log)._view = v._view ∧
    (v.init_selector type log)._node_lut = v._node_lut ∧
    (v.init_selector type log)._size = v._size := by
  unfold URView.init_selector URView.create_subscriber
  cases SelectorType.of_code type <;> exact ⟨rfl, rfl, rfl, rfl⟩

/-- In every reachable state of a view of capacity at least 1, an empty `_view` goes with an
index that holds nothing but the view's own address: such a view has never held a
descriptor. -/
theorem reachable_empty_index {v : URView} (h : Reachable v) :
    1 ≤ v._size → v._view = [] → v._node_lut = [v._self.address] := by
  induction h with
  | init address size healing swap eng => intro _ _; rfl
  | rx_nodes tie v nodes _ ih =>
    intro hc hnil
    have hc' : 1 ≤ v._size := by rw [← (rx_nodes_frame tie v nodes).2.2]; exact hc
    obtain ⟨h0, heq⟩ := rx_nodes_of_view_nil tie v nodes hc' hnil
    obtain ⟨hv, hl⟩ := append_of_view_nil v nodes h0
    rw [rx_nodes_self_address, heq, hl]
    exact ih hc' hv
  | manual_insert_one v node _ ih =>
    intro hc hnil
    obtain ⟨hv, hl, hs, hsz⟩ := append_one_of_view_nil v node hnil
    show (v.append_one node)._node_lut = [(v.append_one node)._self.address]
    rw [hl, hs]
    exact ih (by rw [← hsz]; exact hc) hv
  | manual_insert v nodes _ ih =>
    intro hc hnil
    obtain ⟨hv, hl⟩ := append_of_view_nil v nodes hnil
    show (v.append nodes)._node_lut = [(v.append nodes)._self.address]
    rw [hl, append_self, (append_steps_self_address nodes v).1]
    exact ih (by rw [← (append_config v nodes).1]; exact hc) hv
  | tx_nodes tie v _ ih =>
    intro hc hnil
    have hv : v._view = [] := by
      have := (tx_nodes_view_perm tie v).length_eq
      rw [hnil] at this
      exact List.length_eq_zero.mp this.symm
    exact ih hc hv
  | increment_age v _ ih =>
    intro hc hnil
    have hv : v._view = [] := by
      have : v.increment_age._view.length = v._view.length := by
        simp [URView.increment_age]
      rw [hnil] at this
      exact List.length_eq_zero.mp this.symm
    exact ih hc hv
  | create_subscriber v type log _ ih =>
    intro hc hnil
    obtain ⟨h1, h2, h3, h4⟩ := create_subscriber_frame v type log
    rw [h3, h1]
    exact ih (h4 ▸ hc) (h2 ▸ hnil)
  | init_selector v type log _ ih =>
    intro hc hnil
    obtain ⟨h1, h2, h3, h4⟩ := init_selector_frame v type log
    rw [h3, h1]
    exact ih (h4 ▸ hc) (h2 ▸ hnil)
  | select_peer_sub v i now r _ hsel ih =>
    intro hc hnil
    obtain ⟨h1, h2, h3, h4, -⟩ := select_peer_sub_frame hsel
    rw [h3, h1]
    exact ih (h4 ▸ hc) (h2 ▸ hnil)

/-- The payload of a view that holds no descriptor is the view's own descriptor alone. -/
theorem tx_nodes_of_view_nil (tie : Nat → Nat) (v : URView) (h : v._view = []) :
    (v.tx_nodes tie).1 = [v._self] ∧ (v.tx_nodes tie).2._view = [] := by
  have hnil : (v.tx_nodes tie).2._view = [] := by
    have := (tx_nodes_view_perm tie v).length_eq
    rw [h] at this
    exact List.length_eq_zero.mp this
  refine ⟨?_, hnil⟩
  rw [tx_nodes_fst]
  have hh := (head_sublist (v.tx_nodes tie).2 (Int.tdiv v._size 2 - 1))
  rw [hnil] at hh
  rw [List.sublist_nil.mp hh]

/-- One descriptor with a foreign address received by a view of capacity at least 1 that
has never held a descriptor: afterwards the view holds exactly that address. -/
theorem rx_nodes_single_into_empty (tie : Nat → Nat) (w : URView) (p : NodeDescriptor)
    (hw : w._view = []) (hl : w._node_lut = [w._self.address]) (hc : 1 ≤ w._size)
    (hp : p.address ≠ w._self.address) :
    (w.rx_nodes tie [p]).increment_age.addresses = [p.address] ∧
    (w.rx_nodes tie [p]).increment_age.contains p.address = true := by
  have ha : (w.append [p]).addresses = [p.address] := by
    rw [append_addresses]
    simp [URView.addresses, hw, hl, hp, first_occurrences]
  have hlen : (w.append [p])._view.length = 1 := by
    have := congrArg List.length ha
    simpa [URView.addresses] using this
  have heq : w.rx_nodes tie [p] = w.append [p] := by
    apply rx_nodes_eq_append_of_le
    rw [hlen, (append_config w [p]).1]
    exact_mod_cast hc
  rw [increment_age_addresses, heq]
  refine ⟨ha, ?_⟩
  have := append_contains w [p] p (by simp)
  simpa [URView.contains, URView.increment_age] using this

theorem enter_step_spec (tie_tx tie_rx : Nat → Nat) (s : EnterState) (ep : String) :
    ∃ st, (PeerSamplingService.enter_step tie_tx tie_rx s ep).statuses = s.statuses ++ [st] ∧
      (PeerSamplingService.enter_step tie_tx tie_rx s ep).service._entered
        = (s.service._entered || st.ok) := by
  refine ⟨(Client.push_pull_view_at tie_tx tie_rx s.net s.service._view ep).1, ?_, ?_⟩
  · unfold PeerSamplingService.enter_step
    dsimp only
    split
    · split <;> rfl
    · rfl
  · unfold PeerSamplingService.enter_step
    dsimp only
    cases he : s.service._entered <;>
      cases hk : (Client.push_pull_view_at tie_tx tie_rx s.net s.service._view ep).1.ok <;>
      simp

theorem enter_loop_spec (ties : Nat → Nat → Nat) :
    ∀ (eps : List String) (k : Nat) (s : EnterState),
      ∃ new : List Status,
        (PeerSamplingService.enter_loop ties eps k s).statuses = s.statuses ++ new ∧
        new.length = eps.length ∧
        (PeerSamplingService.enter_loop ties eps k s).service._entered
          = (s.service._entered || new.any Status.ok)
  | [], k, s => ⟨[], by simp [PeerSamplingService.enter_loop]⟩
  | ep :: rest, k, s => by
    obtain ⟨st, h1, h2⟩ := enter_step_spec (ties (2 * k)) (ties (2 * k + 1)) s ep
    obtain ⟨new, h3, h4, h5⟩ := enter_loop_spec ties rest (k + 1)
      (PeerSamplingService.enter_step (ties (2 * k)) (ties (2 * k + 1)) s ep)
    refine ⟨st :: new, ?_, by simp [h4], ?_⟩
    · rw [PeerSamplingService.enter_loop, h3, h1]
      simp
    · rw [PeerSamplingService.enter_loop, h5, h2]
      simp [Bool.or_assoc]

/-- The scenario of the test `one_enter_from_zero`: the joining service enters through the
entry server; `enter` returns true after one exchange, and the view of the joining node
holds the address of the entry server. -/
theorem one_enter_from_zero_example :
    (joining_service.enter (fun _ _ => 0) (loopback_net node0_view)).1 = true ∧
    (joining_service.enter (fun _ _ => 0) (loopback_net node0_view)).2.statuses
      = [Status.OK] ∧
    (joining_service.enter (fun _ _ => 0) (loopback_net node0_view)).2.service._view.addresses
      = ["0.0.0.0:50050"] ∧
    (joining_service.enter (fun _ _ => 0) (loopback_net node0_view)).2.net.sent.map
        RpcCall.server_address = ["0.0.0.0:50050"] := by
  decide

theorem select_peer_frame_of_none {v v1 : URView} {now : Nat} {sel : Option NodeDescriptor}
    (h : v.select_peer now = some (sel, v1)) :
    v1._self = v._self ∧ v1._view = v._view ∧ v1._node_lut = v._node_lut := by
  unfold URView.select_peer at h
  split at h
  · simp only [Option.some.injEq, Prod.mk.injEq] at h
    rw [← h.2]
    exact ⟨rfl, rfl, rfl⟩
  · have := select_peer_sub_frame h
    exact ⟨this.1, this.2.1, this.2.2.1⟩

/-- Whenever `select_peer` on the view returns a null pointer, each of the three
parameterless client operations returns `NOT_FOUND` with its message, issues no call, and
leaves the descriptors, the index and the own descriptor of the view as they were. -/
theorem parameterless_without_peer (tie_tx tie_rx : Nat → Nat) (now : Nat) (net : Net)
    (v v1 : URView) (h : v.select_peer now = some (none, v1)) :
    Client.push_view tie_tx now net v
      = some ({ error_code := StatusCode.NOT_FOUND,
                error_message := "No Peer was selected to push view to." }, v1, net) ∧
    Client.pull_view tie_rx now net v
      = some ({ error_code := StatusCode.NOT_FOUND,
                error_message := "No Peer was selected to pull view from." }, v1, net) ∧
    Client.push_pull_view tie_tx tie_rx now net v
      = some ({ error_code := StatusCode.NOT_FOUND,
                error_message := "No Peer was selected to push/pull from." }, v1, net) ∧
    v1._self = v._self ∧ v1._view = v._view ∧ v1._node_lut = v._node_lut := by
  refine ⟨?_, ?_, ?_, select_peer_frame_of_none h⟩
  · unfold Client.push_view; rw [h]
  · unfold Client.pull_view; rw [h]
  · unfold Client.push_pull_view; rw [h]

/-! Auxiliary lemmas: repeated merges, the ring buffer and the lock -/

theorem append_step_fixed (u : URView) (p : NodeDescriptor) (hin : p.address ∈ u._node_lut)
    (hage : ∀ stored, u.stored_age p.address = some stored → stored ≤ p.age) :
    u.append_step p = u := by
  unfold URView.append_step
  rw [if_neg (by simpa using hin)]
  cases hs : u.stored_age p.address with
  | none => rfl
  | some stored =>
    have := hage stored hs
    simp only
    rw [if_neg (by omega)]

theorem append_steps_fixed (L : List NodeDescriptor) (u : URView)
    (h : ∀ p ∈ L, p.address ∈ u._node_lut ∧
      ∀ stored, u.stored_age p.address = some stored → stored ≤ p.age) :
    L.foldl URView.append_step u = u := by
  induction L with
  | nil => rfl
  | cons p rest ih =>
    simp only [List.foldl_cons]
    rw [append_step_fixed u p (h p (by simp)).1 (h p (by simp)).2]
    exact ih (fun q hq => h q (List.mem_cons_of_mem _ hq))

/-- After the merge of `L` every address of `L` is indexed and no stored age exceeds an age
that `L` gives for its address. -/
theorem append_steps_saturated {v : URView} (hv : v.WF) (L : List NodeDescriptor) :
    ∀ p ∈ L, p.address ∈ (L.foldl URView.append_step v)._node_lut ∧
      ∀ stored, (L.foldl URView.append_step v).stored_age p.address = some stored →
        stored ≤ p.age := by
  intro p hp
  have hw := append_steps_wf L hv
  constructor
  · rw [(append_steps_addresses L v).2]
    by_cases hin : p.address ∈ v._node_lut
    · exact List.mem_append_left _ hin
    · apply List.mem_append_right
      apply mem_first_occurrences
      simp only [List.mem_filter, List.mem_map]
      exact ⟨⟨p, hp, rfl⟩, by simpa using hin⟩
  · intro stored hs
    unfold URView.stored_age at hs
    split at hs
    · rename_i d hd
      simp only [Option.some.injEq] at hs
      have hdm : d ∈ (L.foldl URView.append_step v)._view := List.mem_of_find?_eq_some hd
      have hda : d.address = p.address := by
        have := List.find?_some hd
        simpa using this
      have := (append_steps_min_age L v hv d hdm).2 p.age
        (List.mem_append_right _ ((mem_ages_of L d.address p.age).mpr ⟨p, hp, hda.symm, rfl⟩))
      omega
    · split at hs
      · simp only [Option.some.injEq] at hs
        rw [← hs, hw.self_age]
        exact Nat.zero_le _
      · simp at hs

/-- Merging the same list a second time changes nothing. -/
theorem append_append_self {v : URView} (hv : v.WF) (L : List NodeDescriptor) :
    ((v.append L).append L)._view = (v.append L)._view ∧
    ((v.append L).append L)._node_lut = (v.append L)._node_lut ∧
    ((v.append L).append L)._self = (v.append L)._self := by
  have hsat := append_steps_saturated hv L
  have hfix : L.foldl URView.append_step (v.append L) = v.append L := by
    apply append_steps_fixed
    intro p hp
    refine ⟨?_, ?_⟩
    · rw [append_node_lut]
      exact (hsat p hp).1
    · intro stored hs
      rw [stored_age_congr (append_view v L) (append_self v L)] at hs
      exact (hsat p hp).2 stored hs
  refine ⟨?_, ?_, ?_⟩
  · rw [append_view (v.append L) L, hfix]
  · rw [append_node_lut (v.append L) L, hfix]
  · rw [append_self (v.append L) L, hfix]

theorem remove_head_view (v : URView) (n : Int) :
    (v.remove_head n)._view = v._view.drop (min n.toNat v._view.length) := by
  unfold URView.remove_head
  split
  · rename_i h
    rcases h with h | h
    · have : n.toNat = 0 := by omega
      simp [this]
    · have : v._view = [] := by simpa using h
      simp [this]
  · rename_i h
    simp only [not_or] at h
    dsimp only
    rw [(erase_front_loop_view _ v).1]
    congr 1
    split <;> omega

/-- The loop of `remove_head` records the address of the front descriptor at every
iteration. -/
theorem erase_front_removed_eq (d : NodeDescriptor) (rest : List NodeDescriptor) :
    ∀ (k : Nat) (v : URView), v._view = d :: rest →
      erase_front_removed k v = List.replicate k d.address
  | 0, v, _ => rfl
  | k + 1, v, hv => by
    rw [erase_front_removed]
    simp only [hv, List.head?_cons, List.replicate_succ]
    congr 1
    exact erase_front_removed_eq d rest k _ rfl

/-- What `remove_head(n)` does for `n >= 1` on a view that is not empty, with
`m = min(n, size)`: `_view` loses its first `m` descriptors and keeps the rest in order;
`_node_lut` loses the key of the first descriptor only; the notification names the first
descriptor `m` times. -/
theorem remove_head_spec (v : URView) (n : Int) (hn : 1 ≤ n) (d : NodeDescriptor)
    (rest : List NodeDescriptor) (hv : v._view = d :: rest) :
    (v.remove_head n)._view = v._view.drop (min n.toNat v._view.length) ∧
    (v.remove_head n)._node_lut = v._node_lut.filter (fun a => a ≠ d.address) ∧
    v.remove_head_removed n = List.replicate (min n.toNat v._view.length) d.address := by
  have hne : ¬ (n ≤ 0 ∨ v._view.isEmpty = true) := by
    simp [hv]
    omega
  have hm : ∃ k, (if n > (v._view.length : Int) then v._view.length else n.toNat) = k + 1 ∧
      min n.toNat v._view.length = k + 1 := by
    have hl : 1 ≤ v._view.length := by simp [hv]
    refine ⟨min n.toNat v._view.length - 1, ?_, by omega⟩
    split <;> omega
  obtain ⟨k, hk, hmin⟩ := hm
  refine ⟨remove_head_view v n, ?_, ?_⟩
  · unfold URView.remove_head
    rw [if_neg hne]
    dsimp only
    rw [hk]
    exact erase_front_loop_node_lut d rest k v hv
  · unfold URView.remove_head_removed
    rw [if_neg hne]
    dsimp only
    rw [hk, hmin]
    exact erase_front_removed_eq d rest (k + 1) v hv

theorem push_pull_view_at_sent (tie_tx tie_rx : Nat → Nat) (net : Net) (v : URView)
    (address : String) :
    (Client.push_pull_view_at tie_tx tie_rx net v address).2.2.sent = net.sent ++
      [{ server_address := address, method := RpcMethod.PushPullView,
         request := ViewProtoHelper.make_proto (v.tx_nodes tie_tx).1 }] ∧
    (Client.push_pull_view_at tie_tx tie_rx net v address).2.2.outcome = net.outcome := by
  unfold Client.push_pull_view_at ClientSession.push_pull_view Net.call
  dsimp only
  split <;> exact ⟨rfl, rfl⟩

theorem enter_step_sent (tie_tx tie_rx : Nat → Nat) (s : EnterState) (ep : String) :
    ∃ c : RpcCall, (PeerSamplingService.enter_step tie_tx tie_rx s ep).net.sent
        = s.net.sent ++ [c] ∧
      c.server_address = ep ∧ c.method = RpcMethod.PushPullView := by
  have h := (push_pull_view_at_sent tie_tx tie_rx s.net s.service._view ep).1
  refine ⟨{ server_address := ep, method := RpcMethod.PushPullView,
            request := ViewProtoHelper.make_proto (s.service._view.tx_nodes tie_tx).1 },
    ?_, rfl, rfl⟩
  unfold PeerSamplingService.enter_step
  dsimp only
  split
  · split <;> exact h
  · exact h

theorem enter_loop_sent (ties : Nat → Nat → Nat) :
    ∀ (eps : List String) (k : Nat) (s : EnterState),
      ∃ calls : List RpcCall,
        (PeerSamplingService.enter_loop ties eps k s).net.sent = s.net.sent ++ calls ∧
        calls.map RpcCall.server_address = eps ∧
        ∀ c ∈ calls, c.method = RpcMethod.PushPullView
  | [], k, s => ⟨[], by simp [PeerSamplingService.enter_loop]⟩
  | ep :: rest, k, s => by
    obtain ⟨c, h1, h2, h3⟩ := enter_step_sent (ties (2 * k)) (ties (2 * k + 1)) s ep
    obtain ⟨calls, h4, h5, h6⟩ := enter_loop_sent ties rest (k + 1)
      (PeerSamplingService.enter_step (ties (2 * k)) (ties (2 * k + 1)) s ep)
    refine ⟨c :: calls, ?_, by simp [h2, h5], ?_⟩
    · rw [PeerSamplingService.enter_loop, h4, h1]
      simp
    · intro x hx
      rcases List.mem_cons.mp hx with hx | hx
      · rw [hx]; exact h3
      · exact h6 x hx

/-- A logged primary selector that `init_selector` creates without a log has a null sink:
`select_peer` on the view has no result, whatever the state of the view. -/
theorem init_selector_without_log (v : URView) (type : Int) (now : Nat)
    (h : 3 ≤ type ∧ type ≤ 5) : (v.init_selector type none).select_peer now = none := by
  have hk : ∃ k, SelectorType.of_code type = some k ∧
      (PeerSelector.create v k none).is_logged = true ∧
      (PeerSelector.create v k none)._log = none := by
    have : type = 3 ∨ type = 4 ∨ type = 5 := by omega
    rcases this with h | h | h <;> subst h
    · exact ⟨SelectorType.LOGGED_TAIL, rfl, rfl, rfl⟩
    · exact ⟨SelectorType.LOGGED_UNIFORM_RANDOM, rfl, rfl, rfl⟩
    · exact ⟨SelectorType.LOGGED_UNIFORM_RANDOM_NO_REPLACEMENT, rfl, rfl, rfl⟩
  obtain ⟨k, hk1, hk2, hk3⟩ := hk
  have hinit : v.init_selector type none
      = { v with _subscribers := v._subscribers ++ [PeerSelector.create v k none],
                 _selector := some v._subscribers.length } := by
    unfold URView.init_selector URView.create_subscriber
    rw [hk1]
  rw [hinit]
  unfold URView.select_peer URView.select_peer_sub
  simp only [List.getElem?_concat_length]
  rw [select_peer_of_null_log _ _ now hk2 hk3]

theorem ring_filled_nil (α : Type) (m : Nat) :
    TSRingBuffer.new α m = TSRingBuffer.filled m [] := by
  simp [TSRingBuffer.new, TSRingBuffer.filled]

/-- A push onto a buffer that is not full stores the element behind the others. -/
theorem ring_push_filled {α : Type} (m : Nat) (hm : m < 2 ^ 32) (pre : List α) (x : α)
    (h : pre.length < m) :
    (TSRingBuffer.filled m pre).push x = some (TSRingBuffer.filled m (pre ++ [x])) := by
  have hne : pre.length ≠ m := by omega
  have hmod : pre.length % m = pre.length := Nat.mod_eq_of_lt h
  have hhead : (pre.length % m + 1) % 2 ^ 32 % m = (pre.length + 1) % m := by
    rw [hmod, Nat.mod_eq_of_lt (by omega : pre.length + 1 < 2 ^ 32)]
  have hsize : (pre.length + 1) % 2 ^ 32 = pre.length + 1 :=
    Nat.mod_eq_of_lt (by omega)
  have hdata : (pre.map some ++ List.replicate (m - pre.length) none).set (pre.length % m)
      (some x) = (pre ++ [x]).map some ++ List.replicate (m - (pre.length + 1)) none := by
    rw [hmod]
    have hrep : m - pre.length = (m - (pre.length + 1)) + 1 := by omega
    rw [hrep, List.replicate_succ]
    rw [List.set_append]
    simp
  simp only [TSRingBuffer.push, TSRingBuffer.lock_guard, TSRingBuffer.filled,
    Bool.false_eq_true, if_false, hne, hhead, hsize, hdata, List.length_append,
    List.length_singleton]

/-- Pushing onto a full buffer has no result: `push` holds the lock when it calls `pop`,
which constructs a second guard on the same mutex. -/
theorem ring_push_full {α : Type} (m : Nat) (pre : List α) (x : α) (h : pre.length = m) :
    (TSRingBuffer.filled m pre).push x = none := by
  simp [TSRingBuffer.push, TSRingBuffer.lock_guard, TSRingBuffer.filled, h,
    TSRingBuffer.pop]

theorem ring_push_all_filled {α : Type} (m : Nat) (hm : m < 2 ^ 32) :
    ∀ (xs pre : List α), pre.length + xs.length ≤ m →
      (TSRingBuffer.filled m pre).push_all xs = some (TSRingBuffer.filled m (pre ++ xs))
  | [], pre, _ => by simp [TSRingBuffer.push_all]
  | x :: rest, pre, h => by
    simp only [List.length_cons] at h
    rw [TSRingBuffer.push_all, ring_push_filled m hm pre x (by omega)]
    simp only
    rw [ring_push_all_filled m hm rest (pre ++ [x]) (by simp; omega)]
    simp

theorem ring_size_filled {α : Type} (m : Nat) (pre : List α) :
    (TSRingBuffer.filled m pre).size = some pre.length := by
  simp [TSRingBuffer.size, TSRingBuffer.lock_guard, TSRingBuffer.filled]

theorem ring_data_filled {α : Type} (m : Nat) (hm : m < 2 ^ 32) (pre : List α)
    (h : pre.length ≤ m) : (TSRingBuffer.filled m pre).data = some (pre.map some) := by
  simp only [TSRingBuffer.data, TSRingBuffer.lock_guard, TSRingBuffer.filled,
    Bool.false_eq_true, if_false, Option.some.injEq]
  apply List.ext_getElem
  · simp
  · intro i h1 h2
    simp only [List.length_map, List.length_range] at h1
    have hi : (0 + i) % 2 ^ 32 % m = i := by
      rw [Nat.zero_add, Nat.mod_eq_of_lt (by omega : i < 2 ^ 32), Nat.mod_eq_of_lt (by omega)]
    simp only [List.getElem_map, List.getElem_range, hi]
    rw [List.getElem?_append_left (by simpa using h1)]
    simp [h1]

/-- On a buffer that holds `x :: rest` from its first slot on, `consume` returns `x` and
leaves a buffer whose `data()` is `rest` and whose `size()` is one less. -/
theorem ring_consume_filled {α : Type} (m : Nat) (hm : m < 2 ^ 32) (x : α) (rest : List α)
    (h : rest.length + 1 ≤ m) :
    ∃ b, (TSRingBuffer.filled m (x :: rest)).consume = some (some x, b) ∧
      b.data = some (rest.map some) ∧ b.size = some rest.length := by
  have hsz : (rest.length + 1 + (2 ^ 32 - 1)) % 2 ^ 32 = rest.length := by
    have : rest.length + 1 + (2 ^ 32 - 1) = rest.length + 2 ^ 32 := by omega
    rw [this, Nat.add_mod_right, Nat.mod_eq_of_lt (by omega)]
  have h1m : (0 + 1) % 2 ^ 32 % m = 1 % m := by
    rw [Nat.zero_add, Nat.mod_eq_of_lt (by omega : 1 < 2 ^ 32)]
  refine ⟨{ _lock := false,
            _data := none :: (rest.map some ++ List.replicate (m - (rest.length + 1)) none),
            _head := (rest.length + 1) % m, _tail := 1 % m, _current_size := rest.length,
            _max_size := m }, ?_, ?_, ?_⟩
  · simp only [TSRingBuffer.consume, TSRingBuffer.front, TSRingBuffer.pop,
      TSRingBuffer.lock_guard, TSRingBuffer.filled, Bool.false_eq_true, if_false,
      List.map_cons, List.cons_append, List.getElem?_cons_zero, Option.join,
      List.length_cons, hsz, h1m, List.set_cons_zero]
    rfl
  · simp only [TSRingBuffer.data, TSRingBuffer.lock_guard, Bool.false_eq_true, if_false,
      Option.some.injEq]
    apply List.ext_getElem
    · simp
    · intro i h1 h2
      simp only [List.length_map, List.length_range] at h1
      have hi : (1 % m + i) % 2 ^ 32 % m = i + 1 := by
        have h1' : 1 % m = 1 := Nat.mod_eq_of_lt (by omega)
        rw [h1', Nat.mod_eq_of_lt (by omega : 1 + i < 2 ^ 32), Nat.mod_eq_of_lt (by omega)]
        omega
      simp only [List.getElem_map, List.getElem_range, hi, List.getElem?_cons_succ]
      rw [List.getElem?_append_left (by simpa using h1)]
      simp [h1]
  · simp only [TSRingBuffer.size, TSRingBuffer.lock_guard, Bool.false_eq_true, if_false]

theorem ring_push_all_append {α : Type} :
    ∀ (l1 l2 : List α) (b : TSRingBuffer α),
      b.push_all (l1 ++ l2) = (b.push_all l1).bind (fun c => c.push_all l2)
  | [], l2, b => rfl
  | x :: l1, l2, b => by
    simp only [List.cons_append, TSRingBuffer.push_all]
    cases b.push x with
    | none => rfl
    | some c => exact ring_push_all_append l1 l2 c

/-- While no more than `m` elements are pushed onto an empty buffer of capacity `m`, the
buffer is the queue of the pushed elements: `size()` is their number, `data()` returns them
in push order, and `consume()` returns and removes the first of them. -/
theorem ring_below_capacity {α : Type} (m : Nat) (hm : m < 2 ^ 32) (xs : List α)
    (h : xs.length ≤ m) :
    ∃ b, (TSRingBuffer.new α m).push_all xs = some b ∧ b.size = some xs.length ∧
      b.data = some (xs.map some) ∧
      ∀ x rest, xs = x :: rest →
        ∃ c, b.consume = some (some x, c) ∧ c.data = some (rest.map some) ∧
          c.size = some rest.length := by
  refine ⟨TSRingBuffer.filled m xs, ?_, ring_size_filled m xs, ring_data_filled m hm xs h, ?_⟩
  · rw [ring_filled_nil]
    have := ring_push_all_filled m hm xs [] (by simpa using h)
    simpa using this
  · intro x rest hx
    subst hx
    exact ring_consume_filled m hm x rest (by simpa using h)

/-- As soon as more than `m` elements are pushed onto an empty buffer of capacity `m`, the
pushes have no result: the push onto the full buffer never returns. -/
theorem ring_beyond_capacity {α : Type} (m : Nat) (hm : m < 2 ^ 32) (xs : List α)
    (h : m < xs.length) : (TSRingBuffer.new α m).push_all xs = none := by
  have hsplit : xs = xs.take m ++ xs.drop m := (List.take_append_drop m xs).symm
  have hlen : (xs.take m).length = m := by simp; omega
  cases hd : xs.drop m with
  | nil =>
    have := congrArg List.length hd
    simp at this
    omega
  | cons y rest =>
    rw [hsplit, hd, ring_push_all_append, ring_filled_nil,
      ring_push_all_filled m hm (xs.take m) [] (by simp)]
    simp only [List.nil_append, Option.some_bind, TSRingBuffer.push_all]
    rw [ring_push_full m (xs.take m) y hlen]

theorem accesses_under_lock_plain :
    ∀ (l rest : List LockStep), (∀ s ∈ l, s.plain = true) →
      accesses_under_lock true (l ++ rest) = accesses_under_lock true rest
  | [], rest, _ => rfl
  | s :: l, rest, h => by
    have hs := h s (by simp)
    have ih := accesses_under_lock_plain l rest (fun t ht => h t (List.mem_cons_of_mem _ ht))
    cases s <;> simp_all [accesses_under_lock, LockStep.plain]

theorem never_relocks_plain :
    ∀ (l rest : List LockStep), (∀ s ∈ l, s.plain = true) →
      never_relocks true (l ++ rest) = never_relocks true rest
  | [], rest, _ => rfl
  | s :: l, rest, h => by
    have hs := h s (by simp)
    have ih := never_relocks_plain l rest (fun t ht => h t (List.mem_cons_of_mem _ ht))
    cases s <;> simp_all [never_relocks, LockStep.plain]

theorem append_steps_plain (subs : List SelectorType) :
    ∀ s ∈ URView.append_steps subs, s.plain = true := by
  intro s hs
  simp only [URView.append_steps, URView.notify_all_steps, List.mem_append, List.mem_cons,
    List.mem_flatten, List.mem_map] at hs
  rcases hs with hs | hs | ⟨l, ⟨k, -, rfl⟩, hs⟩
  · rcases hs with hs | hs | hs | hs | hs | hs <;> first | (subst hs; rfl) | simp at hs
  · subst hs; rfl
  · cases k <;> simp [PeerSelector.notify_add_steps] at hs <;> subst hs <;> rfl

/-- The operations that take the guard first hold the lock at every access and never lock
twice, whatever the kinds of the subscribers they notify. -/
theorem guarded_operations_disciplined (subs : List SelectorType) :
    accesses_under_lock false (URView.rx_nodes_steps subs) = true ∧
    never_relocks false (URView.rx_nodes_steps subs) = true ∧
    accesses_under_lock false (URView.manual_insert_steps subs) = true ∧
    never_relocks false (URView.manual_insert_steps subs) = true ∧
    accesses_under_lock false URView.tx_nodes_steps = true ∧
    never_relocks false URView.tx_nodes_steps = true ∧
    accesses_under_lock false URView.increment_age_steps = true ∧
    never_relocks false URView.increment_age_steps = true := by
  have hp := append_steps_plain subs
  refine ⟨?_, ?_, ?_, ?_, by decide, by decide, by decide, by decide⟩
  · show accesses_under_lock true (URView.append_steps subs ++ _) = true
    rw [accesses_under_lock_plain _ _ hp]
    decide
  · show never_relocks true (URView.append_steps subs ++ _) = true
    rw [never_relocks_plain _ _ hp]
    decide
  · show accesses_under_lock true (URView.append_steps subs ++ _) = true
    rw [accesses_under_lock_plain _ _ hp]
    decide
  · show never_relocks true (URView.append_steps subs ++ _) = true
    rw [never_relocks_plain _ _ hp]
    decide

/-- No public operation constructs a guard while the lock is held, whatever the kinds of
the subscribers. -/
theorem public_operations_never_relock (subs : List SelectorType) :
    ∀ op ∈ public_operations subs, never_relocks false op.2 = true := by
  have h := guarded_operations_disciplined subs
  intro op hop
  simp only [public_operations, SelectorType.all, List.mem_append, List.mem_cons,
    List.mem_map, List.mem_singleton, List.not_mem_nil, or_false] at hop
  rcases hop with ((((hop | hop) | hop) | hop) | hop) | hop
  · rcases hop with hop | hop | hop | hop | hop | hop | hop <;> subst hop
    · exact h.2.1
    · exact h.2.2.2.2.2.1
    · exact h.2.2.2.2.2.2.2
    · exact h.2.2.2.1
    · decide
    · decide
    · decide
  all_goals
    obtain ⟨k, hk, rfl⟩ := hop
    rcases hk with hk | hk | hk | hk | hk | hk <;> subst hk <;> decide

/-! The view invariants (C1 - C3) -/

/-- C1: for a capacity `c >= 0`, whatever the healing and swap parameters, the state, the
incoming list, the generator outcomes and the tie-breaks, `rx_nodes` leaves at most `c`
descriptors in `_view`. -/
theorem rx_nodes_length_le_size (tie : Nat → Nat) (v : URView) (nodes : List NodeDescriptor)
    (hc : 0 ≤ v._size) : ((v.rx_nodes tie nodes)._view.length : Int) ≤ v._size := by
  have h := (rx_phase_lengths tie v nodes).2.2
  omega

theorem rx_nodes_length_le_size_witness :
    (0 : Int) ≤ fixture_view._size ∧
    (((fixture_view.rx_nodes (fun _ => 0) (vector_of_nodes 15))._view.length : Int)
      ≤ fixture_view._size) :=
  ⟨by decide,
   rx_nodes_length_le_size (fun _ => 0) fixture_view (vector_of_nodes 15) (by decide)⟩

/-- C2: in every state reachable from a freshly constructed view by `rx_nodes`,
`manual_insert`, `tx_nodes` and `increment_age` calls (and by subscriber creation and
sampling), with any inputs, the addresses of the descriptors in `_view` are pairwise
distinct and none of them is the view's own address. -/
theorem reachable_addresses_distinct (v : URView) (h : Reachable v) :
    v.addresses.Nodup ∧ ∀ d ∈ v._view, d.address ≠ v._self.address := by
  have hw := reachable_wf h
  refine ⟨hw.nodup, ?_⟩
  intro d hd he
  exact hw.self_absent (he ▸ List.mem_map_of_mem _ hd)

theorem reachable_addresses_distinct_witness :
    Reachable (tiny_view.rx_nodes (fun _ => 0)
      [⟨"a", 3⟩, ⟨"self", 7⟩, ⟨"a", 1⟩, ⟨"b", 2⟩]) ∧
    (tiny_view.rx_nodes (fun _ => 0)
      [⟨"a", 3⟩, ⟨"self", 7⟩, ⟨"a", 1⟩, ⟨"b", 2⟩]).addresses.Nodup :=
  ⟨Reachable.rx_nodes _ _ _ (Reachable.init _ _ _ _ _),
   (reachable_addresses_distinct _ (Reachable.rx_nodes _ _ _ (Reachable.init _ _ _ _ _))).1⟩

/-- C3 (fails in the code): after `rx_nodes` the index still holds addresses that are no
longer in `_view`.  With capacity 1 and two incoming descriptors the random removal drops
`a` from `_view` and leaves its key in `_node_lut`; with swap 2 and three incoming
descriptors `remove_head` drops `a` and `b` and erases only the key `a`. -/
theorem rx_nodes_index_keeps_removed_keys :
    (tiny_view.rx_nodes (fun _ => 0) [⟨"a", 0⟩, ⟨"b", 1⟩]).addresses = ["b"] ∧
    (tiny_view.rx_nodes (fun _ => 0) [⟨"a", 0⟩, ⟨"b", 1⟩])._node_lut = ["self", "a", "b"] ∧
    (tiny_view.rx_nodes (fun _ => 0) [⟨"a", 0⟩, ⟨"b", 1⟩]).contains "a" = true ∧
    (tiny_swap_view.rx_nodes (fun _ => 0) [⟨"a", 0⟩, ⟨"b", 1⟩, ⟨"c", 2⟩]).addresses = ["c"] ∧
    (tiny_swap_view.rx_nodes (fun _ => 0) [⟨"a", 0⟩, ⟨"b", 1⟩, ⟨"c", 2⟩])._node_lut
      = ["self", "b", "c"] := by
  decide

/-! Size enforcement (C7) and re-admission (C8) -/

/-- C7: for `c >= 0`, `H >= 0`, `S >= 0` and `n` descriptors after the merge, `rx_nodes`
leaves `min(n, c)` descriptors: healing removes `min(H, n - c)` of them when `n > c` (none
otherwise), swap removes `min(S, what is still over c)`, random removal removes the rest,
and no phase goes below `c`. -/
theorem rx_nodes_trims_exact_excess (tie : Nat → Nat) (v : URView)
    (nodes : List NodeDescriptor) (hc : 0 ≤ v._size) (hH : 0 ≤ v._healing)
    (hS : 0 ≤ v._swap) :
    ((v.rx_nodes tie nodes)._view.length : Int)
        = min ((v.append nodes)._view.length : Int) v._size ∧
    ((v.rx_healed tie nodes)._view.length : Int)
        = (v.append nodes)._view.length
            - max 0 (min v._healing ((v.append nodes)._view.length - v._size)) ∧
    ((v.rx_swapped tie nodes)._view.length : Int)
        = (v.rx_healed tie nodes)._view.length
            - max 0 (min v._swap ((v.rx_healed tie nodes)._view.length - v._size)) ∧
    ((v.rx_nodes tie nodes)._view.length : Int)
        = (v.rx_swapped tie nodes)._view.length
            - max 0 ((v.rx_swapped tie nodes)._view.length - v._size) ∧
    (v._size < (v.append nodes)._view.length →
      v._size ≤ (v.rx_healed tie nodes)._view.length ∧
      v._size ≤ (v.rx_swapped tie nodes)._view.length) := by
  obtain ⟨h1, h2, h3⟩ := rx_phase_lengths tie v nodes
  omega

theorem rx_nodes_trims_exact_excess_witness :
    (0 : Int) ≤ fixture_view._size ∧ (0 : Int) ≤ fixture_view._healing ∧
    (0 : Int) ≤ fixture_view._swap ∧
    ((fixture_view.rx_nodes (fun _ => 0) (vector_of_nodes 15))._view.length : Int)
        = min ((fixture_view.append (vector_of_nodes 15))._view.length : Int)
            fixture_view._size :=
  ⟨by decide, by decide, by decide,
   (rx_nodes_trims_exact_excess (fun _ => 0) fixture_view (vector_of_nodes 15)
      (by decide) (by decide) (by decide)).1⟩

/-- C8 (fails in the code): the address `a`, trimmed out of `_view` by the random removal of
an earlier `rx_nodes`, is neither the view's own address nor the address of a descriptor in
`_view`, yet the merge loop does not append an incoming descriptor that carries it, because
its key is still in `_node_lut`. -/
theorem trimmed_address_not_readmitted :
    Reachable (tiny_view.rx_nodes (fun _ => 0) [⟨"a", 0⟩, ⟨"b", 1⟩]) ∧
    "a" ≠ (tiny_view.rx_nodes (fun _ => 0) [⟨"a", 0⟩, ⟨"b", 1⟩])._self.address ∧
    "a" ∉ (tiny_view.rx_nodes (fun _ => 0) [⟨"a", 0⟩, ⟨"b", 1⟩]).addresses ∧
    ((tiny_view.rx_nodes (fun _ => 0) [⟨"a", 0⟩, ⟨"b", 1⟩]).append [⟨"a", 0⟩])._view
      = (tiny_view.rx_nodes (fun _ => 0) [⟨"a", 0⟩, ⟨"b", 1⟩])._view ∧
    ((tiny_view.rx_nodes (fun _ => 0) [⟨"a", 0⟩, ⟨"b", 1⟩]).rx_nodes (fun _ => 0)
        [⟨"a", 0⟩]).addresses = ["b"] :=
  ⟨Reachable.rx_nodes _ _ _ (Reachable.init _ _ _ _ _), by decide, by decide, by decide,
   by decide⟩

/-! The merge (C4, C5) -/

/-- C4: when the merge leaves no more than `c` descriptors, `rx_nodes` removes nothing: the
view is the merged view, whose addresses are the old addresses in the same order followed
by the first occurrence of each incoming address that `contains` did not know, in arrival
order (incoming descriptors with distinct unknown addresses are appended as they are);
afterwards `contains` holds for every incoming address; and `rx_nodes` of the empty list
leaves `_view` unchanged. -/
theorem rx_nodes_below_capacity (tie : Nat → Nat) (v : URView) (nodes : List NodeDescriptor)
    (h : ((v.append nodes)._view.length : Int) ≤ v._size) :
    v.rx_nodes tie nodes = v.append nodes ∧
    (v.rx_nodes tie nodes).addresses = v.addresses ++
      first_occurrences
        ((nodes.map NodeDescriptor.address).filter (fun a => v.contains a = false)) ∧
    (v.rx_nodes tie nodes)._view.length = v._view.length +
      (first_occurrences
        ((nodes.map NodeDescriptor.address).filter (fun a => v.contains a = false))).length ∧
    ((∀ p ∈ nodes, v.contains p.address = false) →
      (nodes.map NodeDescriptor.address).Nodup →
      (v.rx_nodes tie nodes)._view = v._view ++ nodes) ∧
    (∀ p ∈ nodes, (v.rx_nodes tie nodes).contains p.address = true) ∧
    (nodes = [] → (v.rx_nodes tie nodes)._view = v._view) := by
  have hc := (append_config v nodes).1
  have e := rx_nodes_eq_append_of_le tie v nodes (by rw [hc]; exact h)
  have ha : (v.append nodes).addresses = v.addresses ++
      first_occurrences
        ((nodes.map NodeDescriptor.address).filter (fun a => v.contains a = false)) := by
    rw [append_addresses]
    simp [URView.contains]
  refine ⟨e, ?_, ?_, ?_, ?_, ?_⟩
  · rw [e, ha]
  · have := congrArg List.length ha
    simpa [e, URView.addresses] using this
  · intro hnew hnd
    rw [e, append_view]
    exact append_steps_fresh nodes v
      (fun p hp => by simpa [URView.contains] using hnew p hp) hnd
  · intro p hp
    rw [e]
    exact append_contains v nodes p hp
  · intro hn
    subst hn
    rw [e, append_view]
    rfl

theorem rx_nodes_below_capacity_witness :
    (((fixture_view.append [⟨"a", 3⟩, ⟨"b", 4⟩, ⟨"a", 1⟩])._view.length : Int)
      ≤ fixture_view._size) ∧
    fixture_view.rx_nodes (fun _ => 0) [⟨"a", 3⟩, ⟨"b", 4⟩, ⟨"a", 1⟩]
      = fixture_view.append [⟨"a", 3⟩, ⟨"b", 4⟩, ⟨"a", 1⟩] :=
  ⟨by decide,
   (rx_nodes_below_capacity (fun _ => 0) fixture_view [⟨"a", 3⟩, ⟨"b", 4⟩, ⟨"a", 1⟩]
      (by decide)).1⟩

/-- C5: after the merge loop of `rx_nodes`, the age stored for each address in `_view` is
the minimum of the age stored before (if the address was present) and the ages of all
incoming descriptors with that address; and an incoming descriptor that is not strictly
younger than the stored one changes nothing. -/
theorem append_keeps_younger (v : URView) (hv : v.WF) (nodes : List NodeDescriptor) :
    (∀ d ∈ (v.append nodes)._view,
      (ages_of v._view d.address ++ ages_of nodes d.address).min? = some d.age) ∧
    (∀ (p : NodeDescriptor) (stored : Nat), v.stored_age p.address = some stored →
      stored ≤ p.age →
      v.append_step p = v ∧ (v.append [p])._view = v._view ∧
      (v.append [p])._node_lut = v._node_lut ∧ (v.append [p])._self = v._self) := by
  refine ⟨?_, ?_⟩
  · intro d hd
    rw [append_view] at hd
    rw [List.min?_eq_some_iff']
    exact append_steps_min_age nodes v hv d hd
  · intro p stored hs hle
    have hin : p.address ∈ v._node_lut := by
      by_cases hany : (v._view.any (fun d => d.address = p.address)) = true
      · simp only [List.any_eq_true, decide_eq_true_eq] at hany
        obtain ⟨e, he, hea⟩ := hany
        exact hea ▸ hv.covered _ (List.mem_map_of_mem _ he)
      · rw [stored_age_of_not_any v _ hany] at hs
        split at hs
        · rename_i hself
          exact hself ▸ hv.self_indexed
        · simp at hs
    have hstep : v.append_step p = v := by
      unfold URView.append_step
      rw [if_neg (by simpa using hin), hs]
      simp only
      rw [if_neg (by omega)]
    refine ⟨hstep, ?_, ?_, ?_⟩
    · rw [append_view]; simp [hstep]
    · rw [append_node_lut]; simp [hstep]
    · rw [append_self]; simp [hstep]

theorem append_keeps_younger_witness :
    (fixture_view.append [⟨"a", 5⟩]).WF ∧
    (ages_of (fixture_view.append [⟨"a", 5⟩])._view "a"
      ++ ages_of [⟨"a", 3⟩, ⟨"b", 4⟩, ⟨"a", 7⟩] "a").min? = some 3 :=
  ⟨append_wf (constructor_wf _ _ _ _ _) _,
   (append_keeps_younger (fixture_view.append [⟨"a", 5⟩])
      (append_wf (constructor_wf _ _ _ _ _) _)
      [⟨"a", 3⟩, ⟨"b", 4⟩, ⟨"a", 7⟩]).1 ⟨"a", 3⟩ (by decide)⟩

/-! The outbound payload (C9, C10) -/

/-- C9 as stated fails: a fresh view of capacity 1 returns `[self]`, of length 1, while
`min(n + 1, c/2) = min(1, 0) = 0`. -/
theorem tx_nodes_length_counterexample :
    ¬ (((tiny_view.tx_nodes (fun _ => 0)).1.length : Int)
        = min ((tiny_view._view.length : Int) + 1) (tiny_view._size / 2)) := by
  decide

/-- C9, amended: for every view state, generator outcome and tie-break, the list returned
by `tx_nodes` has length `min(n + 1, max(c/2, 1))`, where `n` is the number of descriptors
in `_view` and `c/2` is the integer division of the source. -/
theorem tx_nodes_length_amended (tie : Nat → Nat) (v : URView) :
    ((v.tx_nodes tie).1.length : Int)
      = min ((v._view.length : Int) + 1) (max (Int.tdiv v._size 2) 1) := by
  have h := tx_nodes_length tie v
  omega

/-- C10: in every reachable state, for every generator outcome and tie-break, the list
returned by `tx_nodes` starts with the view's self descriptor, whose age is 0; every further
element is a descriptor of `_view`; no address occurs twice in the list; and on an empty
view the result is exactly `[self]`. -/
theorem tx_nodes_self_first_distinct (tie : Nat → Nat) (v : URView) (h : Reachable v) :
    (v.tx_nodes tie).1.head? = some v._self ∧ v._self.age = 0 ∧
    (∀ d ∈ (v.tx_nodes tie).1.tail, d ∈ v._view) ∧
    ((v.tx_nodes tie).1.map NodeDescriptor.address).Nodup ∧
    (v._view = [] → (v.tx_nodes tie).1 = [v._self]) := by
  have hw := reachable_wf h
  have hw2 := tx_nodes_wf tie hw
  have hsub := head_sublist (v.tx_nodes tie).2 (Int.tdiv v._size 2 - 1)
  have hp := tx_nodes_view_perm tie v
  rw [tx_nodes_fst]
  refine ⟨rfl, hw.self_age, ?_, ?_, ?_⟩
  · intro d hd
    exact hp.subset (hsub.subset hd)
  · simp only [List.map_cons, List.nodup_cons]
    refine ⟨?_, (hsub.map _).nodup hw2.nodup⟩
    intro hm
    exact hw2.self_absent ((hsub.map _).subset hm)
  · intro he
    have : (v.tx_nodes tie).2._view = [] := by
      have := hp.length_eq
      rw [he] at this
      exact List.eq_nil_of_length_eq_zero this
    have h2 : (v.tx_nodes tie).2.head (Int.tdiv v._size 2 - 1) = [] :=
      List.eq_nil_of_sublist_nil (this ▸ hsub)
    rw [h2]

theorem tx_nodes_self_first_distinct_witness :
    Reachable (fixture_view.rx_nodes (fun _ => 0) (vector_of_nodes 10)) ∧
    ((fixture_view.rx_nodes (fun _ => 0) (vector_of_nodes 10)).tx_nodes (fun _ => 0)).1.head?
      = some (fixture_view.rx_nodes (fun _ => 0) (vector_of_nodes 10))._self :=
  ⟨Reachable.rx_nodes _ _ _ (Reachable.init _ _ _ _ _),
   (tx_nodes_self_first_distinct (fun _ => 0) _
      (Reachable.rx_nodes _ _ _ (Reachable.init _ _ _ _ _))).1⟩

/-! Healing (C6) -/

/-- C6 as stated fails for a negative size: the merge of one descriptor into a fresh view
of size -1 with healing 5 leaves the excess `e = 1 - (-1) = 2` with `H >= e`, and `rx_nodes`
removes one descriptor, not two. -/
theorem healing_excess_counterexample :
    ¬ ((0 : Int) < ((negative_size_view.append [⟨"a", 0⟩])._view.length : Int)
          - negative_size_view._size →
        negative_size_view._healing ≥
          ((negative_size_view.append [⟨"a", 0⟩])._view.length : Int)
            - negative_size_view._size →
        ((negative_size_view.append [⟨"a", 0⟩])._view.length : Int)
          - ((negative_size_view.rx_nodes (fun _ => 0) [⟨"a", 0⟩])._view.length : Int)
          = ((negative_size_view.append [⟨"a", 0⟩])._view.length : Int)
            - negative_size_view._size) := by
  decide

/-- C6, amended: for a size `c >= 0`, when the merge into a well-formed view leaves an
excess `e = |nodes| - c > 0` with `H >= e`, `rx_nodes` stops after healing (the head and the
random removal are called with nothing to remove), it removes exactly `e` descriptors, no
removed descriptor is younger than a surviving one, and every merged descriptor that is
younger than all removed ones survives. -/
theorem healing_removes_oldest (tie : Nat → Nat) (v : URView) (nodes : List NodeDescriptor)
    (hv : v.WF) (hc : 0 ≤ v._size)
    (he : v._size < ((v.append nodes)._view.length : Int))
    (hH : ((v.append nodes)._view.length : Int) - v._size ≤ v._healing) :
    v.rx_swapped tie nodes = v.rx_healed tie nodes ∧
    v.rx_nodes tie nodes = v.rx_healed tie nodes ∧
    ∃ removed : List NodeDescriptor,
      (v.append nodes)._view.Perm ((v.rx_nodes tie nodes)._view ++ removed) ∧
      (removed.length : Int) = ((v.append nodes)._view.length : Int) - v._size ∧
      ((v.rx_nodes tie nodes)._view.length : Int) = v._size ∧
      (∀ r ∈ removed, ∀ s ∈ (v.rx_nodes tie nodes)._view, s.age ≤ r.age) ∧
      (∀ d ∈ (v.append nodes)._view, (∀ r ∈ removed, d.age < r.age) →
        d ∈ (v.rx_nodes tie nodes)._view) := by
  have hcfg := append_config v nodes
  have hhc := rx_healed_config tie v nodes
  have hlen := (rx_phase_lengths tie v nodes).1
  have hl2 : ((v.rx_healed tie nodes)._view.length : Int) = v._size := by omega
  have e2 : v.rx_swapped tie nodes = v.rx_healed tie nodes := by
    unfold URView.rx_swapped
    exact remove_head_of_nonpos _ _ (by rw [hhc.1]; omega)
  have e3 : v.rx_nodes tie nodes = v.rx_healed tie nodes := by
    unfold URView.rx_nodes
    rw [e2]
    exact remove_random_of_nonpos _ _ (by rw [hhc.1]; omega)
  refine ⟨e2, e3, ?_⟩
  obtain ⟨removed, hp, hrl, hage⟩ := remove_old_spec tie (v.append nodes)
    (min (v.append nodes)._healing
      (((v.append nodes)._view.length : Int) - (v.append nodes)._size))
    (append_wf hv nodes).nodup
  rw [e3]
  refine ⟨removed, hp, ?_, hl2, hage, ?_⟩
  · rw [hrl, hcfg.1, hcfg.2.1]
    omega
  · intro d hd hyoung
    rcases List.mem_append.mp (hp.subset hd) with hm | hm
    · exact hm
    · exact absurd (hyoung d hm) (lt_irrefl _)

theorem healing_removes_oldest_witness :
    (fixture_view.rx_nodes (fun _ => 0) (vector_of_nodes 10)).WF ∧
    (fixture_view.rx_nodes (fun _ => 0) (vector_of_nodes 10)).rx_nodes (fun _ => 0)
        five_new_nodes
      = (fixture_view.rx_nodes (fun _ => 0) (vector_of_nodes 10)).rx_healed (fun _ => 0)
          five_new_nodes :=
  ⟨rx_nodes_wf _ (constructor_wf _ _ _ _ _) _,
   (healing_removes_oldest (fun _ => 0) _ five_new_nodes
      (rx_nodes_wf _ (constructor_wf _ _ _ _ _) _) (by decide) (by decide) (by decide)).2.1⟩

/-! The outbound payload, ageing and the wire format (C11 - C14) -/

/-- C11: in a well-formed state with `n` descriptors, `H >= 0` and `n >= H + (c/2 - 1)`,
for every generator outcome and tie-break, no non-self descriptor returned by `tx_nodes`
is older than any of the descriptors that `tx_nodes` leaves in the last `H` positions of
`_view`; those positions hold `min(H, n)` descriptors. -/
theorem tx_nodes_spares_oldest (tie : Nat → Nat) (v : URView) (hv : v.WF)
    (hH : 0 ≤ v._healing)
    (hn : v._healing + (Int.tdiv v._size 2 - 1) ≤ (v._view.length : Int)) :
    (∀ d ∈ (v.tx_nodes tie).1.tail,
      ∀ x ∈ (v.tx_nodes tie).2._view.drop (v._view.length - v._healing.toNat),
        d.age ≤ x.age) ∧
    ((v.tx_nodes tie).2._view.drop (v._view.length - v._healing.toNat)).length
      = min v._healing.toNat v._view.length := by
  have hpl := permute_length v
  have hnd : (v.permute._view.map NodeDescriptor.address).Nodup := (permute_wf hv).nodup
  obtain ⟨hp, hs⟩ := move_old_to_back_list_spec tie v.permute._view v._healing hnd
  have hview : (v.tx_nodes tie).2._view
      = move_old_to_back_list tie v.permute._view v._healing := rfl
  rw [hpl] at hs
  refine ⟨?_, ?_⟩
  · intro d hd x hx
    rw [hview] at hx
    apply hs x hx d
    rw [tx_nodes_fst, List.tail_cons] at hd
    unfold URView.head at hd
    split at hd
    · simp at hd
    · rename_i hk
      rw [hview, hp.length_eq, hpl] at hd
      refine List.take_subset_take_left _ ?_ hd
      split <;> omega
  · rw [List.length_drop, (tx_nodes_view_perm tie v).length_eq]
    omega

theorem tx_nodes_spares_oldest_witness :
    fixture_full_view.WF ∧ (0 : Int) ≤ fixture_full_view._healing ∧
    fixture_full_view._healing + (Int.tdiv fixture_full_view._size 2 - 1)
      ≤ (fixture_full_view._view.length : Int) ∧
    ((fixture_full_view.tx_nodes (fun _ => 0)).2._view.drop
        (fixture_full_view._view.length - fixture_full_view._healing.toNat)).length
      = min fixture_full_view._healing.toNat fixture_full_view._view.length ∧
    ((fixture_full_view.tx_nodes (fun _ => 0)).1.tail.all (fun d => decide (d.age < 5)))
      = true :=
  ⟨rx_nodes_wf _ (constructor_wf _ _ _ _ _) _, by decide, by decide,
   (tx_nodes_spares_oldest (fun _ => 0) fixture_full_view
      (rx_nodes_wf _ (constructor_wf _ _ _ _ _) _) (by decide) (by decide)).2,
   by decide⟩

/-- C12 as stated fails at the largest age: `increment_age` takes the age `2^32 - 1` of the
descriptor `a` to 0, not to `2^32`. -/
theorem increment_age_wraps_counterexample :
    ¬ (∀ d ∈ max_age_view._view, ∃ d' ∈ max_age_view.increment_age._view,
        d'.address = d.address ∧ d'.age = d.age + 1) := by
  decide

/-- C12, amended: `increment_age` raises the age of every descriptor in `_view` whose age is
below `2^32 - 1` by exactly 1 and takes the age `2^32 - 1` to 0 (the unsigned 32-bit
increment); addresses, order and number of the descriptors, the index, self (its age
included), the configuration, the subscribers and the generator are unchanged. -/
theorem increment_age_spec (v : URView) :
    (∀ (i : Nat) (d : NodeDescriptor), v._view[i]? = some d →
      ∃ d', v.increment_age._view[i]? = some d' ∧ d'.address = d.address ∧
        d'.age = (d.age + 1) % 2 ^ 32 ∧
        (d.age < 2 ^ 32 - 1 → d'.age = d.age + 1) ∧
        (d.age = 2 ^ 32 - 1 → d'.age = 0)) ∧
    v.increment_age._view.length = v._view.length ∧
    v.increment_age.addresses = v.addresses ∧
    v.increment_age._node_lut = v._node_lut ∧
    v.increment_age._self = v._self ∧
    v.increment_age._size = v._size ∧ v.increment_age._healing = v._healing ∧
    v.increment_age._swap = v._swap ∧
    v.increment_age._subscribers = v._subscribers ∧
    v.increment_age._selector = v._selector := by
  refine ⟨?_, by simp [URView.increment_age], increment_age_addresses v, rfl, rfl, rfl, rfl,
    rfl, rfl, rfl⟩
  intro i d hd
  refine ⟨{ d with age := (d.age + 1) % 2 ^ 32 }, ?_, rfl, rfl, ?_, ?_⟩
  · simp [URView.increment_age, hd]
  · intro hlt
    exact Nat.mod_eq_of_lt (by omega)
  · intro he
    simp only [he]
    decide

/-- C13: in every reachable state (any sequence of `rx_nodes`, `manual_insert`, `tx_nodes`,
`increment_age`, subscriber creation and sampling, with any incoming descriptors, also ones
that carry the view's own address), the view's own descriptor has age 0. -/
theorem reachable_self_age_zero (v : URView) (h : Reachable v) : v._self.age = 0 :=
  (reachable_wf h).self_age

theorem reachable_self_age_zero_witness :
    Reachable ((tiny_view.rx_nodes (fun _ => 0)
      [⟨"self", 7⟩, ⟨"a", 1⟩, ⟨"self", 0⟩]).increment_age) ∧
    ((tiny_view.rx_nodes (fun _ => 0)
      [⟨"self", 7⟩, ⟨"a", 1⟩, ⟨"self", 0⟩]).increment_age)._self.age = 0 :=
  ⟨Reachable.increment_age _ (Reachable.rx_nodes _ _ _ (Reachable.init _ _ _ _ _)),
   reachable_self_age_zero _
     (Reachable.increment_age _ (Reachable.rx_nodes _ _ _ (Reachable.init _ _ _ _ _)))⟩

/-- C14: for every list of node descriptors, `make_internal(make_proto(list))` is the list
itself: the same length and the same `(address, age)` pair at every position; and for a
single descriptor `d`, the descriptor built from the message written by `d.make_proto` has
the address and the age of `d`. -/
theorem proto_round_trip (nodes : List NodeDescriptor) (d : NodeDescriptor)
    (out_proto : NodeDescriptorProto) :
    ViewProtoHelper.make_internal (ViewProtoHelper.make_proto nodes) = nodes ∧
    (ViewProtoHelper.make_internal (ViewProtoHelper.make_proto nodes)).length
      = nodes.length ∧
    (∀ i : Nat, (ViewProtoHelper.make_internal (ViewProtoHelper.make_proto nodes))[i]?
      = nodes[i]?) ∧
    (NodeDescriptor.of_proto (d.make_proto out_proto)).address = d.address ∧
    (NodeDescriptor.of_proto (d.make_proto out_proto)).age = d.age := by
  have h : ViewProtoHelper.make_internal (ViewProtoHelper.make_proto nodes) = nodes := by
    unfold ViewProtoHelper.make_internal ViewProtoHelper.make_proto
    rw [make_internal_fold, add_to_proto_nodes]
    simp only [List.nil_append, List.map_map]
    conv_rhs => rw [← List.map_id nodes]
    apply List.map_congr_left
    intro x _
    rfl
  exact ⟨h, by rw [h], fun i => by rw [h], rfl, rfl⟩

/-! The selectors and the notifications (C15 - C20) -/

/-- C17: for every view state, `select_peer` on a tail selector returns the last descriptor
of `_view` when `_view` is not empty and none otherwise, and leaves the view (the selector
and the generator included) unchanged. -/
theorem tail_select_peer (v : URView) (i now : Nat) (s : PeerSelector)
    (hs : v._subscribers[i]? = some s) (hk : s.kind = SelectorType.TAIL) :
    v.select_peer_sub i now = some (v._view.getLast?, v) ∧
    (∀ h : v._view ≠ [], v._view.getLast? = some (v._view.getLast h)) ∧
    (v._view = [] → v._view.getLast? = none) := by
  refine ⟨?_, fun h => List.getLast?_eq_getLast _ h, fun h => by simp [h]⟩
  have himpl : s.select_peer_impl v = (v._view.getLast?, s, v._eng) := by
    simp [PeerSelector.select_peer_impl, hk]
  have hsel : s.select_peer v now = some (v._view.getLast?, s, v._eng) := by
    simp [PeerSelector.select_peer, PeerSelector.is_logged, hk, himpl]
  unfold URView.select_peer_sub
  rw [hs]
  simp only [hsel]
  rw [set_subscriber_self v i s hs]

theorem tail_select_peer_witness :
    (fixture_full_view.create_subscriber 0 none).2._subscribers[0]?
      = some { kind := SelectorType.TAIL } ∧
    (fixture_full_view.create_subscriber 0 none).2.select_peer_sub 0 0
      = some ((fixture_full_view.create_subscriber 0 none).2._view.getLast?,
              (fixture_full_view.create_subscriber 0 none).2) :=
  ⟨by decide,
   (tail_select_peer (fixture_full_view.create_subscriber 0 none).2 0 0
      { kind := SelectorType.TAIL } (by decide) rfl).1⟩

/-- C18: on a well-formed view (distinct addresses) that holds `n` descriptors, the first
`n` `select_peer()` calls on a no-replacement selector created by `create_subscriber`, with
no other call in between, return the descriptors of `_view` one after the other: `n`
pairwise distinct addresses, together exactly the addresses of the view; the view is not
changed. -/
theorem urnr_first_samples_distinct (v : URView) (hv : v.WF) (log : Option (List LogEntry))
    (now : Nat) :
    (((v.create_subscriber 2 log).2.select_peer_n v._subscribers.length now
        v._view.length).map Prod.fst = some (v._view.map some)) ∧
    (((v.create_subscriber 2 log).2.select_peer_n v._subscribers.length now
        v._view.length).map (fun r => r.2._view) = some v._view) ∧
    (v._view.map NodeDescriptor.address).Nodup := by
  have hsub : (v.create_subscriber 2 log).2 =
      { v with _subscribers := v._subscribers ++
          [{ kind := SelectorType.UNIFORM_RANDOM_NO_REPLACEMENT, _qos_queue := v._view }] } := by
    rfl
  have h := urnr_select_peer_n v._subscribers.length now v._view.length
    (v.create_subscriber 2 log).2
    { kind := SelectorType.UNIFORM_RANDOM_NO_REPLACEMENT, _qos_queue := v._view }
    (by rw [hsub]; simp) rfl (le_refl _)
    (by
      intro d hd
      rw [hsub]
      exact hv.covered _ (List.mem_map_of_mem _ (List.mem_of_mem_take hd)))
  rw [List.take_length] at h
  rw [h]
  exact ⟨rfl, by rw [hsub]; rfl, hv.nodup⟩

theorem urnr_first_samples_distinct_witness :
    fixture_full_view.WF ∧
    (((fixture_full_view.create_subscriber 2 none).2.select_peer_n
        fixture_full_view._subscribers.length 0 fixture_full_view._view.length).map Prod.fst
      = some (fixture_full_view._view.map some)) :=
  ⟨rx_nodes_wf _ (constructor_wf _ _ _ _ _) _,
   (urnr_first_samples_distinct fixture_full_view
      (rx_nodes_wf _ (constructor_wf _ _ _ _ _) _) none 0).1⟩

/-- C15 (fails in the code): a view of size 0 with a no-replacement selector as primary
selector receives one descriptor; `rx_nodes` trims it out again, so `_view` is empty, but the
selector still has it queued and its address is still a key of `_node_lut`: `select_peer` on
the view and on the subscriber returns it.  And on the empty fixture view, a logged tail
selector created without a log has no result at all. -/
theorem empty_view_select_returns_removed :
    Reachable ((zero_size_view.init_selector 2 none).rx_nodes (fun _ => 0) [⟨"a", 0⟩]) ∧
    ((zero_size_view.init_selector 2 none).rx_nodes (fun _ => 0) [⟨"a", 0⟩])._view = [] ∧
    (((zero_size_view.init_selector 2 none).rx_nodes (fun _ => 0)
        [⟨"a", 0⟩]).select_peer 0).map Prod.fst = some (some ⟨"a", 0⟩) ∧
    (((zero_size_view.init_selector 2 none).rx_nodes (fun _ => 0)
        [⟨"a", 0⟩]).select_peer_sub 0 0).map Prod.fst = some (some ⟨"a", 0⟩) ∧
    (fixture_view.init_selector 3 none)._view = [] ∧
    ((fixture_view.init_selector 3 none).select_peer 0).isNone = true :=
  ⟨Reachable.rx_nodes _ _ _ (Reachable.init_selector _ _ _ (Reachable.init _ _ _ _ _)),
   by decide, by decide, by decide, by decide, by decide⟩

/-- C16 (fails in the code): on the fixture view with ten descriptors, `select_peer` on a
logged tail subscriber that was created without a log (the default argument of
`create_subscriber`) dereferences the null log and returns nothing, while the strategy
itself selects the last descriptor. -/
theorem logged_selector_without_log_has_no_result :
    Reachable (fixture_full_view.create_subscriber 3 none).2 ∧
    (fixture_full_view.create_subscriber 3 none).2._view.length = 10 ∧
    (fixture_full_view.create_subscriber 3 none).2._subscribers[0]?
      = some { kind := SelectorType.LOGGED_TAIL, _id := "192.168.225.1:5012" } ∧
    ((fixture_full_view.create_subscriber 3 none).2.select_peer_sub 0 0).isNone = true ∧
    ((PeerSelector.create fixture_full_view SelectorType.LOGGED_TAIL none).select_peer_impl
        fixture_full_view).1 = some ⟨"192.168.225.1:5022", 9⟩ :=
  ⟨Reachable.create_subscriber _ _ _
     (Reachable.rx_nodes _ _ _ (Reachable.init _ _ _ _ _)),
   by decide, by decide, by decide, by decide⟩

/-- C19 (fails in the code): a view of capacity 1 with a no-replacement subscriber receives
`a` and `b`; the random removal trims `a` out of `_view` and leaves its key in `_node_lut`.
The second `select_peer` call then returns the queued `a`, whose address is no longer the
address of a descriptor in `_view`, instead of discarding it. -/
theorem urnr_returns_removed_descriptor :
    Reachable ((tiny_view.create_subscriber 2 none).2.rx_nodes (fun _ => 0)
      [⟨"a", 0⟩, ⟨"b", 1⟩]) ∧
    ((tiny_view.create_subscriber 2 none).2.rx_nodes (fun _ => 0)
      [⟨"a", 0⟩, ⟨"b", 1⟩]).addresses = ["b"] ∧
    (((tiny_view.create_subscriber 2 none).2.rx_nodes (fun _ => 0)
      [⟨"a", 0⟩, ⟨"b", 1⟩]).select_peer_n 0 0 2).map Prod.fst
      = some [some ⟨"b", 1⟩, some ⟨"a", 0⟩] :=
  ⟨Reachable.rx_nodes _ _ _ (Reachable.create_subscriber _ _ _ (Reachable.init _ _ _ _ _)),
   by decide, by decide⟩

/-- C20 (fails in the code): a view of capacity 1 with swap 2 and one subscriber receives
`a`, `b`, `c`.  `notify_add` delivers `a`, `b`, `c`; `remove_head` removes `a` and `b` but
its `notify_delete` delivers `a` twice; `_view` ends as `[c]`.  The additions minus the
deletions are `b`, `c`, not the addresses `c` now in the view. -/
theorem remove_head_notifies_front_twice :
    (tiny_swap_view.create_subscriber 0 none).2._view = [] ∧
    (tiny_swap_view.create_subscriber 0 none).2.rx_notified_add
      [⟨"a", 0⟩, ⟨"b", 1⟩, ⟨"c", 2⟩] = ["a", "b", "c"] ∧
    (tiny_swap_view.create_subscriber 0 none).2.rx_notified_delete (fun _ => 0)
      [⟨"a", 0⟩, ⟨"b", 1⟩, ⟨"c", 2⟩] = ["a", "a"] ∧
    ((tiny_swap_view.create_subscriber 0 none).2.rx_nodes (fun _ => 0)
      [⟨"a", 0⟩, ⟨"b", 1⟩, ⟨"c", 2⟩]).addresses = ["c"] ∧
    (["a", "b", "c"] : List String).diff ["a", "a"] = ["b", "c"] := by
  decide

/-! The logged wrapper, the exchanges, the service and manual insertion (C21 - C30) -/

/-- C21: in every reachable view state, a `select_peer()` call on a logged subscriber whose
log sink is present returns exactly what the wrapped strategy selects and appends exactly
one entry to the log: its id is the view's own address, its selected field is the address of
the returned descriptor or the empty string when none is returned, its time is the clock
reading.  And `k` calls in a row return `k` selections and leave the log `k` entries longer,
each with the view's own address as id. -/
theorem logged_select_peer_appends_one_entry (v : URView) (hr : Reachable v) (i now : Nat)
    (s : PeerSelector) (log : List LogEntry) (hs : v._subscribers[i]? = some s)
    (hl : s.is_logged = true) (hlog : s._log = some log) :
    (∃ r, v.select_peer_sub i now = some r ∧
      r.1 = (s.select_peer_impl v).1 ∧
      r.2.log_of i = some (log ++ [{ id := v._self.address, selected := selected_address r.1,
                                     time := now }])) ∧
    (∀ k : Nat, ∃ rs entries, v.select_peer_n i now k = some rs ∧ rs.1.length = k ∧
      rs.2.log_of i = some (log ++ entries) ∧ entries.length = k ∧
      ∀ e ∈ entries, e.id = v._self.address) := by
  have hid : s._id = v._self.address :=
    reachable_ids_ok hr s (List.mem_iff_getElem?.mpr ⟨_, hs⟩) hl
  have hi : i < v._subscribers.length := (List.getElem?_eq_some_iff.mp hs).1
  refine ⟨⟨_, logged_select_peer_sub v i now s log hs hl hlog, rfl, ?_⟩, ?_⟩
  · simp [URView.log_of, hi, hid]
  · intro k
    obtain ⟨rs, entries, h⟩ := logged_select_peer_n i now k v s log hs hl hlog
    rw [hid] at h
    exact ⟨rs, entries, h⟩

theorem logged_select_peer_appends_one_entry_witness :
    logged_fixture_view._subscribers[0]?
      = some { kind := SelectorType.LOGGED_TAIL, _log := some [],
               _id := "192.168.225.1:5012" } ∧
    (∃ rs entries, logged_fixture_view.select_peer_n 0 7 3 = some rs ∧ rs.1.length = 3 ∧
      rs.2.log_of 0 = some ([] ++ entries) ∧ entries.length = 3 ∧
      ∀ e ∈ entries, e.id = logged_fixture_view._self.address) :=
  ⟨by decide,
   (logged_select_peer_appends_one_entry logged_fixture_view
      (Reachable.create_subscriber _ _ _
        (Reachable.rx_nodes _ _ _ (Reachable.init _ _ _ _ _)))
      0 7 { kind := SelectorType.LOGGED_TAIL, _log := some [], _id := "192.168.225.1:5012" }
      [] (by decide) (by decide) rfl).2 3⟩

/-- C22: for every well-formed server view state and every request, `PushPullView` replies
with the payload that `tx_nodes` computes on the view as it is before the request is
merged: every address of the reply is the view's own or was in `_view` before the call, so
no address that is in the view afterwards without having been there before appears in the
reply; the view afterwards is `increment_age` applied to `rx_nodes(request)` applied to the
state `tx_nodes` left, and the status is OK. -/
theorem push_pull_view_replies_before_merge (tie_tx tie_rx : Nat → Nat) (v : URView)
    (hv : v.WF) (request : ViewProto) :
    (Server.PushPullView tie_tx tie_rx v request {}).2.1
      = ViewProtoHelper.make_proto (v.tx_nodes tie_tx).1 ∧
    (∀ n ∈ (Server.PushPullView tie_tx tie_rx v request {}).2.1.nodes,
      n.address = v._self.address ∨ n.address ∈ v.addresses) ∧
    (∀ a ∈ (Server.PushPullView tie_tx tie_rx v request {}).2.2.addresses,
      a ∉ v.addresses →
      ∀ n ∈ (Server.PushPullView tie_tx tie_rx v request {}).2.1.nodes, n.address ≠ a) ∧
    (Server.PushPullView tie_tx tie_rx v request {}).2.2
      = ((v.tx_nodes tie_tx).2.rx_nodes tie_rx
          (ViewProtoHelper.make_internal request)).increment_age ∧
    (Server.PushPullView tie_tx tie_rx v request {}).1 = Status.OK := by
  have horigin : ∀ n ∈ (Server.PushPullView tie_tx tie_rx v request {}).2.1.nodes,
      n.address = v._self.address ∨ n.address ∈ v.addresses := by
    intro n hn
    have hn' : n ∈ (ViewProtoHelper.add_to_proto (v.tx_nodes tie_tx).1 {}).nodes := hn
    rw [add_to_proto_nodes] at hn'
    simp only [List.mem_append, List.mem_map] at hn'
    rcases hn' with hn' | ⟨d, hd, rfl⟩
    · simp at hn'
    · rcases tx_nodes_origin tie_tx v d hd with h | h
      · left; rw [h]; rfl
      · right; exact List.mem_map.mpr ⟨d, h, rfl⟩
  have hwf : (Server.PushPullView tie_tx tie_rx v request {}).2.2.WF :=
    increment_age_wf (rx_nodes_wf tie_rx (tx_nodes_wf tie_tx hv) _)
  have hself : (Server.PushPullView tie_tx tie_rx v request {}).2.2._self.address
      = v._self.address :=
    rx_nodes_self_address tie_rx (v.tx_nodes tie_tx).2 _
  refine ⟨rfl, horigin, ?_, rfl, rfl⟩
  intro a ha hnew n hn hna
  rcases horigin n hn with h | h
  · apply hwf.self_absent
    rw [hself, ← h, hna]
    exact ha
  · exact hnew (hna ▸ h)

theorem push_pull_view_replies_before_merge_witness :
    fixture_full_view.WF ∧
    (Server.PushPullView (fun _ => 0) (fun _ => 0) fixture_full_view
        (ViewProtoHelper.make_proto five_new_nodes) {}).2.1
      = ViewProtoHelper.make_proto (fixture_full_view.tx_nodes (fun _ => 0)).1 :=
  ⟨rx_nodes_wf _ (constructor_wf _ _ _ _ _) _,
   (push_pull_view_replies_before_merge (fun _ => 0) (fun _ => 0) fixture_full_view
      (rx_nodes_wf _ (constructor_wf _ _ _ _ _) _)
      (ViewProtoHelper.make_proto five_new_nodes)).1⟩

/-- C23: two reachable views `A` and `B` with distinct own addresses, capacity at least 1
and no descriptor.  `B` runs `push_pull_view(address of A)`: it sends the payload of
`tx_nodes`; the transport delivers an ok status and the reply that the handler
`PushPullView` of `A` computes for this payload; `B` merges the reply.  Afterwards the view
of `A` holds exactly the address of `B` and the view of `B` exactly the address of `A`, and
`contains` is true for them. -/
theorem push_pull_join (A B : URView) (hrA : Reachable A) (hrB : Reachable B)
    (hne : A._self.address ≠ B._self.address) (hA : A._view = []) (hB : B._view = [])
    (hcA : 1 ≤ A._size) (hcB : 1 ≤ B._size) (t1 t2 t3 t4 : Nat → Nat) (net : Net)
    (hok : (net.outcome net.sent.length
      { server_address := A._self.address, method := RpcMethod.PushPullView,
        request := ViewProtoHelper.make_proto (B.tx_nodes t1).1 }).1.ok = true)
    (hreply : (net.outcome net.sent.length
      { server_address := A._self.address, method := RpcMethod.PushPullView,
        request := ViewProtoHelper.make_proto (B.tx_nodes t1).1 }).2
      = (Server.PushPullView t2 t3 A (ViewProtoHelper.make_proto (B.tx_nodes t1).1) {}).2.1) :
    (Client.push_pull_view_at t1 t4 net B A._self.address).1.ok = true ∧
    (Server.PushPullView t2 t3 A
      (ViewProtoHelper.make_proto (B.tx_nodes t1).1) {}).2.2.addresses = [B._self.address] ∧
    (Server.PushPullView t2 t3 A
      (ViewProtoHelper.make_proto (B.tx_nodes t1).1) {}).2.2.contains B._self.address = true ∧
    (Client.push_pull_view_at t1 t4 net B A._self.address).2.1.addresses
      = [A._self.address] ∧
    (Client.push_pull_view_at t1 t4 net B A._self.address).2.1.contains A._self.address
      = true := by
  have hlA := reachable_empty_index hrA hcA hA
  have hlB := reachable_empty_index hrB hcB hB
  obtain ⟨htxA, hvA⟩ := tx_nodes_of_view_nil t2 A hA
  obtain ⟨htxB, hvB⟩ := tx_nodes_of_view_nil t1 B hB
  -- the server side
  have hserver : (Server.PushPullView t2 t3 A
      (ViewProtoHelper.make_proto (B.tx_nodes t1).1) {}).2.2
      = ((A.tx_nodes t2).2.rx_nodes t3 [B._self]).increment_age := by
    show ((A.tx_nodes t2).2.rx_nodes t3
      (ViewProtoHelper.make_internal (ViewProtoHelper.make_proto (B.tx_nodes t1).1))).increment_age
      = _
    rw [make_internal_make_proto, htxB]
  have hA' := rx_nodes_single_into_empty t3 (A.tx_nodes t2).2 B._self hvA hlA hcA
    (fun h => hne h.symm)
  -- the client side
  have hclient : Client.push_pull_view_at t1 t4 net B A._self.address
      = ((net.outcome net.sent.length
          { server_address := A._self.address, method := RpcMethod.PushPullView,
            request := ViewProtoHelper.make_proto (B.tx_nodes t1).1 }).1,
         ((B.tx_nodes t1).2.rx_nodes t4 [A._self]).increment_age,
         { net with sent := net.sent ++
            [{ server_address := A._self.address, method := RpcMethod.PushPullView,
               request := ViewProtoHelper.make_proto (B.tx_nodes t1).1 }] }) := by
    have hreply' : ViewProtoHelper.make_internal (net.outcome net.sent.length
        { server_address := A._self.address, method := RpcMethod.PushPullView,
          request := ViewProtoHelper.make_proto (B.tx_nodes t1).1 }).2 = [A._self] := by
      rw [hreply]
      show ViewProtoHelper.make_internal (ViewProtoHelper.make_proto (A.tx_nodes t2).1) = _
      rw [make_internal_make_proto, htxA]
    unfold Client.push_pull_view_at ClientSession.push_pull_view Net.call
    simp only [hok, Bool.not_true, Bool.false_eq_true, if_false, hreply']
  have hB' := rx_nodes_single_into_empty t4 (B.tx_nodes t1).2 A._self hvB hlB hcB hne
  rw [hserver, hclient]
  exact ⟨hok, hA'.1, hA'.2, hB'.1, hB'.2⟩

theorem push_pull_join_witness :
    node0_view._self.address ≠ node1_view._self.address ∧
    (Server.PushPullView (fun _ => 0) (fun _ => 0) node0_view
      (ViewProtoHelper.make_proto (node1_view.tx_nodes (fun _ => 0)).1) {}).2.2.addresses
      = [node1_view._self.address] ∧
    (Client.push_pull_view_at (fun _ => 0) (fun _ => 0) (loopback_net node0_view) node1_view
      node0_view._self.address).2.1.addresses = [node0_view._self.address] :=
  ⟨by decide,
   (push_pull_join node0_view node1_view
      (Reachable.init_selector _ _ _ (Reachable.init _ _ _ _ _))
      (Reachable.init_selector _ _ _ (Reachable.init _ _ _ _ _))
      (by decide) rfl rfl (by decide) (by decide)
      (fun _ => 0) (fun _ => 0) (fun _ => 0) (fun _ => 0) (loopback_net node0_view)
      rfl rfl).2.1,
   (push_pull_join node0_view node1_view
      (Reachable.init_selector _ _ _ (Reachable.init _ _ _ _ _))
      (Reachable.init_selector _ _ _ (Reachable.init _ _ _ _ _))
      (by decide) rfl rfl (by decide) (by decide)
      (fun _ => 0) (fun _ => 0) (fun _ => 0) (fun _ => 0) (loopback_net node0_view)
      rfl rfl).2.2.2.1⟩

/-- C24 (counterexample): the joining service enters through its one entry point; a second
`enter()` then makes one exchange, which fails, and still returns true. -/
theorem enter_again_counterexample :
    joining_service._entered = false ∧
    (joining_service.enter (fun _ _ => 0) flaky_net).1 = true ∧
    joined_state.service._entered = true ∧
    joined_state.service._entry_points = ["0.0.0.0:50050"] ∧
    (joined_state.service.enter (fun _ _ => 0) joined_state.net).1 = true ∧
    (joined_state.service.enter (fun _ _ => 0) joined_state.net).2.statuses
      = [{ error_code := StatusCode.UNAVAILABLE, error_message := "failed to connect" }] ∧
    Status.ok { error_code := StatusCode.UNAVAILABLE, error_message := "failed to connect" }
      = false := by
  decide

/-- C24 (amended): called on a service whose `_entered` is false, `enter` makes one
exchange per entry point and returns true if and only if the entry-point list is empty or
the status of at least one of these exchanges is ok; so it returns false when the list is
not empty and every exchange failed.  Called on a service whose `_entered` is already true,
it returns true whatever the exchanges return.  The value returned is `_entered`. -/
theorem enter_returns_entered (ties : Nat → Nat → Nat) (s : PeerSamplingService)
    (net : Net) :
    (s._entered = false →
      ((s.enter ties net).1 = true ↔
        s._entry_points = [] ∨ ∃ st ∈ (s.enter ties net).2.statuses, st.ok = true)) ∧
    (s._entered = true → (s.enter ties net).1 = true) ∧
    (s.enter ties net).2.statuses.length = s._entry_points.length ∧
    (s.enter ties net).1 = (s.enter ties net).2.service._entered := by
  unfold PeerSamplingService.enter
  by_cases he : s._entry_points.length = 0
  · have hnil : s._entry_points = [] := List.length_eq_zero.mp he
    rw [if_pos he]
    simp [hnil]
  · have hne : s._entry_points ≠ [] := fun hn => he (by rw [hn]; rfl)
    rw [if_neg he]
    obtain ⟨new, h1, h2, h3⟩ := enter_loop_spec ties s._entry_points 0
      { service := s, net := net, statuses := [] }
    dsimp only at h1 h3 ⊢
    rw [h3, h1]
    refine ⟨?_, ?_, by simp [h2], rfl⟩
    · intro h
      simp [hne, h]
    · intro h
      simp [h]

theorem enter_returns_entered_witness :
    joining_service._entered = false ∧
    ((joining_service.enter (fun _ _ => 0) silent_net).1 = true ↔
      joining_service._entry_points = [] ∨
      ∃ st ∈ (joining_service.enter (fun _ _ => 0) silent_net).2.statuses, st.ok = true) :=
  ⟨rfl, (enter_returns_entered (fun _ _ => 0) joining_service silent_net).1 rfl⟩

/-- C25: `start_client` on a service whose `_entered` is false (as the constructor and
`exit` leave it, and as a failed `enter` returns it) changes nothing and creates no thread
object; on a service whose `_entered` is true it stores a new thread object on which
`start()` has been called, active and running when the thread could be created, and leaves
`_entered` and the view alone. -/
theorem start_client_requires_entered (s : PeerSamplingService) (spawned : Bool)
    (push pull : Bool) (wait_time timeout : Nat) (entry_points : List String)
    (view : URView) (ties : Nat → Nat → Nat) (net : Net) :
    (s._entered = false → s.start_client spawned = s) ∧
    (s._entered = true →
      (s.start_client spawned)._client_thread
        = some { _active := spawned, _thread := spawned } ∧
      (s.start_client true)._client_thread = some { _active := true, _thread := true } ∧
      (s.start_client spawned)._entered = true ∧
      (s.start_client spawned)._view = s._view) ∧
    (PeerSamplingService.new push pull wait_time timeout entry_points view)._entered = false ∧
    (PeerSamplingService.new push pull wait_time timeout entry_points view)._client_thread
      = none ∧
    s.exit.2._entered = false ∧
    ((s.enter ties net).1 = false →
      (s.enter ties net).2.service.start_client spawned = (s.enter ties net).2.service) := by
  refine ⟨?_, ?_, rfl, rfl, rfl, ?_⟩
  · intro h
    simp [PeerSamplingService.start_client, h]
  · intro h
    refine ⟨?_, ?_, ?_, ?_⟩
    · cases spawned <;>
        simp [PeerSamplingService.start_client, h, ClientThread.start, Client.thread]
    · simp [PeerSamplingService.start_client, h, ClientThread.start, Client.thread]
    · simp [PeerSamplingService.start_client, h]
    · simp [PeerSamplingService.start_client, h]
  · intro h
    have he : (s.enter ties net).2.service._entered = false := by
      rw [← (show (s.enter ties net).1 = (s.enter ties net).2.service._entered from ?_)]
      · exact h
      · unfold PeerSamplingService.enter
        split <;> rfl
    simp [PeerSamplingService.start_client, he]

theorem start_client_requires_entered_witness :
    joining_service._entered = false ∧
    (joining_service.start_client true)._client_thread = none ∧
    joined_state.service._entered = true ∧
    (joined_state.service.start_client true)._client_thread
      = some { _active := true, _thread := true } :=
  ⟨rfl,
   congrArg PeerSamplingService._client_thread
     ((start_client_requires_entered joining_service true true true 1 1 [] node1_view
        (fun _ _ => 0) silent_net).1 rfl),
   by decide,
   ((start_client_requires_entered joined_state.service true true true 1 1 [] node1_view
      (fun _ _ => 0) silent_net).2.1 (by decide)).2.1⟩

/-- C26 (fails in the code): on the drained view of size 0, whose `_view` is empty, the
primary no-replacement selector still returns the removed descriptor `a`, so each of the
three parameterless operations goes on and issues a call to `a` instead of returning
`NOT_FOUND`.  And on the empty fixture view with a logged primary selector created without
a log, the operations have no result at all. -/
theorem parameterless_on_empty_view_issues_call :
    Reachable drained_view ∧ drained_view._view = [] ∧
    (Client.push_view (fun _ => 0) 0 silent_net drained_view).map
        (fun r => (r.1.error_code, r.2.2.sent.map RpcCall.server_address))
      = some (StatusCode.UNAVAILABLE, ["a"]) ∧
    (Client.pull_view (fun _ => 0) 0 silent_net drained_view).map
        (fun r => (r.1.error_code, r.2.2.sent.map RpcCall.server_address))
      = some (StatusCode.UNAVAILABLE, ["a"]) ∧
    (Client.push_pull_view (fun _ => 0) (fun _ => 0) 0 silent_net drained_view).map
        (fun r => (r.1.error_code, r.2.2.sent.map RpcCall.server_address))
      = some (StatusCode.UNAVAILABLE, ["a"]) ∧
    Reachable (fixture_view.init_selector 3 none) ∧
    (fixture_view.init_selector 3 none)._view = [] ∧
    (Client.push_view (fun _ => 0) 0 silent_net (fixture_view.init_selector 3 none)).isNone
      = true ∧
    (Client.pull_view (fun _ => 0) 0 silent_net (fixture_view.init_selector 3 none)).isNone
      = true ∧
    (Client.push_pull_view (fun _ => 0) (fun _ => 0) 0 silent_net
      (fixture_view.init_selector 3 none)).isNone = true :=
  ⟨Reachable.rx_nodes _ _ _ (Reachable.init_selector _ _ _ (Reachable.init _ _ _ _ _)),
   by decide, by decide, by decide, by decide,
   Reachable.init_selector _ _ _ (Reachable.init _ _ _ _ _),
   by decide, by decide, by decide, by decide⟩

/-- C27: for every view state, when the transport returns a status that is not ok,
`pull_view(address)` returns that status and leaves the view exactly as it was;
`push_pull_view(address)` returns that status and leaves the view in the state in which
`tx_nodes` left it before the call was issued: `_view` holds the same descriptors with the
same ages (a permutation), the index and the own descriptor are the same, and neither
`rx_nodes` nor `increment_age` has been applied. -/
theorem failed_exchange_merges_nothing (tie_tx tie_rx : Nat → Nat) (net : Net) (v : URView)
    (address : String) :
    ((net.outcome net.sent.length
        { server_address := address, method := RpcMethod.PullView, request := {} }).1.ok
        = false →
      (Client.pull_view_at tie_rx net v address).1
        = (net.outcome net.sent.length
            { server_address := address, method := RpcMethod.PullView, request := {} }).1 ∧
      (Client.pull_view_at tie_rx net v address).2.1 = v) ∧
    ((net.outcome net.sent.length
        { server_address := address, method := RpcMethod.PushPullView,
          request := ViewProtoHelper.make_proto (v.tx_nodes tie_tx).1 }).1.ok = false →
      (Client.push_pull_view_at tie_tx tie_rx net v address).1
        = (net.outcome net.sent.length
            { server_address := address, method := RpcMethod.PushPullView,
              request := ViewProtoHelper.make_proto (v.tx_nodes tie_tx).1 }).1 ∧
      (Client.push_pull_view_at tie_tx tie_rx net v address).2.1 = (v.tx_nodes tie_tx).2 ∧
      (Client.push_pull_view_at tie_tx tie_rx net v address).2.1._view.Perm v._view ∧
      (Client.push_pull_view_at tie_tx tie_rx net v address).2.1._node_lut = v._node_lut ∧
      (Client.push_pull_view_at tie_tx tie_rx net v address).2.1._self = v._self) := by
  constructor
  · intro h
    unfold Client.pull_view_at ClientSession.pull_view Net.call
    simp only [h, Bool.not_false, if_true]
    exact ⟨trivial, trivial⟩
  · intro h
    have hcall : Client.push_pull_view_at tie_tx tie_rx net v address
        = ((net.outcome net.sent.length
            { server_address := address, method := RpcMethod.PushPullView,
              request := ViewProtoHelper.make_proto (v.tx_nodes tie_tx).1 }).1,
           (v.tx_nodes tie_tx).2,
           { net with sent := net.sent ++
              [{ server_address := address, method := RpcMethod.PushPullView,
                 request := ViewProtoHelper.make_proto (v.tx_nodes tie_tx).1 }] }) := by
      unfold Client.push_pull_view_at ClientSession.push_pull_view Net.call
      simp only [h, Bool.not_false, if_true]
    rw [hcall]
    exact ⟨rfl, rfl, tx_nodes_view_perm tie_tx v, rfl, rfl⟩

theorem failed_exchange_merges_nothing_witness :
    (silent_net.outcome silent_net.sent.length
      { server_address := "0.0.0.0:50050", method := RpcMethod.PushPullView,
        request := ViewProtoHelper.make_proto
          (fixture_full_view.tx_nodes (fun _ => 0)).1 }).1.ok = false ∧
    (Client.push_pull_view_at (fun _ => 0) (fun _ => 0) silent_net fixture_full_view
      "0.0.0.0:50050").2.1._view.Perm fixture_full_view._view :=
  ⟨rfl,
   ((failed_exchange_merges_nothing (fun _ => 0) (fun _ => 0) silent_net fixture_full_view
      "0.0.0.0:50050").2 rfl).2.2.1⟩

/-- C28: for every view state, `manual_insert` (both overloads) removes nothing and trims
nothing: the addresses held before are still there, in the same order and at the same
positions, followed by every inserted address that was not a key of the index (once each,
in arrival order), whatever the capacity `_size`.  In particular every inserted address for
which `contains` was false is in the view afterwards. -/
theorem manual_insert_keeps_and_appends (v : URView) (nodes : List NodeDescriptor)
    (node : NodeDescriptor) :
    (v.manual_insert nodes).addresses = v.addresses ++
      first_occurrences
        ((nodes.map NodeDescriptor.address).filter (fun a => a ∉ v._node_lut)) ∧
    (v.manual_insert_one node).addresses =
      v.addresses ++ (if node.address ∉ v._node_lut then [node.address] else []) ∧
    (∀ d ∈ nodes, v.contains d.address = false →
      d.address ∈ (v.manual_insert nodes).addresses) ∧
    (v.contains node.address = false →
      node.address ∈ (v.manual_insert_one node).addresses) ∧
    v._view.length ≤ (v.manual_insert nodes)._view.length ∧
    v._view.length ≤ (v.manual_insert_one node)._view.length := by
  have h1 := append_addresses v nodes
  have h2 := append_one_addresses v node
  have hl1 := congrArg List.length h1
  have hl2 := congrArg List.length h2
  simp only [URView.addresses, List.length_map, List.length_append] at hl1 hl2
  refine ⟨h1, h2, ?_, ?_, ?_, ?_⟩
  · intro d hd hc
    have hc' : d.address ∉ v._node_lut := by simpa [URView.contains] using hc
    show d.address ∈ (v.append nodes).addresses
    rw [h1]
    apply List.mem_append_right
    apply mem_first_occurrences
    simp only [List.mem_filter, List.mem_map]
    exact ⟨⟨d, hd, rfl⟩, by simpa using hc'⟩
  · intro hc
    have hc' : node.address ∉ v._node_lut := by simpa [URView.contains] using hc
    show node.address ∈ (v.append_one node).addresses
    rw [h2, if_pos hc']
    simp
  · show v._view.length ≤ (v.append nodes)._view.length
    omega
  · show v._view.length ≤ (v.append_one node)._view.length
    omega

theorem manual_insert_keeps_and_appends_witness :
    tiny_view._size = 1 ∧ tiny_view.contains "n3" = false ∧
    "n3" ∈ (tiny_view.manual_insert five_new_nodes).addresses ∧
    (tiny_view.manual_insert five_new_nodes)._view.length = 5 :=
  ⟨by decide, by decide,
   (manual_insert_keeps_and_appends tiny_view five_new_nodes ⟨"n3", 3⟩).2.2.1 ⟨"n3", 3⟩
     (by decide) (by decide),
   by decide⟩

/-- C29 (counterexample): the view holds `a` with age 5; `manual_insert` of `(a, 3)`, by
either overload, lowers the stored age of `a` to 3. -/
theorem manual_insert_lowers_age_counterexample :
    aged_view.addresses = ["a"] ∧ aged_view.stored_age "a" = some 5 ∧
    (aged_view.manual_insert_one ⟨"a", 3⟩).stored_age "a" = some 3 ∧
    (aged_view.manual_insert [⟨"a", 3⟩]).stored_age "a" = some 3 := by
  decide

/-- C29 (amended): on a well-formed view, `manual_insert` of a descriptor whose address is
already in the view (by either overload) leaves that address with the younger of the stored
and the inserted age: unchanged when the inserted age is not smaller, lowered to the
inserted age when it is. -/
theorem manual_insert_keeps_younger (v : URView) (hv : v.WF) (d : NodeDescriptor)
    (hd : d.address ∈ v.addresses) :
    ∃ stored, v.stored_age d.address = some stored ∧
      (v.manual_insert_one d).stored_age d.address = some (min stored d.age) ∧
      (v.manual_insert [d]).stored_age d.address = some (min stored d.age) ∧
      (stored ≤ d.age → (v.manual_insert_one d).stored_age d.address = some stored) := by
  obtain ⟨e, he, hed⟩ := List.mem_map.mp hd
  obtain ⟨h1, h2⟩ := append_step_stored_age hv d e he hed
  have hin : d.address ∈ v._node_lut := hv.covered _ hd
  have hone : v.manual_insert_one d = v.append_step d := by
    show v.append_one d = _
    unfold URView.append_one
    rw [if_neg (by simpa using hin)]
  have hlist : (v.manual_insert [d]).stored_age d.address
      = (v.append_step d).stored_age d.address :=
    stored_age_congr (append_view v [d]) (append_self v [d]) _
  refine ⟨e.age, h1, ?_, ?_, ?_⟩
  · rw [hone, h2]
  · rw [hlist, h2]
  · intro hle
    rw [hone, h2, Nat.min_eq_left hle]

theorem manual_insert_keeps_younger_witness :
    aged_view.WF ∧ "a" ∈ aged_view.addresses ∧
    (∃ stored, aged_view.stored_age "a" = some stored ∧
      (aged_view.manual_insert_one ⟨"a", 9⟩).stored_age "a" = some (min stored 9) ∧
      (aged_view.manual_insert [⟨"a", 9⟩]).stored_age "a" = some (min stored 9) ∧
      (stored ≤ 9 → (aged_view.manual_insert_one ⟨"a", 9⟩).stored_age "a" = some stored)) :=
  ⟨aged_view_wf, by decide,
   manual_insert_keeps_younger aged_view aged_view_wf ⟨"a", 9⟩ (by decide)⟩

/-- C30: for each of the six selector kinds `create_subscriber` returns the new selector,
of that kind, and pushes it onto the end of `_subscribers`; for every value of the type
argument that is none of the six enumerators it returns a null pointer and leaves the view,
its subscriber list included, as it was. -/
theorem create_subscriber_six_kinds (v : URView) (log : Option (List LogEntry))
    (type : Int) :
    (∀ k : SelectorType,
      (v.create_subscriber k.code log).1 = some (PeerSelector.create v k log) ∧
      (v.create_subscriber k.code log).2._subscribers
        = v._subscribers ++ [PeerSelector.create v k log] ∧
      (PeerSelector.create v k log).kind = k) ∧
    ((∀ k : SelectorType, type ≠ k.code) →
      (v.create_subscriber type log).1 = none ∧ (v.create_subscriber type log).2 = v) := by
  constructor
  · intro k
    refine ⟨?_, ?_, (create_ids_ok v k log).1⟩ <;> cases k <;> rfl
  · intro h
    have hnone : SelectorType.of_code type = none := by
      unfold SelectorType.of_code
      have h0 := h SelectorType.TAIL
      have h1 := h SelectorType.UNIFORM_RANDOM
      have h2 := h SelectorType.UNIFORM_RANDOM_NO_REPLACEMENT
      have h3 := h SelectorType.LOGGED_TAIL
      have h4 := h SelectorType.LOGGED_UNIFORM_RANDOM
      have h5 := h SelectorType.LOGGED_UNIFORM_RANDOM_NO_REPLACEMENT
      simp only [SelectorType.code] at h0 h1 h2 h3 h4 h5
      simp [h0, h1, h2, h3, h4, h5]
    unfold URView.create_subscriber
    rw [hnone]
    exact ⟨rfl, rfl⟩

theorem create_subscriber_six_kinds_witness :
    (fixture_view.create_subscriber 6 none).1 = none ∧
    (fixture_view.create_subscriber 6 none).2 = fixture_view :=
  (create_subscriber_six_kinds fixture_view none 6).2 (fun k => by cases k <;> decide)

/-! The lock, the oldest descriptors, the getters and the ring buffer (C31 - C40) -/

/-- C31 (fails in the code): of the public operations of a view and of its selectors,
`max_size`, `contains`, `print`, `create_subscriber` (hence `init_selector`), `select_peer`
with a no-replacement selector (through `random_selection`) and the selectors' `print`
access shared state of the view without holding its lock; `rx_nodes`, `tx_nodes`,
`increment_age`, `manual_insert` and `select_peer` of the tail and uniform selectors hold it
at every access.  No operation constructs a guard while the lock is held. -/
theorem lock_not_held_by_every_operation :
    accesses_under_lock false URView.contains_steps = false ∧
    accesses_under_lock false URView.max_size_steps = false ∧
    accesses_under_lock false URView.print_steps = false ∧
    accesses_under_lock false (URView.create_subscriber_steps SelectorType.TAIL) = false ∧
    accesses_under_lock false PeerSelector.random_selection_steps = false ∧
    (((public_operations [SelectorType.UNIFORM_RANDOM_NO_REPLACEMENT]).filter
        (fun op => !accesses_under_lock false op.2)).map Prod.fst).dedup
      = ["max_size", "contains", "print", "create_subscriber", "init_selector",
         "select_peer", "selector select_peer", "selector print"] ∧
    (((public_operations [SelectorType.UNIFORM_RANDOM_NO_REPLACEMENT]).filter
        (fun op => accesses_under_lock false op.2)).map Prod.fst).dedup
      = ["rx_nodes", "tx_nodes", "increment_age", "manual_insert", "select_peer",
         "selector select_peer"] ∧
    ((public_operations [SelectorType.UNIFORM_RANDOM_NO_REPLACEMENT]).all
        (fun op => never_relocks false op.2)) = true := by
  decide

/-- C32: for every list of descriptors with pairwise distinct addresses, every `n` and
every tie-break, with `m = min(max(n, 0), size)`: `move_old_to_back(n)` leaves a permutation
of the list (same descriptors, same ages, same length); every descriptor in the last `m`
positions is at least as old as every descriptor in the positions before them; and for
`n <= 0` the list is unchanged. -/
theorem move_old_to_back_oldest_last (tie : Nat → Nat) (view : List NodeDescriptor)
    (n : Int) (hnd : (view.map NodeDescriptor.address).Nodup) :
    (move_old_to_back_list tie view n).Perm view ∧
    (move_old_to_back_list tie view n).length = view.length ∧
    (∀ x ∈ (move_old_to_back_list tie view n).drop (view.length - min n.toNat view.length),
      ∀ y ∈ (move_old_to_back_list tie view n).take (view.length - min n.toNat view.length),
        y.age ≤ x.age) ∧
    (n ≤ 0 → move_old_to_back_list tie view n = view) := by
  obtain ⟨hp, hs⟩ := move_old_to_back_list_spec tie view n hnd
  have hidx : view.length - min n.toNat view.length = view.length - n.toNat := by omega
  refine ⟨hp, hp.length_eq, ?_, ?_⟩
  · rw [hidx]
    exact hs
  · intro hn
    unfold move_old_to_back_list
    rw [if_pos (Or.inl hn)]

theorem move_old_to_back_oldest_last_witness :
    ((vector_of_nodes 4).map NodeDescriptor.address).Nodup ∧
    (move_old_to_back_list (fun _ => 0) (vector_of_nodes 4) 2).Perm (vector_of_nodes 4) ∧
    (move_old_to_back_list (fun _ => 0) (vector_of_nodes 4) 2).map NodeDescriptor.age
      = [0, 1, 2, 3] :=
  ⟨by decide,
   (move_old_to_back_oldest_last (fun _ => 0) (vector_of_nodes 4) 2 (by decide)).1,
   by decide⟩

/-- C33 (fails in the code): the view holds `a`, `b`, `c`; `remove_head(2)` cuts `a` and `b`
off `_view`, but its loop reads the unchanged `_view.front()` twice: only the key `a` is
erased from `_node_lut`, the key `b` stays, and the list handed to `notify_delete` is `a`,
`a`. -/
theorem remove_head_erases_front_only :
    Reachable three_view ∧ three_view.addresses = ["a", "b", "c"] ∧
    three_view._node_lut = ["self", "a", "b", "c"] ∧
    (three_view.remove_head 2).addresses = ["c"] ∧
    (three_view.remove_head 2)._node_lut = ["self", "b", "c"] ∧
    (three_view.remove_head 2).contains "b" = true ∧
    three_view.remove_head_removed 2 = ["a", "a"] :=
  ⟨Reachable.manual_insert _ _ (Reachable.init _ _ _ _ _),
   by decide, by decide, by decide, by decide, by decide, by decide⟩

/-- C34: for every service state, every entry-point list and every transport (every pattern
of successes and failures), one call of `enter` issues exactly one `PushPullView` call per
entry point, to the entry points in list order, and nothing else; it has as many statuses
as entry points, so no success and no failure ends the walk early. -/
theorem enter_contacts_every_entry_point (ties : Nat → Nat → Nat) (s : PeerSamplingService)
    (net : Net) :
    ∃ calls : List RpcCall,
      (s.enter ties net).2.net.sent = net.sent ++ calls ∧
      calls.map RpcCall.server_address = s._entry_points ∧
      (∀ c ∈ calls, c.method = RpcMethod.PushPullView) ∧
      (s.enter ties net).2.statuses.length = s._entry_points.length := by
  unfold PeerSamplingService.enter
  by_cases he : s._entry_points.length = 0
  · have hnil : s._entry_points = [] := List.length_eq_zero.mp he
    rw [if_pos he]
    exact ⟨[], by simp [hnil]⟩
  · rw [if_neg he]
    obtain ⟨calls, h1, h2, h3⟩ := enter_loop_sent ties s._entry_points 0
      { service := s, net := net, statuses := [] }
    obtain ⟨new, h4, h5, -⟩ := enter_loop_spec ties s._entry_points 0
      { service := s, net := net, statuses := [] }
    refine ⟨calls, h1, h2, h3, ?_⟩
    dsimp only at h4 ⊢
    rw [h4]
    simpa using h5

/-- C35 (counterexample): the fixture view of capacity 10 after `rx_nodes` of five distinct
descriptors: `size()` returns 10; the number of descriptors, 5, is what `max_size()`
returns. -/
theorem size_reports_capacity_counterexample :
    (fixture_view.rx_nodes (fun _ => 0) five_new_nodes).size = 10 ∧
    (fixture_view.rx_nodes (fun _ => 0) five_new_nodes)._view.length = 5 ∧
    (fixture_view.rx_nodes (fun _ => 0) five_new_nodes).max_size = 5 := by
  decide

/-- C35 (amended): after `rx_nodes` of `n` descriptors with pairwise distinct addresses,
none of them the view's own, into a freshly constructed view of capacity `c >= n`, `size()`
returns the capacity `c` and `max_size()` returns `n`, the number of descriptors held; so
`size()` returns `n` exactly when `n = c`, as in the test. -/
theorem size_reports_capacity (tie : Nat → Nat) (address : String) (c healing swap : Int)
    (eng : Engine) (nodes : List NodeDescriptor)
    (hnd : (nodes.map NodeDescriptor.address).Nodup)
    (hself : ∀ p ∈ nodes, p.address ≠ address) (hle : (nodes.length : Int) ≤ c) :
    ((URView.new address c healing swap eng).rx_nodes tie nodes).size = c ∧
    ((URView.new address c healing swap eng).rx_nodes tie nodes).max_size = nodes.length ∧
    ((URView.new address c healing swap eng).rx_nodes tie nodes)._view = nodes := by
  have hfresh : (nodes.foldl URView.append_step (URView.new address c healing swap eng))._view
      = [] ++ nodes :=
    append_steps_fresh nodes (URView.new address c healing swap eng)
      (fun p hp => by simpa [URView.new] using hself p hp) hnd
  have hview : ((URView.new address c healing swap eng).append nodes)._view = nodes := by
    rw [append_view, hfresh, List.nil_append]
  have heq : (URView.new address c healing swap eng).rx_nodes tie nodes
      = (URView.new address c healing swap eng).append nodes := by
    apply rx_nodes_eq_append_of_le
    rw [hview, (append_config _ nodes).1]
    exact hle
  rw [heq]
  refine ⟨(append_config _ nodes).1, ?_, hview⟩
  unfold URView.max_size
  rw [hview]

theorem size_reports_capacity_witness :
    ((vector_of_nodes 10).map NodeDescriptor.address).Nodup ∧
    (fixture_view.rx_nodes (fun _ => 0) (vector_of_nodes 10)).size = 10 ∧
    (fixture_view.rx_nodes (fun _ => 0) (vector_of_nodes 10)).max_size
      = ((vector_of_nodes 10).length : Int) :=
  ⟨by decide,
   (size_reports_capacity (fun _ => 0) "192.168.225.1:5012" 10 5 5 (fun i => 7 * i + 3)
      (vector_of_nodes 10) (by decide) (by decide) (by decide)).1,
   (size_reports_capacity (fun _ => 0) "192.168.225.1:5012" 10 5 5 (fun i => 7 * i + 3)
      (vector_of_nodes 10) (by decide) (by decide) (by decide)).2.1⟩

/-- C36: for every well-formed view state and every incoming list `L` such that the view
holds at most `c` descriptors after `L` is merged, whatever the tie-breaks: a second
`rx_nodes(L)` leaves `_view` (addresses, order and ages), `_node_lut` and the own
descriptor exactly as the first left them. -/
theorem rx_nodes_idempotent_below_capacity (tie tie2 : Nat → Nat) (v : URView) (hv : v.WF)
    (L : List NodeDescriptor) (h : ((v.append L)._view.length : Int) ≤ v._size) :
    ((v.rx_nodes tie L).rx_nodes tie2 L)._view = (v.rx_nodes tie L)._view ∧
    ((v.rx_nodes tie L).rx_nodes tie2 L)._node_lut = (v.rx_nodes tie L)._node_lut ∧
    ((v.rx_nodes tie L).rx_nodes tie2 L)._self = (v.rx_nodes tie L)._self := by
  have h1 : v.rx_nodes tie L = v.append L :=
    rx_nodes_eq_append_of_le tie v L (by rw [(append_config v L).1]; exact h)
  obtain ⟨ha, hb, hc⟩ := append_append_self hv L
  have h2 : (v.append L).rx_nodes tie2 L = (v.append L).append L := by
    apply rx_nodes_eq_append_of_le
    rw [ha, (append_config _ L).1, (append_config v L).1]
    exact h
  rw [h1, h2]
  exact ⟨ha, hb, hc⟩

theorem rx_nodes_idempotent_below_capacity_witness :
    fixture_view.WF ∧
    ((fixture_view.append (vector_of_nodes 10))._view.length : Int) ≤ fixture_view._size ∧
    ((fixture_view.rx_nodes (fun _ => 0) (vector_of_nodes 10)).rx_nodes (fun _ => 1)
        (vector_of_nodes 10))._view
      = (fixture_view.rx_nodes (fun _ => 0) (vector_of_nodes 10))._view :=
  ⟨constructor_wf _ _ _ _ _, by decide,
   (rx_nodes_idempotent_below_capacity (fun _ => 0) (fun _ => 1) fixture_view
      (constructor_wf _ _ _ _ _) (vector_of_nodes 10) (by decide)).1⟩

/-- C37: for every view state, generator outcome and tie-break, `tx_nodes` leaves in
`_view` a permutation of what was there (same descriptors, same ages), and leaves
`_node_lut`, the own descriptor, the parameters, the primary selector and every subscriber
(its queue included) exactly as they were; only the order of `_view` and the generator may
differ. -/
theorem tx_nodes_only_reorders (tie : Nat → Nat) (v : URView) :
    (v.tx_nodes tie).2._view.Perm v._view ∧
    (v.tx_nodes tie).2._node_lut = v._node_lut ∧
    (v.tx_nodes tie).2._self = v._self ∧
    (v.tx_nodes tie).2._subscribers = v._subscribers ∧
    (v.tx_nodes tie).2._subscribers.map PeerSelector._qos_queue
      = v._subscribers.map PeerSelector._qos_queue ∧
    (v.tx_nodes tie).2._selector = v._selector ∧
    (v.tx_nodes tie).2._size = v._size ∧ (v.tx_nodes tie).2._healing = v._healing ∧
    (v.tx_nodes tie).2._swap = v._swap :=
  ⟨tx_nodes_view_perm tie v, rfl, rfl, rfl, rfl, rfl, rfl, rfl, rfl⟩

/-- C38: in every reachable state `contains` is true for the view's own address and for the
address of every descriptor in `_view`: the keys of `_node_lut` are a superset of the
addresses held plus the own address. -/
theorem index_covers_view (v : URView) (h : Reachable v) :
    v.contains v._self.address = true ∧
    (∀ d ∈ v._view, v.contains d.address = true) ∧
    (∀ a ∈ v._self.address :: v.addresses, a ∈ v._node_lut) := by
  have hw := reachable_wf h
  refine ⟨by simpa [URView.contains] using hw.self_indexed, ?_, ?_⟩
  · intro d hd
    simpa [URView.contains] using hw.covered _ (List.mem_map_of_mem _ hd)
  · intro a ha
    rcases List.mem_cons.mp ha with ha | ha
    · rw [ha]; exact hw.self_indexed
    · exact hw.covered a ha

theorem index_covers_view_witness :
    fixture_full_view.contains fixture_full_view._self.address = true ∧
    (∀ d ∈ fixture_full_view._view, fixture_full_view.contains d.address = true) :=
  ⟨(index_covers_view fixture_full_view
      (Reachable.rx_nodes _ _ _ (Reachable.init _ _ _ _ _))).1,
   (index_covers_view fixture_full_view
      (Reachable.rx_nodes _ _ _ (Reachable.init _ _ _ _ _))).2.1⟩

/-- C39 (fails in the code): a manager configured with the logged tail selector calls
`init_selector(LOGGED_TAIL)` without a log, so the primary selector of its view is a logged
selector whose `_log` is null; `select_peer` on the view dereferences it and has no result.
The same holds for the other two logged kinds and for a subscriber obtained from
`subscribe` with the default log argument. -/
theorem manager_logged_selector_has_no_sink :
    logged_manager.view._selector = some 0 ∧
    logged_manager.view._subscribers
      = [{ kind := SelectorType.LOGGED_TAIL, _log := none, _id := "192.168.225.1:5012" }] ∧
    (logged_manager.view.select_peer 0).isNone = true ∧
    ((PSSManager.new "192.168.225.1:5012" true true 1 1 [] 4 10 5 5
        (fun _ => 0)).view.select_peer 0).isNone = true ∧
    ((PSSManager.new "192.168.225.1:5012" true true 1 1 [] 5 10 5 5
        (fun _ => 0)).view.select_peer 0).isNone = true ∧
    (((PSSManager.new "192.168.225.1:5012" true true 1 1 [] 0 10 5 5
        (fun _ => 0)).subscribe 3 none).2.view.select_peer_sub 1 0).isNone = true := by
  decide

/-- C40 (fails in the code): two elements pushed onto an empty buffer of capacity 2 are held
in push order, and `consume` returns the first; the third push finds the buffer full and
calls `pop()` while it holds the lock, so it has no result: `size()` and `data()` are never
reached.  The same with capacity 1 and two pushes. -/
theorem ring_push_onto_full_has_no_result :
    ((TSRingBuffer.new Nat 2).push_all [7, 8]).bind TSRingBuffer.size = some 2 ∧
    ((TSRingBuffer.new Nat 2).push_all [7, 8]).bind TSRingBuffer.data
      = some [some 7, some 8] ∧
    (((TSRingBuffer.new Nat 2).push_all [7, 8]).bind TSRingBuffer.consume).map Prod.fst
      = some (some 7) ∧
    ((TSRingBuffer.new Nat 2).push_all [7, 8, 9]).isNone = true ∧
    (((TSRingBuffer.new Nat 2).push_all [7, 8]).bind (fun b => b.push 9)).isNone = true ∧
    ((TSRingBuffer.new Nat 1).push_all [7, 8]).isNone = true := by
  decide

end gossip
